import Mathlib

/-!
# Verification of the crawlerWhipAI engine against its specification

This file gives a shallow embedding, in Lean 4, of the core pure logic of the
crawlerWhipAI asynchronous web crawler, translated from the Python sources:

* `crawlerWhipAI/dispatch/rate_limiter.py` (`RateLimiter`)
* `crawlerWhipAI/dispatch/dispatcher.py` (`SemaphoreDispatcher.dispatch`)
* `crawlerWhipAI/cache/storage.py` (`CacheStorage.get` / `set`)
* `crawlerWhipAI/utils/url.py` (`normalize_url` and friends, together with
  the parts of CPython 3.11 `urllib.parse` that they call)
* `crawlerWhipAI/content/markdown.py` (`MarkdownConverter`)
* `crawlerWhipAI/core/crawler.py` (`_html_to_markdown`, `_http_fetch`,
  the cache-read fast path of `arun`)
* `crawlerWhipAI/discovery/link_mapper.py` (`LinkMapper.map_links`)

Strings are modelled as Lean `List Char` (Unicode scalar values); Python
numbers as `Nat`/`Int`/`ℚ`.  Stateful Python code is modelled by explicit
state passing; `asyncio` task sets are modelled by sequential execution (for
the dispatcher the completion order is an explicit permutation parameter).
Fallible code returns `Except String`.

Python's Unicode-aware `str.lower()` is modelled as ASCII-only lowercasing,
and the NFKC netloc audit of `urllib.parse._checknetloc` (which can only
reject exotic non-ASCII authorities) is omitted; otherwise the URL machinery
follows CPython 3.11 byte for byte.
-/

namespace CrawlerWhip

/-! ## Rate limiter (`dispatch/rate_limiter.py`)

Per-domain state is a triple of association lists mirroring the Python
dictionaries `domain_delays`, `last_request` and `failure_counts`.  The
jitter factor drawn by `random.uniform(0.75, 1.25)` inside `on_rate_limited`
is passed in explicitly. -/

/-- Lookup in an association list, mirroring `dict.get(k)`. -/
def alookup {α : Type} (l : List (String × α)) (k : String) : Option α :=
  (l.find? (fun p => p.1 == k)).map (·.2)

/-- Upsert in an association list, mirroring `d[k] = v`. -/
def aset {α : Type} (l : List (String × α)) (k : String) (v : α) :
    List (String × α) :=
  match l with
  | [] => [(k, v)]
  | (k', v') :: rest =>
      if k' == k then (k', v) :: rest else (k', v') :: aset rest k v

/-- State of `RateLimiter` (constructor arguments plus the three dicts). -/
structure RateLimiter where
  baseDelayMin : ℚ
  baseDelayMax : ℚ
  maxDelay : ℚ
  maxRetries : Nat
  domainDelays : List (String × ℚ)
  lastRequest : List (String × ℚ)
  failureCounts : List (String × Nat)

/-- `RateLimiter.__init__` with the given parameters and empty per-domain
state. -/
def RateLimiter.init (baseDelayMin baseDelayMax maxDelay : ℚ)
    (maxRetries : Nat) : RateLimiter :=
  { baseDelayMin := baseDelayMin
    baseDelayMax := baseDelayMax
    maxDelay := maxDelay
    maxRetries := maxRetries
    domainDelays := []
    lastRequest := []
    failureCounts := [] }

/-- `self.domain_delays.get(domain, self.base_delay_min)`. -/
def RateLimiter.currentDelay (rl : RateLimiter) (domain : String) : ℚ :=
  (alookup rl.domainDelays domain).getD rl.baseDelayMin

/-- `RateLimiter.on_success`: delay decays by the factor 0.75 but never
below `base_delay_min`; the failure count resets to 0. -/
def RateLimiter.onSuccess (rl : RateLimiter) (domain : String) : RateLimiter :=
  let currentDelay := rl.currentDelay domain
  let newDelay := max rl.baseDelayMin (currentDelay * (3/4 : ℚ))
  { rl with
    domainDelays := aset rl.domainDelays domain newDelay
    failureCounts := aset rl.failureCounts domain 0 }

/-- `RateLimiter.on_rate_limited`: the failure count is incremented and the
delay is doubled with jitter `j` (the value drawn from `U(0.75, 1.25)`),
capped at `max_delay`.  Returns the updated state and the new failure
count. -/
def RateLimiter.onRateLimited (rl : RateLimiter) (domain : String) (j : ℚ) :
    RateLimiter × Nat :=
  let currentDelay := rl.currentDelay domain
  let failureCount := (alookup rl.failureCounts domain).getD 0 + 1
  let newDelay := min (currentDelay * 2 * j) rl.maxDelay
  ({ rl with
     domainDelays := aset rl.domainDelays domain newDelay
     failureCounts := aset rl.failureCounts domain failureCount },
   failureCount)

/-- `RateLimiter.wait` at wall-clock time `now`: computes the sleep duration
from the current delay and last-request time, then stamps the last-request
time with the wake-up instant.  Returns the slept duration and the new
state. -/
def RateLimiter.wait (rl : RateLimiter) (domain : String) (now : ℚ) :
    ℚ × RateLimiter :=
  let currentDelay := rl.currentDelay domain
  let lastTime := (alookup rl.lastRequest domain).getD 0
  let timeSinceLast := now - lastTime
  let waitTime := if timeSinceLast < currentDelay then currentDelay - timeSinceLast else 0
  (waitTime, { rl with lastRequest := aset rl.lastRequest domain (now + waitTime) })

/-- `RateLimiter.should_retry`. -/
def RateLimiter.shouldRetry (rl : RateLimiter) (_domain : String)
    (failureCount : Nat) : Bool :=
  failureCount < rl.maxRetries

/-- The sequence of per-domain delays observed after each of a run of
consecutive `on_rate_limited` calls with the given jitter draws. -/
def RateLimiter.delaysAfterRateLimited (rl : RateLimiter) (domain : String) :
    List ℚ → List ℚ
  | [] => []
  | j :: js =>
      let rl' := (rl.onRateLimited domain j).1
      rl'.currentDelay domain :: rl'.delaysAfterRateLimited domain js

/-- An external event fed to the rate limiter: a successful request, a
rate-limited response (with its jitter draw), or a `wait` call at a given
time. -/
inductive RLEvent where
  | success (domain : String)
  | rateLimited (domain : String) (jitter : ℚ)
  | wait (domain : String) (now : ℚ)

/-- Apply one event to the rate limiter state. -/
def RateLimiter.applyEvent (rl : RateLimiter) : RLEvent → RateLimiter
  | .success d => rl.onSuccess d
  | .rateLimited d j => (rl.onRateLimited d j).1
  | .wait d now => (rl.wait d now).2

/-- Apply a list of events left to right. -/
def RateLimiter.applyEvents (rl : RateLimiter) (evs : List RLEvent) :
    RateLimiter :=
  evs.foldl RateLimiter.applyEvent rl

/-- Jitter draws lie in the closed support of `U(0.75, 1.25)`. -/
def RLEvent.jitterInRange : RLEvent → Prop
  | .rateLimited _ j => 3/4 ≤ j ∧ j ≤ 5/4
  | _ => True

/-! ## Dispatcher (`dispatch/dispatcher.py`)

`SemaphoreDispatcher.dispatch` runs `asyncio.gather(*[sem_task(t) …],
return_exceptions=True)`.  A task is modelled by its eventual outcome
(`Except.error` models a coroutine that raises).  `gather` allocates one
result slot per input task and each task, on completion, writes its outcome
into its own slot; completion order is an explicit parameter (the semaphore
only restricts which completion orders can occur, so we quantify over all
of them). -/

/-- The slot array after the tasks listed in `order` (by input index) have
completed and written their outcomes. -/
def runSchedule (tasks : List (Except String α)) :
    List Nat → List (Option (Except String α)) →
      List (Option (Except String α))
  | [], slots => slots
  | i :: rest, slots =>
      match tasks.get? i with
      | some t => runSchedule tasks rest (slots.set i (some t))
      | none => runSchedule tasks rest slots

/-- `SemaphoreDispatcher.dispatch`: gather all tasks (under the semaphore,
which fixes some completion order `order`) and return the slot array in
input order. -/
def SemaphoreDispatcher.dispatch (tasks : List (Except String α))
    (order : List Nat) : List (Except String α) :=
  (runSchedule tasks order
      (List.replicate tasks.length none)).map (·.getD (Except.error ""))

/-! ## Bytes and UTF-8

Python `str` values are modelled as `List Char` (Unicode scalar values) and
`bytes` as `List Nat` with entries below 256.  `str.encode('utf-8')` and
`bytes.decode('utf-8', errors='replace')` are modelled by `utf8Encode` and
`utf8DecodeReplace`; the decoder accepts exactly the well-formed sequences
(no overlong forms, no surrogates, at most U+10FFFF), as CPython's decoder
does, and substitutes U+FFFD for ill-formed subsequences. -/

/-- U+FFFD REPLACEMENT CHARACTER, produced by `errors='replace'`. -/
def replacementChar : Char := Char.ofNat 0xFFFD

/-- UTF-8 encoding of one scalar value, as in `str.encode('utf-8')`. -/
def utf8EncodeChar (c : Char) : List Nat :=
  let v := c.toNat
  if v < 128 then [v]
  else if v < 2048 then [192 + v / 64, 128 + v % 64]
  else if v < 65536 then
    [224 + v / 4096, 128 + v / 64 % 64, 128 + v % 64]
  else
    [240 + v / 262144, 128 + v / 4096 % 64, 128 + v / 64 % 64, 128 + v % 64]

/-- UTF-8 encoding of a whole string. -/
def utf8Encode (s : List Char) : List Nat := s.flatMap utf8EncodeChar

/-- Whether the first continuation byte is in range for lead byte `b`
(UTF-8 excludes overlong forms, surrogates and values above U+10FFFF by
restricting the first continuation byte). -/
def utf8FirstContOk (b b1 : Nat) : Prop :=
  if b = 224 then 160 ≤ b1 ∧ b1 ≤ 191
  else if b = 237 then 128 ≤ b1 ∧ b1 ≤ 159
  else if b = 240 then 144 ≤ b1 ∧ b1 ≤ 191
  else if b = 244 then 128 ≤ b1 ∧ b1 ≤ 143
  else 128 ≤ b1 ∧ b1 ≤ 191

instance (b b1 : Nat) : Decidable (utf8FirstContOk b b1) := by
  unfold utf8FirstContOk
  infer_instance

/-- One step of the UTF-8 decoder: given the lead byte `b` and the
remaining input `bs`, return the decoded scalar value (or `none` for an
ill-formed sequence) together with the number of bytes of `bs` consumed
(for an ill-formed sequence, the length of its maximal valid subpart, as
with `errors='replace'`). -/
def decodeSeq (b : Nat) (bs : List Nat) : Option Nat × Nat :=
  if b < 128 then (some b, 0)
  else if 194 ≤ b ∧ b ≤ 223 then
    match bs with
    | b1 :: _ =>
        if 128 ≤ b1 ∧ b1 ≤ 191 then (some ((b - 192) * 64 + (b1 - 128)), 1)
        else (none, 0)
    | [] => (none, 0)
  else if 224 ≤ b ∧ b ≤ 239 then
    match bs with
    | b1 :: rest1 =>
        if utf8FirstContOk b b1 then
          match rest1 with
          | b2 :: _ =>
              if 128 ≤ b2 ∧ b2 ≤ 191 then
                (some ((b - 224) * 4096 + (b1 - 128) * 64 + (b2 - 128)), 2)
              else (none, 1)
          | [] => (none, 1)
        else (none, 0)
    | [] => (none, 0)
  else if 240 ≤ b ∧ b ≤ 244 then
    match bs with
    | b1 :: rest1 =>
        if utf8FirstContOk b b1 then
          match rest1 with
          | b2 :: rest2 =>
              if 128 ≤ b2 ∧ b2 ≤ 191 then
                match rest2 with
                | b3 :: _ =>
                    if 128 ≤ b3 ∧ b3 ≤ 191 then
                      (some ((b - 240) * 262144 + (b1 - 128) * 4096
                          + (b2 - 128) * 64 + (b3 - 128)), 3)
                    else (none, 2)
                | [] => (none, 2)
              else (none, 1)
          | [] => (none, 1)
        else (none, 0)
    | [] => (none, 0)
  else (none, 0)

/-- UTF-8 decoding with `errors='replace'`. -/
def utf8DecodeReplace : List Nat → List Char
  | [] => []
  | b :: bs =>
      match decodeSeq b bs with
      | (some v, k) => Char.ofNat v :: utf8DecodeReplace (bs.drop k)
      | (none, k) => replacementChar :: utf8DecodeReplace (bs.drop k)
  termination_by l => l.length
  decreasing_by all_goals (simp [List.length_drop]; omega)

/-! ## Percent-encoding (`urllib.parse.quote`, `quote_plus`, `unquote`)

`quote` encodes to UTF-8 and percent-escapes every byte outside
`_ALWAYS_SAFE ∪ safe` (uppercase hex); `quote_plus` additionally maps
spaces to `+`.  `unquote` splits the string into maximal ASCII runs,
percent-decodes each run and UTF-8-decodes the resulting bytes with
`errors='replace'`; `parse_qsl` first replaces `+` by a space.  The
`%`-splitting loop of `unquote_to_bytes` is written here as a direct
recursion (`percentDecode`), which is pointwise equal to CPython's
split-on-`%` formulation because the chunks between `%`s contain no `%`. -/

/-- ASCII lowercasing of one character (model of `str.lower()`, restricted
to ASCII; see the header note). -/
def asciiLowerChar (c : Char) : Char :=
  if 65 ≤ c.toNat ∧ c.toNat ≤ 90 then Char.ofNat (c.toNat + 32) else c

/-- ASCII lowercasing of a string. -/
def asciiLower (s : List Char) : List Char := s.map asciiLowerChar

/-- `str.replace(a, b)` for single characters. -/
def replaceChar (a b : Char) (s : List Char) : List Char :=
  s.map (fun c => if c = a then b else c)

/-- `urllib.parse._ALWAYS_SAFE`: ASCII letters, digits, and `_.-~`. -/
def alwaysSafeByte (b : Nat) : Prop :=
  (65 ≤ b ∧ b ≤ 90) ∨ (97 ≤ b ∧ b ≤ 122) ∨ (48 ≤ b ∧ b ≤ 57) ∨
    b = 95 ∨ b = 46 ∨ b = 45 ∨ b = 126

instance (b : Nat) : Decidable (alwaysSafeByte b) := by
  unfold alwaysSafeByte
  infer_instance

/-- Uppercase hex digit for a value below 16 (`'%{:02X}'.format`). -/
def hexUpperDigit (n : Nat) : Char :=
  if n < 10 then Char.ofNat (48 + n) else Char.ofNat (55 + n)

/-- `_Quoter.__missing__`: a safe byte stands for itself, any other byte
becomes `%XX` with uppercase hex. -/
def quoteByte (safe : List Nat) (b : Nat) : List Char :=
  if alwaysSafeByte b ∨ (b ∈ safe ∧ b < 128) then [Char.ofNat b]
  else ['%', hexUpperDigit (b / 16 % 16), hexUpperDigit (b % 16)]

/-- `quote_from_bytes(bs, safe)`. -/
def quoteFromBytes (bs : List Nat) (safe : List Nat) : List Char :=
  bs.flatMap (quoteByte safe)

/-- `quote(s, safe)` for a `str` argument: encode as UTF-8, then escape. -/
def pyQuote (s : List Char) (safe : List Nat) : List Char :=
  quoteFromBytes (utf8Encode s) safe

/-- `quote_plus(s)` with `safe=''`: if the string has no space, plain
`quote`; otherwise quote with space safe and then turn spaces into `+`. -/
def pyQuotePlus (s : List Char) : List Char :=
  if ' ' ∈ s then replaceChar ' ' '+' (pyQuote s [32]) else pyQuote s []

/-- Value of an ASCII hex-digit byte (`_hextobyte` is case-insensitive). -/
def hexDigitVal (b : Nat) : Option Nat :=
  if 48 ≤ b ∧ b ≤ 57 then some (b - 48)
  else if 65 ≤ b ∧ b ≤ 70 then some (b - 55)
  else if 97 ≤ b ∧ b ≤ 102 then some (b - 87)
  else none

/-- After a `%`, try to read two hex digits; return the decoded byte and
the number of bytes consumed. -/
def percentStep (rest : List Nat) : Option (Nat × Nat) :=
  match rest with
  | h1 :: h2 :: _ =>
      match hexDigitVal h1, hexDigitVal h2 with
      | some x, some y => some (x * 16 + y, 2)
      | _, _ => none
  | _ => none

/-- The percent-unescaping loop of `unquote_to_bytes`, as a direct
recursion over the byte string: `%` followed by two hex digits becomes one
byte, any other byte is literal. -/
def percentDecode : List Nat → List Nat
  | [] => []
  | b :: rest =>
      if b = 37 then
        match percentStep rest with
        | some (v, k) => v :: percentDecode (rest.drop k)
        | none => 37 :: percentDecode rest
      else b :: percentDecode rest
  termination_by l => l.length
  decreasing_by
    all_goals simp only [List.length_cons, List.length_drop]
    all_goals omega

/-- `unquote_to_bytes(s)` for a `str` argument: encode as UTF-8 and
percent-unescape. -/
def unquoteToBytes (s : List Char) : List Nat :=
  percentDecode (utf8Encode s)

/-- The loop of `unquote`: maximal ASCII runs are percent-decoded and then
UTF-8-decoded with `errors='replace'`; non-ASCII characters pass through
(this is the `_asciire.split` traversal). -/
def unquoteCore : List Char → List Char
  | [] => []
  | c :: rest =>
      if c.toNat < 128 then
        utf8DecodeReplace (unquoteToBytes
            (c :: rest.takeWhile (fun d => decide (d.toNat < 128))))
          ++ unquoteCore (rest.dropWhile (fun d => decide (d.toNat < 128)))
      else c :: unquoteCore rest
  termination_by l => l.length
  decreasing_by
    all_goals simp only [List.length_cons]
    · have hle : (rest.dropWhile (fun d => decide (d.toNat < 128))).length
          ≤ rest.length := by
        induction rest with
        | nil => simp [List.dropWhile]
        | cons a r ih =>
            rw [List.dropWhile_cons]
            split
            · simp only [List.length_cons]; omega
            · simp
      omega
    · omega

/-- `unquote(s)` (UTF-8, `errors='replace'`): early return when there is no
`%`, otherwise the ASCII-run traversal. -/
def pyUnquote (s : List Char) : List Char :=
  if '%' ∈ s then unquoteCore s else s

/-! ## Query strings (`parse_qsl`, `parse_qs`, `urlencode`)

`normalize_url` parses the query with
`parse_qs(query, keep_blank_values=True)`, flattens single-value lists,
sorts the items by key and re-encodes with
`urlencode(sorted(...), doseq=True)` (whose `quote_via` default is
`quote_plus`). -/

/-- Python `str.split(sep)` for a one-character separator (never called on
an empty string by this code). -/
def splitOnChar (sep : Char) : List Char → List (List Char)
  | [] => [[]]
  | c :: rest =>
      match splitOnChar sep rest with
      | h :: t => if c = sep then [] :: h :: t else (c :: h) :: t
      | [] => [[c]]

/-- Python `str.split(sep, 1)`: split at the first occurrence, or `none`
when the separator does not occur. -/
def splitFirst (sep : Char) : List Char → Option (List Char × List Char)
  | [] => none
  | c :: rest =>
      if c = sep then some ([], rest)
      else
        match splitFirst sep rest with
        | some (l, r) => some (c :: l, r)
        | none => none

/-- `parse_qsl(qs, keep_blank_values=True)`: split on `&`, skip empty
chunks, split each chunk at the first `=` (a chunk without `=` keeps its
name with a blank value), then `+`-to-space and `unquote` each side. -/
def parseQsl (qs : List Char) : List (List Char × List Char) :=
  if qs = [] then []
  else
    (splitOnChar '&' qs).flatMap fun nv =>
      if nv = [] then []
      else
        match splitFirst '=' nv with
        | some (name, value) =>
            [(pyUnquote (replaceChar '+' ' ' name),
              pyUnquote (replaceChar '+' ' ' value))]
        | none => [(pyUnquote (replaceChar '+' ' ' nv), [])]

/-- Appending one `(name, value)` pair into the insertion-ordered
dictionary of `parse_qs`. -/
def insertPair (acc : List (List Char × List (List Char))) (k : List Char)
    (v : List Char) : List (List Char × List (List Char)) :=
  match acc with
  | [] => [(k, [v])]
  | (k', vs) :: rest =>
      if k' = k then (k', vs ++ [v]) :: rest
      else (k', vs) :: insertPair rest k v

/-- `parse_qs(qs, keep_blank_values=True)`: group the `parse_qsl` pairs by
name, preserving first-occurrence order and value order. -/
def parseQs (qs : List Char) : List (List Char × List (List Char)) :=
  (parseQsl qs).foldl (fun acc p => insertPair acc p.1 p.2) []

/-- A flattened query value: `v[0] if len(v) == 1 else v`. -/
inductive QVal where
  | str (s : List Char)
  | list (vs : List (List Char))
deriving DecidableEq

/-- `{k: v[0] if len(v) == 1 else v for k, v in params.items()}`. -/
def flattenParams (l : List (List Char × List (List Char))) :
    List (List Char × QVal) :=
  l.map fun p =>
    (p.1, match p.2 with
      | [v] => QVal.str v
      | vs => QVal.list vs)

/-- Python string `<`: code-point lexicographic comparison. -/
def strLtB : List Char → List Char → Bool
  | [], [] => false
  | [], _ :: _ => true
  | _ :: _, [] => false
  | a :: as, b :: bs => if a = b then strLtB as bs else a.toNat < b.toNat

/-- Stable insertion of one item into a key-sorted list (equal or greater
keys stay in front). -/
def insertKey (p : List Char × QVal) :
    List (List Char × QVal) → List (List Char × QVal)
  | [] => [p]
  | q :: qs => if strLtB p.1 q.1 then p :: q :: qs else q :: insertKey p qs

/-- `sorted(items)`: stable sort; the items of `flat_params` have pairwise
distinct keys, so comparison never reaches the values. -/
def pySortedByKey : List (List Char × QVal) → List (List Char × QVal)
  | [] => []
  | p :: ps => insertKey p (pySortedByKey ps)

/-- `sep.join(segs)`. -/
def joinChar (sep : Char) : List (List Char) → List Char
  | [] => []
  | [s] => s
  | s :: rest => s ++ sep :: joinChar sep rest

/-- One item's segments under `urlencode(..., doseq=True)`: a flattened
string value gives one `k=v` segment, a list value one segment per
element, all quoted with `quote_plus`. -/
def urlencodeItem (p : List Char × QVal) : List (List Char) :=
  match p.2 with
  | .str s => [pyQuotePlus p.1 ++ '=' :: pyQuotePlus s]
  | .list vs => vs.map fun s => pyQuotePlus p.1 ++ '=' :: pyQuotePlus s

/-- `urlencode(l, doseq=True)` for string/list-of-strings values. -/
def urlencodeDoseq (l : List (List Char × QVal)) : List Char :=
  joinChar '&' (l.flatMap urlencodeItem)

/-- The query-canonicalization step of `normalize_url`:
`urlencode(sorted(flat_params.items()), doseq=True)` over
`parse_qs(query, keep_blank_values=True)`. -/
def canonicalizeQuery (q : List Char) : List Char :=
  urlencodeDoseq (pySortedByKey (flattenParams (parseQs q)))

/-- The flat `(name, value)` pairs represented by one flattened item. -/
def expandItem (p : List Char × QVal) : List (List Char × List Char) :=
  match p.2 with
  | .str s => [(p.1, s)]
  | .list vs => vs.map fun v => (p.1, v)

/-- The value list an item contributes back to `parse_qs` grouping. -/
def QVal.toValues : QVal → List (List Char)
  | .str s => [s]
  | .list vs => vs

/-- Items produced by `flattenParams` over `parse_qs` groups: a `list`
value is never empty and never a singleton. -/
def QVal.wf : QVal → Prop
  | .str _ => True
  | .list vs => vs ≠ [] ∧ vs.length ≠ 1

/-- One `k=v` segment of `urlencode(..., doseq=True)`. -/
def encodeSegment (p : List Char × List Char) : List Char :=
  pyQuotePlus p.1 ++ '=' :: pyQuotePlus p.2

/-! ## `urlsplit` / `urlunsplit` (CPython 3.11 `urllib.parse`)

`normalize_url` uses `urlparse`/`urlunparse`, which are
`urlsplit`/`urlunsplit` plus the `;params` split of the last path
segment; since `normalize_url` never modifies path or params, the
parse–unparse composition coincides with `urlsplit`–`urlunsplit` and is
modelled as such.  The NFKC netloc audit (`_checknetloc`), which can only
reject non-ASCII authorities, is omitted (see the header note); the
bracketed-host validation of `_check_bracketed_host` (IPv6 / IPvFuture,
per CPython's `ipaddress`) is included. -/

/-- ASCII letter. -/
def isAsciiAlphaB (c : Char) : Bool :=
  decide ((65 ≤ c.toNat ∧ c.toNat ≤ 90) ∨ (97 ≤ c.toNat ∧ c.toNat ≤ 122))

/-- `urllib.parse.scheme_chars`. -/
def schemeCharB (c : Char) : Bool :=
  isAsciiAlphaB c || decide (48 ≤ c.toNat ∧ c.toNat ≤ 57) ||
    c == '+' || c == '-' || c == '.'

/-- `url.lstrip(_WHATWG_C0_CONTROL_OR_SPACE)`. -/
def lstripC0 (s : List Char) : List Char :=
  s.dropWhile (fun c => decide (c.toNat ≤ 32))

/-- Removal of `_UNSAFE_URL_BYTES_TO_REMOVE` (tab, CR, LF) anywhere. -/
def removeUnsafe (s : List Char) : List Char :=
  s.filter (fun c => !(c == '\t' || c == '\r' || c == '\n'))

/-- Not one of the netloc delimiters `/?#` (`_splitnetloc`). -/
def notDelimB (c : Char) : Bool := !(c == '/' || c == '?' || c == '#')

/-- ASCII hex digit (both cases). -/
def isHexDigitB (c : Char) : Bool :=
  decide ((48 ≤ c.toNat ∧ c.toNat ≤ 57) ∨ (65 ≤ c.toNat ∧ c.toNat ≤ 70) ∨
    (97 ≤ c.toNat ∧ c.toNat ≤ 102))

/-- ASCII decimal digit. -/
def isDecDigitB (c : Char) : Bool := decide (48 ≤ c.toNat ∧ c.toNat ≤ 57)

/-- Decimal value of a digit string. -/
def digitsToNat (s : List Char) : Nat :=
  s.foldl (fun acc c => acc * 10 + (c.toNat - 48)) 0

/-- `IPv4Address._parse_octet`: 1–3 ASCII decimal digits, no leading zero
except `0` itself, value at most 255. -/
def validOctetB (s : List Char) : Bool :=
  decide (s ≠ []) && s.all isDecDigitB && decide (s.length ≤ 3) &&
    (match s with
     | '0' :: rest => decide (rest = [])
     | _ => true) &&
    decide (digitsToNat s ≤ 255)

/-- `IPv4Address._ip_int_from_string`: exactly four valid octets. -/
def validIPv4B (s : List Char) : Bool :=
  match splitOnChar '.' s with
  | [a, b, c, d] => validOctetB a && validOctetB b && validOctetB c &&
      validOctetB d
  | _ => false

/-- `IPv6Address._parse_hextet`: 1–4 hex digits. -/
def parseHextetOk (s : List Char) : Bool :=
  decide (s ≠ []) && decide (s.length ≤ 4) && s.all isHexDigitB

/-- `'.' in parts[-1]`: the last `:`-part carries an IPv4 suffix. -/
def v6HasV4 (parts0 : List (List Char)) : Bool :=
  match parts0.getLast? with
  | some last => last.contains '.'
  | none => false

/-- Validation of the IPv4 suffix (`ipv4_int = IPv4Address(parts.pop())`),
vacuous when there is none. -/
def v6V4Ok (parts0 : List (List Char)) : Bool :=
  if v6HasV4 parts0 then
    match parts0.getLast? with
    | some last => validIPv4B last
    | none => false
  else true

/-- The part list after the IPv4 suffix is replaced by two hextets
(`parts.append('%x' % ...)` twice; only emptiness/shape matter here, so
two placeholder digits stand for them). -/
def v6Parts (parts0 : List (List Char)) : List (List Char) :=
  if v6HasV4 parts0 then parts0.dropLast ++ [['0'], ['0']] else parts0

/-- The interior parts `parts[1:-1]`, the only positions where an empty
part (`::`) is legal. -/
def v6Mids (parts : List (List Char)) : List (List Char) :=
  (parts.drop 1).take (parts.length - 2)

/-- The `skip_index is not None` branch of `_ip_int_from_string`: sizes
on either side of the lone `::`, endpoint adjustments for a leading or
trailing empty part, at least one skipped group, and hextet checks on the
used parts. -/
def v6CheckSkip (parts : List (List Char)) : Bool :=
  let n := parts.length
  let skipIdx := 1 + (v6Mids parts).findIdx (fun p => decide (p = []))
  let hi0 := skipIdx
  let lo0 := n - skipIdx - 1
  let headEmpty : Bool := decide (parts.head? = some ([] : List Char))
  let lastEmpty : Bool := decide (parts.getLast? = some ([] : List Char))
  (if headEmpty then decide (hi0 - 1 = 0) else true) &&
  (if lastEmpty then decide (lo0 - 1 = 0) else true) &&
  (let hi := if headEmpty then hi0 - 1 else hi0
   let lo := if lastEmpty then lo0 - 1 else lo0
   decide (hi + lo ≤ 7) &&
   (parts.take hi).all parseHextetOk &&
   (parts.drop (n - lo)).all parseHextetOk)

/-- The no-`::` branch: exactly 8 parts, non-empty endpoints, all parts
valid hextets. -/
def v6CheckFull (parts : List (List Char)) : Bool :=
  decide (parts.length = 8) &&
  decide (parts.head? ≠ some ([] : List Char)) &&
  decide (parts.getLast? ≠ some ([] : List Char)) &&
  parts.all parseHextetOk

/-- Branch on the number of empty interior parts: two or more `::` runs
are an error, one selects the skip branch, none the full branch. -/
def v6Check (parts : List (List Char)) : Bool :=
  let midEmpties := (v6Mids parts).countP (fun p => decide (p = []))
  if 2 ≤ midEmpties then false
  else if midEmpties = 1 then v6CheckSkip parts
  else v6CheckFull parts

/-- `IPv6Address._ip_int_from_string` (validity only): split on `:`, at
least 3 parts, optional IPv4 suffix, at most 9 parts, then the `::`
branch analysis. -/
def validIPv6Core (addr : List Char) : Bool :=
  decide (addr ≠ []) &&
  (let parts0 := splitOnChar ':' addr
   decide (3 ≤ parts0.length) && v6V4Ok parts0 &&
     decide ((v6Parts parts0).length ≤ 9) && v6Check (v6Parts parts0))

/-- `IPv6Address.__init__`: optional non-empty `%scope` (itself free of
`%`) before the address proper. -/
def validIPv6B (s : List Char) : Bool :=
  match splitFirst '%' s with
  | some (a, z) =>
      decide (z ≠ []) && z.all (fun c => !(c == '%')) && validIPv6Core a
  | none => validIPv6Core s

/-- The IPvFuture shape `v[a-fA-F0-9]+\..+` (no newline in `.`): a `v`,
a maximal non-empty hex-digit run, a dot, and a non-empty remainder. -/
def validIPvFutureB (s : List Char) : Bool :=
  match s with
  | c :: rest =>
      (c == 'v') && decide (rest.takeWhile isHexDigitB ≠ []) &&
        (match rest.dropWhile isHexDigitB with
         | d :: t => (d == '.') && decide (t ≠ []) &&
             t.all (fun x => !(x == '\n'))
         | [] => false)
  | [] => false

/-- `_check_bracketed_host`: `v…` hosts must match the IPvFuture shape;
anything else must parse under `ip_address`, where an IPv4 result raises
(`An IPv4 address cannot be in brackets`) — and since a valid IPv4 text
has no `:` it can never satisfy `validIPv6B`, the else branch is exactly
IPv6 validity. -/
def checkBracketedHost (host : List Char) : Bool :=
  match host with
  | c :: _ =>
      if c == 'v' then validIPvFutureB host
      else validIPv6B host
  | [] => validIPv6B host

/-- The text between the first `[` and the following `]`
(`netloc.partition('[')[2].partition(']')[0]`). -/
def extractBracketed (netloc : List Char) : List Char :=
  match splitFirst '[' netloc with
  | some (_, after) =>
      match splitFirst ']' after with
      | some (h, _) => h
      | none => after
  | none => []

/-- The result record of `urlsplit` (the `params` component of
`urlparse` stays glued to the path; see the section comment). -/
structure SplitResult where
  scheme : List Char
  netloc : List Char
  path : List Char
  query : List Char
  fragment : List Char
deriving DecidableEq

/-- The scheme-detection step of `urlsplit`: text before the first `:`
must be non-empty, start with an ASCII letter and consist of
`scheme_chars`; it is lowercased as it is split off. -/
def splitScheme (url : List Char) : List Char × List Char :=
  match splitFirst ':' url with
  | some (before, after) =>
      (match before with
       | [] => ([], url)
       | b0 :: _ =>
           if isAsciiAlphaB b0 && before.all schemeCharB then
             (asciiLower before, after)
           else ([], url))
  | none => ([], url)

/-- `_splitnetloc`: after `//`, the netloc runs to the first `/?#`. -/
def splitNetloc (rest : List Char) : List Char × List Char :=
  if rest.take 2 = ['/', '/'] then
    ((rest.drop 2).takeWhile notDelimB, (rest.drop 2).dropWhile notDelimB)
  else ([], rest)

/-- `url.split('#', 1)` when a `#` is present. -/
def splitFragment (s : List Char) : List Char × List Char :=
  match splitFirst '#' s with
  | some (a, f) => (a, f)
  | none => (s, [])

/-- `url.split('?', 1)` when a `?` is present. -/
def splitQuery (s : List Char) : List Char × List Char :=
  match splitFirst '?' s with
  | some (a, q) => (a, q)
  | none => (s, [])

/-- `urlsplit(url)` with `allow_fragments=True` (CPython 3.11). -/
def urlsplit (url0 : List Char) : Except String SplitResult :=
  let url := removeUnsafe (lstripC0 url0)
  let sp := splitScheme url
  let np := splitNetloc sp.2
  if ('[' ∈ np.1 ∧ ']' ∉ np.1) ∨ (']' ∈ np.1 ∧ '[' ∉ np.1) then
    Except.error "Invalid IPv6 URL"
  else if '[' ∈ np.1 ∧ ']' ∈ np.1 ∧
      checkBracketedHost (extractBracketed np.1) = false then
    Except.error "invalid bracketed host"
  else
    Except.ok ⟨sp.1, np.1, (splitQuery (splitFragment np.2).1).1,
      (splitQuery (splitFragment np.2).1).2, (splitFragment np.2).2⟩

/-- `urllib.parse.uses_netloc`. -/
def usesNetloc : List (List Char) :=
  (["", "ftp", "http", "gopher", "nntp", "telnet", "imap", "wais", "file",
    "mms", "https", "shttp", "snews", "prospero", "rtsp", "rtsps", "rtspu",
    "rsync", "svn", "svn+ssh", "sftp", "nfs", "git", "git+ssh", "ws",
    "wss"] : List String).map String.data

/-- `urlunsplit` (CPython 3.11). -/
def urlunsplit (r : SplitResult) : List Char :=
  let url := r.path
  let url :=
    if r.netloc ≠ [] ∨
        (r.scheme ≠ [] ∧ r.scheme ∈ usesNetloc ∧ url.take 2 ≠ ['/', '/'])
    then
      '/' :: '/' :: r.netloc ++
        (if url ≠ [] ∧ url.take 1 ≠ ['/'] then '/' :: url else url)
    else url
  let url := if r.scheme ≠ [] then r.scheme ++ ':' :: url else url
  let url := if r.query ≠ [] then url ++ '?' :: r.query else url
  if r.fragment ≠ [] then url ++ '#' :: r.fragment else url

/-! ## `normalize_url` (`crawlerWhipAI/utils/url.py`)

The `preserve_fragment` flag is modelled from the spec ("drop fragment
unless `preserve_fragment`"): the copy of `utils/url.py` under `src/`
lacks the parameter even though `core/crawler.py` and
`discovery/link_mapper.py` pass it by keyword (and `utils/__init__.py`
imports `get_full_host`/`is_same_host` from `.url`, which the copy does
not define), so `normalize_url false` is exactly the function in
`src/crawlerWhipAI/utils/url.py` and the flag reproduces the behaviour
its callers and the spec require of the real module. -/

/-- The parse `normalize_url` works on: parse, and if the scheme is
missing, re-parse with `https://` prepended to the original string. -/
def normalizeSplit (url : List Char) : Except String SplitResult :=
  match urlsplit url with
  | Except.error e => Except.error e
  | Except.ok parsed =>
      if parsed.scheme = [] then urlsplit ("https://".data ++ url)
      else Except.ok parsed

/-- `normalize_url(url)` (no base): empty input maps to the empty string;
otherwise parse (with the `https://` fallback), drop the fragment unless
`preserveFragment`, canonicalize a non-empty query, lowercase scheme and
netloc, and reassemble. -/
def normalize_url (preserveFragment : Bool) (url : List Char) :
    Except String (List Char) :=
  if url = [] then Except.ok []
  else
    match normalizeSplit url with
    | Except.error e => Except.error e
    | Except.ok parsed =>
        let parsed :=
          { parsed with
            fragment := if preserveFragment then parsed.fragment else [] }
        let parsed :=
          if parsed.query ≠ [] then
            { parsed with query := canonicalizeQuery parsed.query }
          else parsed
        let parsed :=
          { parsed with
            scheme := asciiLower parsed.scheme
            netloc := asciiLower parsed.netloc }
        Except.ok (urlunsplit parsed)

/-- `validate_url` (`utils/url.py`): parse; with scheme and netloc the
scheme must be `http`/`https`; a bare netloc alone also passes; a parse
error (`ValueError`) yields `False`. -/
def validate_url (url : List Char) : Bool :=
  match urlsplit url with
  | Except.error _ => false
  | Except.ok p =>
      if p.scheme ≠ [] ∧ p.netloc ≠ [] then
        decide (p.scheme = "http".data ∨ p.scheme = "https".data)
      else if p.netloc ≠ [] then true
      else false

/-! ## Cache storage (`crawlerWhipAI/cache/storage.py`)

The SQLite table keyed by `url` is an association list; `datetime`
values are rationals counting hours, so `timedelta(hours=ttl)`
comparisons become plain subtraction; `json.dumps`/`json.loads` is
modelled as the identity on the stored dict.  The `content_hash` column
(a SHA-256 hex digest recomputed on every `set` and merely echoed back
by `get`) does not influence any lookup, expiry, or returned
content/metadata, and is omitted from the record. -/

/-- JSON values as stored in the cache's `metadata` column. -/
inductive JsonVal where
  | str (s : List Char)
  | num (n : Int)
  | boolean (b : Bool)
  | null
  | arr (elems : List JsonVal)
  | dict (fields : List (List Char × JsonVal))

/-- Association-list lookup with `List Char` keys (dict / SQL `WHERE
url = ?`). -/
def clookup {α : Type} (l : List (List Char × α)) (k : List Char) :
    Option α :=
  (l.find? (fun p => p.1 == k)).map (·.2)

/-- `INSERT OR REPLACE` keyed upsert. -/
def cupsert {α : Type} (l : List (List Char × α)) (k : List Char)
    (v : α) : List (List Char × α) :=
  match l with
  | [] => [(k, v)]
  | (k', v') :: rest =>
      if k' == k then (k', v) :: rest else (k', v') :: cupsert rest k v

/-- `DELETE FROM cache WHERE url = ?`. -/
def cremove {α : Type} (l : List (List Char × α)) (k : List Char) :
    List (List Char × α) :=
  l.filter (fun p => !(p.1 == k))

/-- One row of the `cache` table (minus `url`, the key, and
`content_hash`; see the section comment). -/
structure CacheRecord where
  content : List Char
  metadataJson : Option (List (List Char × JsonVal))
  createdAt : ℚ
  accessedAt : ℚ
  ttlHours : Int

/-- The cache table. -/
def CacheDB := List (List Char × CacheRecord)

/-- `CacheStorage.set`: upsert the row; a falsy metadata dict (empty)
is stored as SQL `NULL` (`json.dumps(metadata) if metadata else None`);
`created_at` and `accessed_at` are both the current time. -/
def cacheSet (db : CacheDB) (now : ℚ) (url content : List Char)
    (metadata : List (List Char × JsonVal)) (ttlHours : Int) : CacheDB :=
  cupsert db url
    ⟨content, if metadata.isEmpty then none else some metadata, now, now,
      ttlHours⟩

/-- What `CacheStorage.get` hands back on a hit (`url` and
`content_hash` omitted as above). -/
structure CacheHit where
  content : List Char
  metadata : List (List Char × JsonVal)
  createdAt : ℚ

/-- `CacheStorage.get`: a missing row returns `None`; a row older than
`ttl_hours` is deleted and returns `None`; otherwise `accessed_at` is
refreshed and the row's content, metadata (`{}` for `NULL`), and
creation time are returned.  The pair carries the updated table. -/
def cacheGet (db : CacheDB) (now : ℚ) (url : List Char) :
    Option CacheHit × CacheDB :=
  match clookup db url with
  | none => (none, db)
  | some row =>
      if now - row.createdAt > (row.ttlHours : ℚ) then
        (none, cremove db url)
      else
        (some ⟨row.content,
          (match row.metadataJson with
           | some m => m
           | none => []), row.createdAt⟩,
         cupsert db url { row with accessedAt := now })

/-! ## `AsyncWebCrawler.arun`, cache-read path (`core/crawler.py`)

Only the validation and cache-read prefix of `arun` is modelled; the
remainder (HTTP/browser fetch, cache write) is abstracted as the
`network` oracle, so that a theorem quantifying over all oracles states
exactly "no network fetch happens".  `execution_time` (wall clock) is
not modelled; `crawled_at` is. -/

/-- `CacheMode` (`core/config.py`). -/
inductive CacheMode where
  | bypass
  | cached
  | writeOnly
  | readOnly
deriving DecidableEq

/-- The fields of `CrawlResult` that the validation and cache-hit
branches of `arun` populate (plus their pydantic defaults). -/
structure CrawlResult where
  url : List Char
  success : Bool
  statusCode : Option Int
  html : List Char
  markdown : Option (List Char)
  title : Option JsonVal
  description : Option JsonVal
  links : JsonVal
  crawledAt : ℚ
  cached : Bool
  error : Option (List Char)
  errorType : Option (List Char)

/-- The pydantic default for `links`. -/
def defaultLinks : JsonVal :=
  JsonVal.dict [("internal".data, JsonVal.arr []),
    ("external".data, JsonVal.arr [])]

/-- `metadata.get(key)` on the hit's dict. -/
def jlookup (d : List (List Char × JsonVal)) (k : List Char) :
    Option JsonVal :=
  (d.find? (fun p => p.1 == k)).map (·.2)

/-- `arun(url)` up to the cache decision: invalid URLs short-circuit
with a `ValidationError` result; with a cache whose mode is `CACHED` or
`READ_ONLY`, a live record is assembled into a
`cached=True`/`status_code=200` result whose markdown is the stored
content and whose title/description/links come from the stored
metadata; everything else falls through to the `network` oracle. -/
def arun (cacheOpt : Option CacheDB) (mode : CacheMode) (now : ℚ)
    (network : List Char → CrawlResult) (url : List Char) : CrawlResult :=
  if validate_url url = false then
    { url := url, success := false, statusCode := none, html := [],
      markdown := none, title := none, description := none,
      links := defaultLinks, crawledAt := now, cached := false,
      error := some ("Invalid URL: ".data ++ url),
      errorType := some "ValidationError".data }
  else
    match cacheOpt with
    | some db =>
        if mode = CacheMode.cached ∨ mode = CacheMode.readOnly then
          match (cacheGet db now url).1 with
          | some hit =>
              { url := url, success := true, statusCode := some 200,
                html := [], markdown := some hit.content,
                title := jlookup hit.metadata "title".data,
                description := jlookup hit.metadata "description".data,
                links :=
                  (match jlookup hit.metadata "links".data with
                   | some v => v
                   | none => defaultLinks),
                crawledAt := hit.createdAt, cached := true,
                error := none, errorType := none }
          | none => network url
        else network url
    | none => network url

/-! ## Link mapper (`crawlerWhipAI/discovery/link_mapper.py`)

`LinkMapper.map_links` runs a depth-banded BFS.  Within a wave the
tasks `crawl_with_sem(node)` run under `asyncio.Semaphore(max_concurrent)`;
each task has exactly two atomic sections separated by the
`await crawler.arun` suspension: the capacity check
(`if pages_crawled >= max_pages: return`) and the post-fetch update
(metadata, `pages_crawled += 1`, and `_discover_child_links`, which
contains no `await` and therefore runs without interleaving).  A wave is
modelled as a fold over an explicit event schedule: `acquire` admits the
next task in submission order (the semaphore is FIFO) when a slot is
free, running its capacity check; `finish i` completes an admitted
task's fetch and runs its update section.  Any prefix of any legal
interleaving is expressible, so the theorems quantify over every
schedule.  `get_full_host` is imported by the mapper but missing from
the `src/` copy of `utils/url.py`; it enters the model as an
uninterpreted function parameter (`fullHost`), and `normalize_url` is
the spec-modelled normalizer with the `preserve_fragment` flag the
mapper passes; a `ValueError` from it aborts the task's remaining link
loop (the exception is swallowed by `asyncio.gather` with
`return_exceptions=True`). -/

structure MapperCfg where
  maxDepth : Nat
  maxPages : Nat
  maxConcurrent : Nat
  includeExternal : Bool
  sameHostOnly : Bool
  pf : Bool

/-- The slice of `CrawlResult` that `crawl_with_sem` consumes: success
flag and extracted link hrefs. -/
structure FetchOutcome where
  success : Bool
  internalLinks : List (List Char)
  externalLinks : List (List Char)

/-- `LinkNode` (`models/links.py`), restricted to the fields the mapper
invariants concern. -/
inductive LinkNode where
  | mk (url : List Char) (depth : Nat) (parentUrl : Option (List Char))
      (children : List LinkNode)

def LinkNode.url : LinkNode → List Char
  | .mk u _ _ _ => u

def LinkNode.depth : LinkNode → Nat
  | .mk _ d _ _ => d

def LinkNode.parentUrl : LinkNode → Option (List Char)
  | .mk _ _ p _ => p

/-- All `(url, depth, parent_url)` triples of a tree, root first. -/
def nodeTriples : LinkNode → List (List Char × Nat × Option (List Char))
  | .mk u d p cs =>
      (u, d, p) :: cs.attach.flatMap (fun c => nodeTriples c.1)
termination_by n => sizeOf n
decreasing_by
  have := List.sizeOf_lt_of_mem c.2
  simp only [LinkNode.mk.sizeOf_spec]
  omega

/-- Structural well-formedness below a node: every child sits one level
deeper and points back at its container's URL. -/
def LinkNode.wfB : LinkNode → Bool
  | .mk u d _ cs =>
      cs.attach.all (fun c =>
        decide (c.1.depth = d + 1) && decide (c.1.parentUrl = some u) &&
          c.1.wfB)
termination_by n => sizeOf n
decreasing_by
  have := List.sizeOf_lt_of_mem c.2
  simp only [LinkNode.mk.sizeOf_spec]
  omega

/-- The link loop of `_discover_child_links`: returns the URLs of the
created children and the updated `visited` set (an insertion-ordered
list).  Order of the guards follows the source: empty href, normalize
(an exception ends the loop), `visited` skip, `len(visited) >=
max_pages` break, same-host filter, then create-and-insert. -/
def discoverLoop (cfg : MapperCfg) (fullHost : List Char → List Char)
    (startHost : List Char) :
    List (List Char) → List (List Char) →
    List (List Char) × List (List Char)
  | [], visited => ([], visited)
  | href :: rest, visited =>
      if href = [] then discoverLoop cfg fullHost startHost rest visited
      else
        match normalize_url cfg.pf href with
        | Except.error _ => ([], visited)
        | Except.ok nu =>
            if nu ∈ visited then
              discoverLoop cfg fullHost startHost rest visited
            else if cfg.maxPages ≤ visited.length then ([], visited)
            else if cfg.sameHostOnly = true ∧ fullHost nu ≠ startHost then
              discoverLoop cfg fullHost startHost rest visited
            else
              let r := discoverLoop cfg fullHost startHost rest
                (visited ++ [nu])
              (nu :: r.1, r.2)

/-- The post-fetch section of `crawl_with_sem`: count the attempt
(success or failure), and on success below `max_depth` while below
`max_pages`, discover children from the internal links (plus external
ones when `include_external`). -/
def finishTask (cfg : MapperCfg) (fullHost : List Char → List Char)
    (startHost : List Char) (fetch : List Char → FetchOutcome)
    (depth : Nat) (u : List Char) (visited : List (List Char))
    (pages : Nat) : List (List Char) × List (List Char) × Nat :=
  let res := fetch u
  let pages' := pages + 1
  if res.success = true ∧ depth < cfg.maxDepth ∧ pages' < cfg.maxPages
  then
    let r := discoverLoop cfg fullHost startHost
      (res.internalLinks ++
        (if cfg.includeExternal then res.externalLinks else []))
      visited
    (r.1, r.2, pages')
  else ([], visited, pages')

/-- Shared state while one wave executes. -/
structure WaveSt where
  visited : List (List Char)
  pages : Nat
  nextTask : Nat
  inflight : List Nat
  childUrls : List (List (List Char))

/-- Wave events: `acquire` admits the next task (FIFO semaphore) and
runs its capacity check; `finish i` completes task `i`'s fetch. -/
inductive WEv where
  | acquire
  | finish (i : Nat)

/-- One event of a wave at depth `depth` over task URLs `urls`.  An
`acquire` needs a pending task and a free semaphore slot; a task whose
capacity check fails completes immediately with no attempt counted.  A
`finish` needs the task to be in flight; it records the attempt and the
discovered children.  Events that are impossible in the source (no
pending task, no slot, not in flight) leave the state unchanged, so
every schedule denotes a legal partial interleaving. -/
def waveStep (cfg : MapperCfg) (fullHost : List Char → List Char)
    (startHost : List Char) (fetch : List Char → FetchOutcome)
    (depth : Nat) (urls : List (List Char)) (st : WaveSt) :
    WEv → WaveSt
  | WEv.acquire =>
      if st.nextTask < urls.length ∧
          st.inflight.length < cfg.maxConcurrent then
        if cfg.maxPages ≤ st.pages then
          { st with nextTask := st.nextTask + 1 }
        else
          { st with nextTask := st.nextTask + 1,
                    inflight := st.inflight ++ [st.nextTask] }
      else st
  | WEv.finish i =>
      if i ∈ st.inflight then
        match urls[i]? with
        | some u =>
            let r := finishTask cfg fullHost startHost fetch depth u
              st.visited st.pages
            { visited := r.2.1, pages := r.2.2,
              nextTask := st.nextTask,
              inflight := st.inflight.erase i,
              childUrls := st.childUrls.set i r.1 }
        | none => st
      else st

/-- Run a wave's schedule. -/
def runWave (cfg : MapperCfg) (fullHost : List Char → List Char)
    (startHost : List Char) (fetch : List Char → FetchOutcome)
    (depth : Nat) (urls : List (List Char)) (sched : List WEv)
    (st : WaveSt) : WaveSt :=
  sched.foldl (waveStep cfg fullHost startHost fetch depth urls) st

/-- Partition a list into consecutive chunks of the given lengths. -/
def splitByLengths : List Nat → List LinkNode → List (List LinkNode)
  | [], _ => []
  | n :: ns, l => l.take n :: splitByLengths ns (l.drop n)

/-- The depth loop of `map_links` (`for current_depth in
range(max_depth + 1)`), one schedule per wave.  Waves stop early when
empty or when `pages_crawled` has reached `max_pages`; nodes of an
unprocessed wave remain in the tree as created, without children.  The
child subtrees built by the recursive call are reattached to their
parents positionally. -/
def mapLevels (cfg : MapperCfg) (fullHost : List Char → List Char)
    (startHost : List Char) (fetch : List Char → FetchOutcome) :
    Nat → Nat → List (List Char × Option (List Char)) →
    List (List Char) → Nat → List (List WEv) →
    List LinkNode × List (List Char) × Nat
  | 0, depth, wave, visited, pages, _ =>
      (wave.map (fun e => LinkNode.mk e.1 depth e.2 []), visited, pages)
  | l + 1, depth, wave, visited, pages, scheds =>
      if wave = [] ∨ cfg.maxPages ≤ pages then
        (wave.map (fun e => LinkNode.mk e.1 depth e.2 []), visited, pages)
      else
        let st := runWave cfg fullHost startHost fetch depth
          (wave.map (·.1)) (scheds.headD [])
          ⟨visited, pages, 0, [], wave.map (fun _ => [])⟩
        let nextWave := (wave.zip st.childUrls).flatMap
          (fun p => p.2.map (fun cu => (cu, some p.1.1)))
        let r := mapLevels cfg fullHost startHost fetch l (depth + 1)
          nextWave st.visited st.pages scheds.tail
        ((wave.zip (splitByLengths (st.childUrls.map List.length)
            r.1)).map
          (fun p => LinkNode.mk p.1.1 depth p.1.2 p.2), r.2.1, r.2.2)

/-- `LinkMapper.map_links`: root at depth 0 with the raw seed URL,
`visited` seeded with the normalized seed (a `ValueError` from the seed
normalization propagates), then the depth-banded BFS.  Returns the root
and the final `pages_crawled`. -/
def map_links (cfg : MapperCfg) (fullHost : List Char → List Char)
    (fetch : List Char → FetchOutcome) (startUrl : List Char)
    (scheds : List (List WEv)) : Except String (LinkNode × Nat) :=
  match normalize_url cfg.pf startUrl with
  | Except.error e => Except.error e
  | Except.ok nseed =>
      let r := mapLevels cfg fullHost (fullHost startUrl) fetch
        (cfg.maxDepth + 1) 0 [(startUrl, none)] [nseed] 0 scheds
      match r.1 with
      | n :: _ => Except.ok (n, r.2.2)
      | [] => Except.error "no root"

/-- The `url` fields of all nodes of a forest, in preorder. -/
def treeUrls (ns : List LinkNode) : List (List Char) :=
  ns.flatMap (fun nd => (nodeTriples nd).map (fun t => t.1))

/-- Invariant of the wave state, relative to the starting `visited` list
`v0` and starting page count `p0`: attempts never outrun admissions, the
semaphore bookkeeping is coherent, each in-flight or pending slot of
`childUrls` is still empty, and `visited` stays duplicate-free, equal as
a multiset to `v0` plus all recorded children, and within the page cap
(or its starting length).  Children are only ever recorded strictly
below `max_depth`. -/
structure WaveInv (cfg : MapperCfg) (depth : Nat)
    (urls : List (List Char)) (v0 : List (List Char)) (p0 : Nat)
    (st : WaveSt) : Prop where
  pagesLe : st.pages + st.inflight.length ≤ p0 + st.nextTask
  nextLe : st.nextTask ≤ urls.length
  culen : st.childUrls.length = urls.length
  pendingNil : ∀ j, st.nextTask ≤ j → j < urls.length →
      st.childUrls[j]? = some []
  inflightLt : ∀ i ∈ st.inflight, i < st.nextTask
  inflightNil : ∀ i ∈ st.inflight, st.childUrls[i]? = some []
  inflightNodup : st.inflight.Nodup
  visNodup : st.visited.Nodup
  visPerm : (v0 ++ st.childUrls.flatten).Perm st.visited
  visLen : st.visited.length ≤ max v0.length cfg.maxPages
  childDepth : ∀ cus ∈ st.childUrls, cus ≠ [] → depth < cfg.maxDepth

/-! ## HTML to markdown (`AsyncWebCrawler._html_to_markdown`)

The HTTP-first fetch path (`_try_http_first`, `core/crawler.py`) sets
`result.markdown = self._html_to_markdown(html_content)`, and the
browser path does the same; `_html_to_markdown` parses the HTML,
removes `script`/`style` elements and returns `tree.text_content()`
with each line stripped and blank lines dropped — plain text
extraction.  (`content/markdown.py`'s `MarkdownConverter`, which does
render `h1..h6` as `#`-prefixed lines, is exported but never called by
the crawl pipeline.)  The lxml parse itself is not modelled: the
embedding takes the parsed tree (`Dom`: tag, `.text`, children,
`.tail`) as input.  `element.getparent().remove(element)` drops the
removed element's tail, as lxml does; `text_content()` concatenates
`.text` with each child's text content followed by the child's
`.tail`. -/

def isPySpaceB (c : Char) : Bool :=
  c == ' ' || c == '\t' || c == '\n' || c == '\r' ||
    c == Char.ofNat 11 || c == Char.ofNat 12

/-- Python `str.strip()` (ASCII whitespace; the inputs concerned are
ASCII). -/
def pyStrip (s : List Char) : List Char :=
  ((s.dropWhile isPySpaceB).reverse.dropWhile isPySpaceB).reverse

/-- An lxml element: tag, `.text`, children, `.tail`. -/
inductive Dom where
  | el (tag : List Char) (text : Option (List Char))
      (children : List Dom) (tail : Option (List Char))

def optText : Option (List Char) → List Char
  | some t => t
  | none => []

def Dom.tailText : Dom → List Char
  | .el _ _ _ (some tl) => tl
  | .el _ _ _ none => []

def Dom.isScriptStyle : Dom → Bool
  | .el tag _ _ _ => tag == "script".data || tag == "style".data

mutual

/-- `for element in tree.xpath(".//script | .//style"):
element.getparent().remove(element)` — drops the matching descendants
(with their tails, as lxml's `remove` does). -/
def removeScriptStyle : Dom → Dom
  | .el tag text cs tail => .el tag text (removeScriptStyleList cs) tail

def removeScriptStyleList : List Dom → List Dom
  | [] => []
  | d :: rest =>
      if d.isScriptStyle then removeScriptStyleList rest
      else removeScriptStyle d :: removeScriptStyleList rest

end

mutual

/-- lxml `text_content()`. -/
def textContent : Dom → List Char
  | .el _ text cs _ => optText text ++ textContentList cs

def textContentList : List Dom → List Char
  | [] => []
  | d :: rest => textContent d ++ d.tailText ++ textContentList rest

end

/-- `AsyncWebCrawler._html_to_markdown` (`core/crawler.py`): strip
scripts/styles, extract the text content, strip each line, join the
non-blank ones. -/
def html_to_markdown (dom : Dom) : List Char :=
  let tree := removeScriptStyle dom
  let text := textContent tree
  let lines := (splitOnChar '\n' text).map pyStrip
  joinChar '\n' (lines.filter (fun l => !l.isEmpty))

/-- The parsed page of the claim's scenario: body `<h1>Hi</h1>` plus
two anchors (each element followed by a newline of inter-tag
whitespace). -/
def pageHi : Dom :=
  Dom.el "div".data none
    [Dom.el "h1".data (some "Hi".data) [] (some "\n".data),
     Dom.el "a".data (some "A".data) [] (some "\n".data),
     Dom.el "a".data (some "O".data) [] (some "\n".data)] none

section RateLimiterLemmas

theorem alookup_aset_self {α : Type} (l : List (String × α)) (k : String)
    (v : α) : alookup (aset l k v) k = some v := by
  induction l with
  | nil => simp [alookup, aset]
  | cons p rest ih =>
      obtain ⟨k', v'⟩ := p
      by_cases h : k' == k
      · simp [aset, h, alookup, List.find?, h]
      · simp only [aset, h, Bool.false_eq_true, if_false]
        simpa [alookup, List.find?, h] using ih

theorem alookup_aset_other {α : Type} (l : List (String × α)) (k k' : String)
    (v : α) (h : k' ≠ k) : alookup (aset l k v) k' = alookup l k' := by
  induction l with
  | nil =>
      simp only [aset, alookup, List.find?]
      have : (k == k') = false := by
        simpa [beq_iff_eq] using fun hk => h hk.symm
      simp [this]
  | cons p rest ih =>
      obtain ⟨k₀, v₀⟩ := p
      by_cases hk : k₀ == k
      · have hk' : (k₀ == k') = false := by
          have : k₀ = k := by simpa [beq_iff_eq] using hk
          subst this
          simpa [beq_iff_eq] using fun hk2 => h hk2.symm
        simp [aset, hk, alookup, List.find?, hk']
      · simp only [aset, hk, Bool.false_eq_true, if_false]
        by_cases hk' : k₀ == k'
        · simp [alookup, List.find?, hk']
        · simp only [alookup, List.find?, hk']
          simpa [alookup, List.find?, hk'] using ih

/-- After `on_rate_limited`, the stored delay for that domain is the capped
doubled-with-jitter delay. -/
theorem currentDelay_onRateLimited (rl : RateLimiter) (d : String) (j : ℚ) :
    ((rl.onRateLimited d j).1).currentDelay d
      = min (rl.currentDelay d * 2 * j) rl.maxDelay := by
  simp [RateLimiter.onRateLimited, RateLimiter.currentDelay,
    alookup_aset_self]

/-- One backoff step neither decreases the delay nor pushes it above
`max_delay`, for any jitter draw in the support of `U(0.75, 1.25)`. -/
theorem backoff_step_bounds (d maxD j : ℚ) (hd0 : 0 ≤ d) (hdm : d ≤ maxD)
    (hj : 3/4 ≤ j) :
    d ≤ min (d * 2 * j) maxD ∧ min (d * 2 * j) maxD ≤ maxD ∧
      0 ≤ min (d * 2 * j) maxD := by
  have h2j : (1 : ℚ) ≤ 2 * j := by linarith
  have hgrow : d ≤ d * 2 * j := by
    calc d = d * 1 := by ring
    _ ≤ d * (2 * j) := by
          exact mul_le_mul_of_nonneg_left h2j hd0
    _ = d * 2 * j := by ring
  refine ⟨le_min hgrow hdm, min_le_right _ _, ?_⟩
  exact le_min (le_trans hd0 hgrow) (le_trans hd0 hdm)

/-- The parameters of the limiter are untouched by any event. -/
theorem applyEvent_params (rl : RateLimiter) (e : RLEvent) :
    (rl.applyEvent e).baseDelayMin = rl.baseDelayMin ∧
      (rl.applyEvent e).maxDelay = rl.maxDelay := by
  cases e <;>
    simp [RateLimiter.applyEvent, RateLimiter.onSuccess,
      RateLimiter.onRateLimited, RateLimiter.wait]

/-- One event keeps every domain's stored delay inside
`[base_delay_min, max_delay]`, provided `0 ≤ base_delay_min ≤ max_delay`
and the jitter draw is at least 0.75. -/
theorem applyEvent_delay_bounds (rl : RateLimiter) (e : RLEvent)
    (hb0 : 0 ≤ rl.baseDelayMin) (hbm : rl.baseDelayMin ≤ rl.maxDelay)
    (hje : e.jitterInRange)
    (hinv : ∀ d, rl.baseDelayMin ≤ rl.currentDelay d ∧
      rl.currentDelay d ≤ rl.maxDelay) :
    ∀ d, rl.baseDelayMin ≤ (rl.applyEvent e).currentDelay d ∧
      (rl.applyEvent e).currentDelay d ≤ rl.maxDelay := by
  intro d
  cases e with
  | success d₀ =>
      by_cases hd : d = d₀
      · subst hd
        obtain ⟨h₁, h₂⟩ := hinv d
        have hd0 : 0 ≤ rl.currentDelay d := le_trans hb0 h₁
        constructor
        · simp [RateLimiter.applyEvent, RateLimiter.onSuccess,
            RateLimiter.currentDelay, alookup_aset_self]
        · have h₂' : (alookup rl.domainDelays d).getD rl.baseDelayMin
              ≤ rl.maxDelay := h₂
          have hd0' : (0 : ℚ) ≤ (alookup rl.domainDelays d).getD
              rl.baseDelayMin := hd0
          simp only [RateLimiter.applyEvent, RateLimiter.onSuccess,
            RateLimiter.currentDelay, alookup_aset_self, Option.getD_some]
          refine max_le hbm ?_
          linarith
      · simp only [RateLimiter.applyEvent, RateLimiter.onSuccess,
          RateLimiter.currentDelay, alookup_aset_other _ _ _ _ hd]
        exact hinv d
  | rateLimited d₀ j =>
      by_cases hd : d = d₀
      · subst hd
        obtain ⟨h₁, h₂⟩ := hinv d
        have hd0 : 0 ≤ rl.currentDelay d := le_trans hb0 h₁
        obtain ⟨hj, _⟩ := hje
        obtain ⟨hs₁, hs₂, _⟩ :=
          backoff_step_bounds (rl.currentDelay d) rl.maxDelay j hd0 h₂ hj
        constructor
        · simp only [RateLimiter.applyEvent, currentDelay_onRateLimited]
          exact le_trans h₁ hs₁
        · simp only [RateLimiter.applyEvent, currentDelay_onRateLimited]
          exact hs₂
      · simp only [RateLimiter.applyEvent, RateLimiter.onRateLimited,
          RateLimiter.currentDelay, alookup_aset_other _ _ _ _ hd]
        exact hinv d
  | wait d₀ now =>
      simp only [RateLimiter.applyEvent, RateLimiter.wait,
        RateLimiter.currentDelay]
      exact hinv d

/-- Claim C9: on consecutive `on_rate_limited` calls for one origin with no
interleaved success, the origin's current delay is non-decreasing from call
to call and never exceeds `max_delay`, for every outcome of the jitter
factor drawn from `U(0.75, 1.25)` (given that the starting delay lies in
`[0, max_delay]`, as it does in every reachable state with
`0 ≤ base_delay_min ≤ max_delay`). -/
theorem C9_backoff_monotone (rl : RateLimiter) (domain : String)
    (js : List ℚ) (h0 : 0 ≤ rl.currentDelay domain)
    (hm : rl.currentDelay domain ≤ rl.maxDelay)
    (hjs : ∀ j ∈ js, 3/4 ≤ j ∧ j ≤ 5/4) :
    List.Chain' (· ≤ ·)
        (rl.currentDelay domain :: rl.delaysAfterRateLimited domain js) ∧
      ∀ x ∈ rl.delaysAfterRateLimited domain js, x ≤ rl.maxDelay := by
  induction js generalizing rl with
  | nil => simp [RateLimiter.delaysAfterRateLimited]
  | cons j rest ih =>
      obtain ⟨hj, _⟩ := hjs j (by simp)
      obtain ⟨hs₁, hs₂, hs₃⟩ :=
        backoff_step_bounds (rl.currentDelay domain) rl.maxDelay j h0 hm hj
      set rl' := (rl.onRateLimited domain j).1 with hrl'
      have hcd : rl'.currentDelay domain
          = min (rl.currentDelay domain * 2 * j) rl.maxDelay :=
        currentDelay_onRateLimited rl domain j
      have hmax : rl'.maxDelay = rl.maxDelay := rfl
      have h0' : 0 ≤ rl'.currentDelay domain := by rw [hcd]; exact hs₃
      have hm' : rl'.currentDelay domain ≤ rl'.maxDelay := by
        rw [hcd, hmax]; exact hs₂
      obtain ⟨ihc, ihb⟩ := ih rl' h0' hm'
        (fun j hj => hjs j (by simp [hj]))
      constructor
      · refine List.chain'_cons.mpr ⟨?_, ?_⟩
        · show rl.currentDelay domain ≤ rl'.currentDelay domain
          rw [hcd]; exact hs₁
        · simpa [RateLimiter.delaysAfterRateLimited] using ihc
      · intro x hx
        simp only [RateLimiter.delaysAfterRateLimited, List.mem_cons] at hx
        rcases hx with hx | hx
        · rw [hx, hcd]; exact hs₂
        · simpa [hmax] using ihb x hx

/-- Witness for C9 at the default configuration
(`base_delay = (1, 3)`, `max_delay = 60`) with two jitter draws of 1. -/
theorem C9_backoff_monotone_witness :
    List.Chain' (· ≤ ·)
        ((RateLimiter.init 1 3 60 3).currentDelay "example.com" ::
          (RateLimiter.init 1 3 60 3).delaysAfterRateLimited "example.com"
            [1, 1]) ∧
      ∀ x ∈ (RateLimiter.init 1 3 60 3).delaysAfterRateLimited "example.com"
          [1, 1], x ≤ (RateLimiter.init 1 3 60 3).maxDelay :=
  C9_backoff_monotone (RateLimiter.init 1 3 60 3) "example.com" [1, 1]
    (by norm_num [RateLimiter.currentDelay, RateLimiter.init, alookup])
    (by norm_num [RateLimiter.currentDelay, RateLimiter.init, alookup])
    (by intro j hj; fin_cases hj <;> norm_num)

/-- Claim C10 counterexample: with `base_delay_min = -4 ≤ 60 = max_delay`
(the claim's only assumption) a single `on_rate_limited` call with jitter 1
drives the stored delay to -8, strictly below `base_delay_min`, so the
interval invariant fails. -/
theorem C10_counterexample :
    (RateLimiter.init (-4) 3 60 3).baseDelayMin
        ≤ (RateLimiter.init (-4) 3 60 3).maxDelay ∧
      (3/4 : ℚ) ≤ 1 ∧ (1 : ℚ) ≤ 5/4 ∧
      (((RateLimiter.init (-4) 3 60 3).onRateLimited "o" 1).1).currentDelay "o"
        < (RateLimiter.init (-4) 3 60 3).baseDelayMin := by
  refine ⟨by norm_num [RateLimiter.init], by norm_num, by norm_num, ?_⟩
  norm_num [RateLimiter.init, RateLimiter.onRateLimited,
    RateLimiter.currentDelay, alookup, aset, alookup_aset_self]

/-- Every event sequence with in-range jitters keeps every domain's delay
in `[base_delay_min, max_delay]` and leaves the parameters unchanged. -/
theorem applyEvents_delay_bounds (evs : List RLEvent) :
    ∀ (rl : RateLimiter), 0 ≤ rl.baseDelayMin →
      rl.baseDelayMin ≤ rl.maxDelay →
      (∀ e ∈ evs, e.jitterInRange) →
      (∀ d, rl.baseDelayMin ≤ rl.currentDelay d ∧
        rl.currentDelay d ≤ rl.maxDelay) →
      (rl.applyEvents evs).baseDelayMin = rl.baseDelayMin ∧
        (rl.applyEvents evs).maxDelay = rl.maxDelay ∧
        ∀ d, rl.baseDelayMin ≤ (rl.applyEvents evs).currentDelay d ∧
          (rl.applyEvents evs).currentDelay d ≤ rl.maxDelay := by
  induction evs with
  | nil => intro rl _ _ _ hinv; exact ⟨rfl, rfl, hinv⟩
  | cons e rest ih =>
      intro rl hb0 hbm hevs hinv
      have hje : e.jitterInRange := hevs e (by simp)
      have hinv' := applyEvent_delay_bounds rl e hb0 hbm hje hinv
      obtain ⟨hp₁, hp₂⟩ := applyEvent_params rl e
      have hrest : ∀ e' ∈ rest, e'.jitterInRange :=
        fun e' he' => hevs e' (by simp [he'])
      have := ih (rl.applyEvent e) (hp₁ ▸ hb0) (by rw [hp₁, hp₂]; exact hbm)
        hrest (fun d => by rw [hp₁, hp₂]; exact hinv' d)
      have heq : rl.applyEvents (e :: rest)
          = (rl.applyEvent e).applyEvents rest := rfl
      rw [heq, this.1, this.2.1] at *
      exact ⟨by rw [this.1, hp₁], by rw [this.2.1, hp₂], fun d => by
        have := this.2.2 d
        rw [hp₁, hp₂] at this
        exact this⟩

/-- Claim C10 (amended): assuming `0 ≤ base_delay_min ≤ max_delay`, for
every origin and every interleaving of `on_success`, `on_rate_limited`
(with jitter draws from `U(0.75, 1.25)`) and `wait` calls, the delay stored
for that origin — which is exactly the delay a subsequent `wait` uses —
always lies in the closed interval `[base_delay_min, max_delay]`; in
particular `on_success` never lowers it below `base_delay_min`. -/
theorem C10_delay_bounds (bmin bmax maxd : ℚ) (mr : Nat) (evs : List RLEvent)
    (hb0 : 0 ≤ bmin) (hbm : bmin ≤ maxd)
    (hevs : ∀ e ∈ evs, e.jitterInRange) (domain : String) :
    bmin ≤ ((RateLimiter.init bmin bmax maxd mr).applyEvents evs).currentDelay
        domain ∧
      ((RateLimiter.init bmin bmax maxd mr).applyEvents evs).currentDelay
        domain ≤ maxd := by
  have h := applyEvents_delay_bounds evs (RateLimiter.init bmin bmax maxd mr)
    hb0 hbm hevs (fun d => by
      constructor <;>
        simp [RateLimiter.currentDelay, RateLimiter.init, alookup, hbm])
  exact h.2.2 domain

/-- Witness for the amended C10 at the default configuration after a
success, a rate-limit with jitter 1 and a wait. -/
theorem C10_delay_bounds_witness :
    1 ≤ ((RateLimiter.init 1 3 60 3).applyEvents
        [.success "o", .rateLimited "o" 1, .wait "o" 10]).currentDelay "o" ∧
      ((RateLimiter.init 1 3 60 3).applyEvents
        [.success "o", .rateLimited "o" 1, .wait "o" 10]).currentDelay "o"
        ≤ 60 :=
  C10_delay_bounds 1 3 60 3 [.success "o", .rateLimited "o" 1, .wait "o" 10]
    (by norm_num) (by norm_num)
    (by intro e he
        fin_cases he <;> norm_num [RLEvent.jitterInRange])
    "o"

end RateLimiterLemmas

theorem runSchedule_length (tasks : List (Except String α)) (order : List Nat)
    (slots : List (Option (Except String α))) :
    (runSchedule tasks order slots).length = slots.length := by
  induction order generalizing slots with
  | nil => rfl
  | cons i rest ih =>
      simp only [runSchedule]
      cases h : tasks.get? i with
      | some t => rw [ih]; exact List.length_set slots i _
      | none => exact ih slots

theorem runSchedule_getElem? (tasks : List (Except String α))
    (order : List Nat) (slots : List (Option (Except String α))) (i : Nat)
    (hlen : slots.length = tasks.length) :
    (runSchedule tasks order slots)[i]?
      = if i ∈ order ∧ i < tasks.length then tasks[i]?.map some
        else slots[i]? := by
  induction order generalizing slots with
  | nil => simp [runSchedule]
  | cons j rest ih =>
      simp only [runSchedule]
      cases hj : tasks.get? j with
      | some t =>
          have hjlt : j < tasks.length := by
            rcases List.get?_eq_some.mp hj with ⟨h, -⟩; exact h
          rw [ih _ (by simp [hlen])]
          by_cases hmem : i ∈ rest ∧ i < tasks.length
          · simp [hmem, List.mem_cons, hmem.1, hmem.2]
          · rw [if_neg hmem, List.getElem?_set]
            by_cases hij : j = i
            · subst hij
              rw [if_pos rfl, if_pos (hlen ▸ hjlt),
                if_pos ⟨List.mem_cons_self _ _, hjlt⟩,
                ← List.get?_eq_getElem?, hj]
              rfl
            · rw [if_neg hij, if_neg ?_]
              rintro ⟨hm, hl⟩
              rcases List.mem_cons.mp hm with rfl | hm'
              · exact hij rfl
              · exact hmem ⟨hm', hl⟩
      | none =>
          have hjge : tasks.length ≤ j := List.get?_eq_none.mp hj
          rw [ih slots hlen]
          by_cases hmem : i ∈ rest ∧ i < tasks.length
          · simp [hmem, List.mem_cons, hmem.1, hmem.2]
          · rw [if_neg hmem, if_neg ?_]
            rintro ⟨hm, hl⟩
            rcases List.mem_cons.mp hm with rfl | hm'
            · omega
            · exact hmem ⟨hm', hl⟩

/-- Claim C8: for every input task list and every completion order (any
permutation of the task indices), `dispatch` returns a result list of the
same length whose `i`-th entry is exactly the outcome of task `i` — input
order, not completion order — and a task that raises (`Except.error`) only
occupies its own slot, leaving every other task's result intact. -/
theorem C8_dispatch_order {α : Type} (tasks : List (Except String α))
    (order : List Nat) (hperm : order.Perm (List.range tasks.length)) :
    SemaphoreDispatcher.dispatch tasks order = tasks := by
  apply List.ext_get?
  intro i
  rw [List.get?_eq_getElem?, List.get?_eq_getElem?]
  unfold SemaphoreDispatcher.dispatch
  rw [List.getElem?_map,
    runSchedule_getElem? tasks order _ i (by simp)]
  by_cases hi : i < tasks.length
  · have hmem : i ∈ order := hperm.mem_iff.mpr (List.mem_range.mpr hi)
    rw [if_pos ⟨hmem, hi⟩]
    cases ht : tasks[i]? with
    | some t => rfl
    | none =>
        rw [List.getElem?_eq_none_iff] at ht
        omega
  · rw [if_neg (fun hc => hi hc.2)]
    have h₁ : (List.replicate tasks.length
        (none : Option (Except String α)))[i]? = none := by
      rw [List.getElem?_eq_none_iff]; simpa using hi
    have h₂ : tasks[i]? = none := by
      rw [List.getElem?_eq_none_iff]; omega
    rw [h₁, h₂]; rfl

/-- Witness for C8: three tasks, the middle one raising, completing in the
order 2, 0, 1; the dispatcher still returns the outcomes in input order. -/
theorem C8_dispatch_order_witness :
    SemaphoreDispatcher.dispatch
        [Except.ok 10, Except.error "boom", Except.ok 30] [2, 0, 1]
      = [Except.ok 10, Except.error "boom", Except.ok 30] :=
  C8_dispatch_order _ [2, 0, 1] (by decide)

/-! ### UTF-8 round trip -/

theorem utf8DecodeReplace_nil : utf8DecodeReplace [] = [] := by
  rw [utf8DecodeReplace.eq_def]

theorem utf8DecodeReplace_cons (b : Nat) (bs : List Nat) (v k : Nat)
    (h : decodeSeq b bs = (some v, k)) :
    utf8DecodeReplace (b :: bs)
      = Char.ofNat v :: utf8DecodeReplace (bs.drop k) := by
  rw [utf8DecodeReplace.eq_def]
  simp only
  rw [h]

theorem decodeSeq_one (v : Nat) (h1 : v < 128) (bs : List Nat) :
    decodeSeq v bs = (some v, 0) := by
  simp only [decodeSeq, if_pos h1]

theorem decodeSeq_two (v : Nat) (h1 : 128 ≤ v) (h2 : v < 2048)
    (rest : List Nat) :
    decodeSeq (192 + v / 64) ((128 + v % 64) :: rest) = (some v, 1) := by
  simp only [decodeSeq, if_neg (by omega : ¬192 + v / 64 < 128),
    if_pos (by omega : 194 ≤ 192 + v / 64 ∧ 192 + v / 64 ≤ 223),
    if_pos (by omega : 128 ≤ 128 + v % 64 ∧ 128 + v % 64 ≤ 191)]
  have harith : (192 + v / 64 - 192) * 64 + (128 + v % 64 - 128) = v := by
    omega
  rw [harith]

theorem decodeSeq_three (v : Nat) (h1 : 2048 ≤ v) (h2 : v < 65536)
    (hsur : v < 55296 ∨ 57343 < v) (rest : List Nat) :
    decodeSeq (224 + v / 4096) ((128 + v / 64 % 64) :: (128 + v % 64) :: rest)
      = (some v, 2) := by
  have hfc : utf8FirstContOk (224 + v / 4096) (128 + v / 64 % 64) := by
    unfold utf8FirstContOk
    by_cases h0 : v / 4096 = 0
    · rw [if_pos (by omega)]; omega
    · rw [if_neg (by omega)]
      by_cases h13 : v / 4096 = 13
      · rw [if_pos (by omega)]
        rcases hsur with h | h <;> omega
      · rw [if_neg (by omega), if_neg (by omega), if_neg (by omega)]
        omega
  simp only [decodeSeq, if_neg (by omega : ¬224 + v / 4096 < 128),
    if_neg (by omega : ¬(194 ≤ 224 + v / 4096 ∧ 224 + v / 4096 ≤ 223)),
    if_pos (by omega : 224 ≤ 224 + v / 4096 ∧ 224 + v / 4096 ≤ 239),
    if_pos hfc,
    if_pos (by omega : 128 ≤ 128 + v % 64 ∧ 128 + v % 64 ≤ 191)]
  have harith : (224 + v / 4096 - 224) * 4096 + (128 + v / 64 % 64 - 128) * 64
      + (128 + v % 64 - 128) = v := by omega
  rw [harith]

theorem decodeSeq_four (v : Nat) (h1 : 65536 ≤ v) (h2 : v < 1114112)
    (rest : List Nat) :
    decodeSeq (240 + v / 262144) ((128 + v / 4096 % 64)
        :: (128 + v / 64 % 64) :: (128 + v % 64) :: rest)
      = (some v, 3) := by
  have hfc : utf8FirstContOk (240 + v / 262144) (128 + v / 4096 % 64) := by
    unfold utf8FirstContOk
    rw [if_neg (by omega), if_neg (by omega)]
    by_cases h0 : v / 262144 = 0
    · rw [if_pos (by omega)]; omega
    · rw [if_neg (by omega)]
      by_cases h4 : v / 262144 = 4
      · rw [if_pos (by omega)]; omega
      · rw [if_neg (by omega)]; omega
  simp only [decodeSeq, if_neg (by omega : ¬240 + v / 262144 < 128),
    if_neg (by omega : ¬(194 ≤ 240 + v / 262144 ∧ 240 + v / 262144 ≤ 223)),
    if_neg (by omega : ¬(224 ≤ 240 + v / 262144 ∧ 240 + v / 262144 ≤ 239)),
    if_pos (by omega : 240 ≤ 240 + v / 262144 ∧ 240 + v / 262144 ≤ 244),
    if_pos hfc,
    if_pos (by omega : 128 ≤ 128 + v / 64 % 64 ∧ 128 + v / 64 % 64 ≤ 191),
    if_pos (by omega : 128 ≤ 128 + v % 64 ∧ 128 + v % 64 ≤ 191)]
  have harith : (240 + v / 262144 - 240) * 262144
      + (128 + v / 4096 % 64 - 128) * 4096
      + (128 + v / 64 % 64 - 128) * 64 + (128 + v % 64 - 128) = v := by omega
  rw [harith]

theorem utf8DecodeReplace_encodeChar_append (c : Char) (rest : List Nat) :
    utf8DecodeReplace (utf8EncodeChar c ++ rest)
      = c :: utf8DecodeReplace rest := by
  have hval : c.toNat < 55296 ∨ 57343 < c.toNat ∧ c.toNat < 1114112 :=
    c.valid
  have hofNat : Char.ofNat c.toNat = c := Char.ofNat_toNat c
  by_cases h1 : c.toNat < 128
  · simp only [utf8EncodeChar, if_pos h1, List.cons_append, List.nil_append]
    rw [utf8DecodeReplace_cons _ _ _ _ (decodeSeq_one _ h1 _), hofNat,
      List.drop_zero]
  by_cases h2 : c.toNat < 2048
  · simp only [utf8EncodeChar, if_neg h1, if_pos h2, List.cons_append,
      List.nil_append]
    rw [utf8DecodeReplace_cons _ _ _ _ (decodeSeq_two _ (by omega) h2 _),
      hofNat, List.drop_one, List.tail_cons]
  by_cases h3 : c.toNat < 65536
  · have hsur : c.toNat < 55296 ∨ 57343 < c.toNat := by
      rcases hval with h | ⟨h, _⟩
      · exact Or.inl h
      · exact Or.inr h
    simp only [utf8EncodeChar, if_neg h1, if_neg h2, if_pos h3,
      List.cons_append, List.nil_append]
    rw [utf8DecodeReplace_cons _ _ _ _
      (decodeSeq_three _ (by omega) h3 hsur _), hofNat]
    rfl
  · have hup : c.toNat < 1114112 := by
      rcases hval with h | ⟨_, h⟩
      · omega
      · exact h
    simp only [utf8EncodeChar, if_neg h1, if_neg h2, if_neg h3,
      List.cons_append, List.nil_append]
    rw [utf8DecodeReplace_cons _ _ _ _
      (decodeSeq_four _ (by omega) hup _), hofNat]
    rfl

/-- `decode(encode(s), errors='replace')` is the identity: every Lean
`List Char` is a sequence of Unicode scalars, whose UTF-8 encoding is
well-formed. -/
theorem utf8_roundtrip (s : List Char) :
    utf8DecodeReplace (utf8Encode s) = s := by
  induction s with
  | nil => rw [utf8Encode, List.flatMap_nil, utf8DecodeReplace_nil]
  | cons c cs ih =>
      rw [utf8Encode, List.flatMap_cons]
      show utf8DecodeReplace (utf8EncodeChar c ++ utf8Encode cs) = c :: cs
      rw [utf8DecodeReplace_encodeChar_append, ih]

/-! ### Percent-encoding round trip -/

theorem toNat_ofNat_valid (n : Nat) (h : n < 55296) :
    (Char.ofNat n).toNat = n := by
  unfold Char.ofNat
  rw [dif_pos (Or.inl h)]
  rfl

theorem utf8EncodeChar_ascii (c : Char) (h : c.toNat < 128) :
    utf8EncodeChar c = [c.toNat] := by
  simp only [utf8EncodeChar, if_pos h]

theorem utf8Encode_ascii (s : List Char) (h : ∀ c ∈ s, c.toNat < 128) :
    utf8Encode s = s.map Char.toNat := by
  induction s with
  | nil => rfl
  | cons c cs ih =>
      rw [utf8Encode, List.flatMap_cons,
        utf8EncodeChar_ascii c (h c (by simp)), List.map_cons]
      rw [utf8Encode] at ih
      rw [ih (fun d hd => h d (by simp [hd]))]
      rfl

theorem utf8Encode_append (s t : List Char) :
    utf8Encode (s ++ t) = utf8Encode s ++ utf8Encode t := by
  simp [utf8Encode]

theorem hexUpperDigit_toNat (n : Nat) (h : n < 16) :
    (hexUpperDigit n).toNat = if n < 10 then 48 + n else 55 + n := by
  unfold hexUpperDigit
  split
  · rw [toNat_ofNat_valid _ (by omega)]
  · rw [toNat_ofNat_valid _ (by omega)]

theorem hexUpperDigit_ascii (n : Nat) (h : n < 16) :
    (hexUpperDigit n).toNat < 128 := by
  rw [hexUpperDigit_toNat n h]
  split <;> omega

theorem hexDigitVal_hexUpperDigit (n : Nat) (h : n < 16) :
    hexDigitVal (hexUpperDigit n).toNat = some n := by
  rw [hexUpperDigit_toNat n h]
  unfold hexDigitVal
  by_cases h10 : n < 10
  · rw [if_pos h10, if_pos (by omega)]
    exact congrArg some (by omega)
  · rw [if_neg h10, if_neg (by omega), if_pos (by omega)]
    exact congrArg some (by omega)

theorem quoteByte_ascii (safe : List Nat) (b : Nat) :
    ∀ c ∈ quoteByte safe b, c.toNat < 128 := by
  intro c hc
  unfold quoteByte at hc
  split at hc
  · next hs =>
      have hb : b < 128 := by
        rcases hs with hs | ⟨_, hs⟩
        · unfold alwaysSafeByte at hs; omega
        · exact hs
      simp only [List.mem_singleton] at hc
      rw [hc, toNat_ofNat_valid _ (by omega)]
      exact hb
  · simp only [List.mem_cons, List.not_mem_nil, or_false] at hc
    rcases hc with rfl | rfl | rfl
    · decide
    · exact hexUpperDigit_ascii _ (by omega)
    · exact hexUpperDigit_ascii _ (by omega)

/-- The UTF-8 bytes of one quoted byte: a safe byte stands for itself,
anything else is `37` (`%`) followed by the two hex-digit bytes. -/
theorem utf8Encode_quoteByte (safe : List Nat) (b : Nat) :
    utf8Encode (quoteByte safe b)
      = if alwaysSafeByte b ∨ (b ∈ safe ∧ b < 128) then [b]
        else [37, (hexUpperDigit (b / 16 % 16)).toNat,
          (hexUpperDigit (b % 16)).toNat] := by
  unfold quoteByte
  split
  · next hs =>
      have hb : b < 128 := by
        rcases hs with hs | ⟨_, hs⟩
        · unfold alwaysSafeByte at hs; omega
        · exact hs
      rw [utf8Encode_ascii _ (by
        intro c hc
        simp only [List.mem_singleton] at hc
        rw [hc, toNat_ofNat_valid _ (by omega)]
        exact hb)]
      simp only [List.map_cons, List.map_nil]
      rw [toNat_ofNat_valid _ (by omega)]
  · rw [utf8Encode_ascii _ (by
      intro c hc
      simp only [List.mem_cons, List.not_mem_nil, or_false] at hc
      rcases hc with rfl | rfl | rfl
      · decide
      · exact hexUpperDigit_ascii _ (by omega)
      · exact hexUpperDigit_ascii _ (by omega))]
    rfl

theorem percentDecode_nil : percentDecode [] = [] := by
  rw [percentDecode.eq_def]

theorem percentDecode_cons_ne (b : Nat) (rest : List Nat) (hb : b ≠ 37) :
    percentDecode (b :: rest) = b :: percentDecode rest := by
  rw [percentDecode.eq_def]
  simp only [if_neg hb]

theorem percentDecode_escape (hi lo : Nat) (hhi : hi < 16) (hlo : lo < 16)
    (rest : List Nat) :
    percentDecode (37 :: (hexUpperDigit hi).toNat
        :: (hexUpperDigit lo).toNat :: rest)
      = (hi * 16 + lo) :: percentDecode rest := by
  rw [percentDecode.eq_def]
  simp only [if_pos rfl, percentStep, hexDigitVal_hexUpperDigit hi hhi,
    hexDigitVal_hexUpperDigit lo hlo]
  rfl

theorem percentDecode_no_escape (bs : List Nat) (h : 37 ∉ bs) :
    percentDecode bs = bs := by
  induction bs with
  | nil => exact percentDecode_nil
  | cons b rest ih =>
      rw [percentDecode_cons_ne b rest (fun hbe => h (by simp [hbe]))]
      rw [ih (fun hm => h (by simp [hm]))]

/-- Percent-decoding the quoted form of a byte string recovers it, when
`%` itself is not declared safe. -/
theorem percentDecode_quoteFromBytes (safe : List Nat) (hsafe : 37 ∉ safe)
    (bs : List Nat) (hbs : ∀ b ∈ bs, b < 256) :
    percentDecode (utf8Encode (quoteFromBytes bs safe)) = bs := by
  induction bs with
  | nil =>
      rw [show quoteFromBytes [] safe = [] from rfl,
        show utf8Encode [] = [] from rfl, percentDecode_nil]
  | cons b rest ih =>
      have hb : b < 256 := hbs b (by simp)
      rw [quoteFromBytes, List.flatMap_cons]
      rw [show rest.flatMap (quoteByte safe) = quoteFromBytes rest safe
        from rfl]
      rw [utf8Encode_append, utf8Encode_quoteByte]
      split
      · next hs =>
          have hbne : b ≠ 37 := by
            rcases hs with hs | ⟨hmem, _⟩
            · unfold alwaysSafeByte at hs; omega
            · intro hbe; rw [hbe] at hmem; exact hsafe hmem
          rw [List.cons_append, List.nil_append,
            percentDecode_cons_ne b _ hbne,
            ih (fun x hx => hbs x (by simp [hx]))]
      · rw [List.cons_append, List.cons_append, List.cons_append,
          List.nil_append,
          percentDecode_escape _ _ (by omega) (by omega),
          ih (fun x hx => hbs x (by simp [hx]))]
        have : b / 16 % 16 * 16 + b % 16 = b := by omega
        rw [this]

theorem utf8Encode_lt_256 (s : List Char) : ∀ b ∈ utf8Encode s, b < 256 := by
  intro b hb
  rw [utf8Encode] at hb
  rcases List.mem_flatMap.mp hb with ⟨c, _, hbc⟩
  unfold utf8EncodeChar at hbc
  have hor : c.toNat < 55296 ∨ 57343 < c.toNat ∧ c.toNat < 1114112 :=
    c.valid
  have hval : c.toNat < 1114112 := by
    rcases hor with h | ⟨_, h⟩ <;> omega
  dsimp only at hbc
  by_cases h1 : c.toNat < 128
  · rw [if_pos h1] at hbc
    simp only [List.mem_singleton] at hbc
    omega
  rw [if_neg h1] at hbc
  by_cases h2 : c.toNat < 2048
  · rw [if_pos h2] at hbc
    simp only [List.mem_cons, List.not_mem_nil, or_false] at hbc
    rcases hbc with rfl | rfl <;> omega
  rw [if_neg h2] at hbc
  by_cases h3 : c.toNat < 65536
  · rw [if_pos h3] at hbc
    simp only [List.mem_cons, List.not_mem_nil, or_false] at hbc
    rcases hbc with rfl | rfl | rfl <;> omega
  · rw [if_neg h3] at hbc
    simp only [List.mem_cons, List.not_mem_nil, or_false] at hbc
    rcases hbc with rfl | rfl | rfl | rfl <;> omega

/-- `unquote` on an all-ASCII string is percent-decoding of its bytes
followed by UTF-8 decoding (one ASCII run). -/
theorem pyUnquote_ascii (y : List Char) (h : ∀ c ∈ y, c.toNat < 128) :
    pyUnquote y = utf8DecodeReplace (percentDecode (utf8Encode y)) := by
  by_cases hp : '%' ∈ y
  · rw [pyUnquote, if_pos hp]
    cases y with
    | nil => simp at hp
    | cons c rest =>
        rw [unquoteCore]
        rw [if_pos (h c (by simp))]
        have htake : rest.takeWhile (fun d => decide (d.toNat < 128))
            = rest := List.takeWhile_eq_self_iff.mpr
          (fun d hd => by simp [h d (by simp [hd])])
        have hdrop : rest.dropWhile (fun d => decide (d.toNat < 128))
            = [] := List.dropWhile_eq_nil_iff.mpr
          (fun d hd => by simp [h d (by simp [hd])])
        rw [htake, hdrop, unquoteCore, List.append_nil, unquoteToBytes]
  · rw [pyUnquote, if_neg hp]
    have h37 : 37 ∉ utf8Encode y := by
      rw [utf8Encode_ascii y h]
      intro hmem
      rcases List.mem_map.mp hmem with ⟨c, hc, hc37⟩
      have : c = '%' := by
        have hofc : Char.ofNat c.toNat = c := Char.ofNat_toNat c
        rw [← hofc, hc37]
      rw [this] at hc
      exact hp hc
    rw [percentDecode_no_escape _ h37, utf8_roundtrip]

theorem replaceChar_id_of_not_mem (a b : Char) (s : List Char)
    (h : a ∉ s) : replaceChar a b s = s := by
  induction s with
  | nil => rfl
  | cons c rest ih =>
      unfold replaceChar
      rw [List.map_cons]
      have hhead : (if c = a then b else c) = c :=
        if_neg (by rintro rfl; exact h (by simp))
      rw [hhead]
      have ih' := ih (fun hm => h (by simp [hm]))
      unfold replaceChar at ih'
      rw [ih']

theorem replaceChar_invol (a b : Char) (s : List Char) (h : b ∉ s) :
    replaceChar b a (replaceChar a b s) = s := by
  induction s with
  | nil => rfl
  | cons c rest ih =>
      have hcb : c ≠ b := by rintro rfl; exact h (by simp)
      unfold replaceChar
      rw [List.map_map, List.map_cons]
      have ih' := ih (fun hm => h (by simp [hm]))
      unfold replaceChar at ih'
      rw [List.map_map] at ih'
      rw [ih']
      have hhead : ((fun x => if x = b then a else x) ∘
          fun x => if x = a then b else x) c = c := by
        simp only [Function.comp_apply]
        by_cases hc : c = a
        · subst hc
          rw [if_pos rfl, if_pos rfl]
        · rw [if_neg hc, if_neg hcb]
      rw [hhead]

theorem plus_not_mem_quote (s : List Char) (safe : List Nat)
    (hsafe : 43 ∉ safe) : '+' ∉ pyQuote s safe := by
  intro hmem
  unfold pyQuote quoteFromBytes at hmem
  rcases List.mem_flatMap.mp hmem with ⟨b, _, hbc⟩
  unfold quoteByte at hbc
  split at hbc
  · next hs =>
      simp only [List.mem_singleton] at hbc
      have hb : b < 128 := by
        rcases hs with hs | ⟨_, hs⟩
        · unfold alwaysSafeByte at hs; omega
        · exact hs
      have : b = 43 := by
        have := congrArg Char.toNat hbc.symm
        rw [toNat_ofNat_valid _ (by omega)] at this
        rw [this]
        rfl
      subst this
      rcases hs with hs | ⟨hmem43, _⟩
      · unfold alwaysSafeByte at hs; omega
      · exact hsafe hmem43
  · simp only [List.mem_cons, List.not_mem_nil, or_false] at hbc
    rcases hbc with h | h | h
    · exact absurd (congrArg Char.toNat h) (by decide)
    · have := congrArg Char.toNat h
      rw [hexUpperDigit_toNat _ (by omega)] at this
      have h43 : ('+').toNat = 43 := rfl
      rw [h43] at this
      split at this <;> omega
    · have := congrArg Char.toNat h
      rw [hexUpperDigit_toNat _ (by omega)] at this
      have h43 : ('+').toNat = 43 := rfl
      rw [h43] at this
      split at this <;> omega

/-- The `parse_qsl` unquoting (`+` to space, then `unquote`) inverts
`quote_plus`. -/
theorem unquotePlus_quotePlus (x : List Char) :
    pyUnquote (replaceChar '+' ' ' (pyQuotePlus x)) = x := by
  have hascii : ∀ (safe : List Nat) (c : Char), c ∈ pyQuote x safe →
      c.toNat < 128 := by
    intro safe c hc
    unfold pyQuote quoteFromBytes at hc
    rcases List.mem_flatMap.mp hc with ⟨b, _, hbc⟩
    exact quoteByte_ascii safe b c hbc
  unfold pyQuotePlus
  split
  · next hsp =>
      rw [replaceChar_invol ' ' '+' (pyQuote x [32])
        (plus_not_mem_quote x [32] (by decide))]
      rw [pyUnquote_ascii _ (hascii [32])]
      rw [pyQuote] at *
      rw [percentDecode_quoteFromBytes [32] (by decide) _
        (utf8Encode_lt_256 x)]
      exact utf8_roundtrip x
  · rw [replaceChar_id_of_not_mem _ _ _
      (plus_not_mem_quote x [] (by decide))]
    rw [pyUnquote_ascii _ (hascii [])]
    rw [pyQuote] at *
    rw [percentDecode_quoteFromBytes [] (by decide) _
      (utf8Encode_lt_256 x)]
    exact utf8_roundtrip x

/-! ### Sorting lemmas for the query canonicalization -/

theorem strLtB_irrefl (a : List Char) : strLtB a a = false := by
  induction a with
  | nil => rfl
  | cons c rest ih => simp [strLtB, ih]

theorem strLtB_trichot (a b : List Char) :
    a = b ∨ strLtB a b = true ∨ strLtB b a = true := by
  induction a generalizing b with
  | nil =>
      cases b with
      | nil => exact Or.inl rfl
      | cons c bs => exact Or.inr (Or.inl rfl)
  | cons c as ih =>
      cases b with
      | nil => exact Or.inr (Or.inr rfl)
      | cons d bs =>
          by_cases hcd : c = d
          · subst hcd
            rcases ih bs with h | h | h
            · exact Or.inl (by rw [h])
            · exact Or.inr (Or.inl (by simp [strLtB, h]))
            · exact Or.inr (Or.inr (by simp [strLtB, h]))
          · rcases Nat.lt_trichotomy c.toNat d.toNat with h | h | h
            · refine Or.inr (Or.inl ?_)
              simp [strLtB, hcd, h]
            · exact absurd (Char.ext (UInt32.ext h)) hcd
            · refine Or.inr (Or.inr ?_)
              simp only [strLtB,
                if_neg (fun he : d = c => hcd he.symm), decide_eq_true_eq]
              exact h

theorem strLtB_asymm (a b : List Char) (h : strLtB a b = true) :
    strLtB b a = false := by
  induction a generalizing b with
  | nil =>
      cases b with
      | nil => rfl
      | cons d bs => rfl
  | cons c as ih =>
      cases b with
      | nil => simp [strLtB] at h
      | cons d bs =>
          by_cases hcd : c = d
          · subst hcd
            simp only [strLtB, if_pos rfl] at h ⊢
            exact ih bs h
          · simp only [strLtB, if_neg hcd, decide_eq_true_eq] at h
            simp only [strLtB, if_neg (fun he : d = c => hcd he.symm)]
            simp only [decide_eq_false_iff_not]
            omega

/-- The head insertion case: a strictly smaller key goes in front. -/
theorem insertKey_cons_of_lt (p q : List Char × QVal)
    (qs : List (List Char × QVal)) (h : strLtB p.1 q.1 = true) :
    insertKey p (q :: qs) = p :: q :: qs := by
  simp [insertKey, h]

theorem insertKey_perm (p : List Char × QVal)
    (l : List (List Char × QVal)) : (insertKey p l).Perm (p :: l) := by
  induction l with
  | nil => exact List.Perm.refl _
  | cons q qs ih =>
      rw [insertKey]
      split
      · exact List.Perm.refl _
      · exact ((ih.cons q).trans (List.Perm.swap p q qs))

theorem pySortedByKey_perm (l : List (List Char × QVal)) :
    (pySortedByKey l).Perm l := by
  induction l with
  | nil => exact List.Perm.refl _
  | cons p ps ih =>
      exact (insertKey_perm p (pySortedByKey ps)).trans (ih.cons p)

theorem insertKey_chain (p : List Char × QVal)
    (l : List (List Char × QVal))
    (h : List.Chain' (fun x y => strLtB y.1 x.1 = false) l) :
    List.Chain' (fun x y => strLtB y.1 x.1 = false) (insertKey p l) := by
  induction l with
  | nil => simp [insertKey]
  | cons q qs ih =>
      rw [insertKey]
      split
      · next hlt =>
          exact List.chain'_cons.mpr ⟨strLtB_asymm _ _ hlt, h⟩
      · next hnlt =>
          have hqp : strLtB p.1 q.1 = false := by
            cases hpq : strLtB p.1 q.1
            · rfl
            · exact absurd hpq hnlt
          have hchain := ih (List.chain'_cons'.mp h).2
          cases hqs : qs with
          | nil =>
              subst hqs
              exact List.chain'_cons.mpr ⟨hqp, List.chain'_singleton p⟩
          | cons r rs =>
              subst hqs
              rw [insertKey] at hchain ⊢
              split at hchain
              · next hlt2 =>
                  rw [if_pos hlt2] at *
                  exact List.chain'_cons.mpr ⟨hqp, hchain⟩
              · next hnlt2 =>
                  rw [if_neg hnlt2] at *
                  exact List.chain'_cons.mpr
                    ⟨(List.chain'_cons.mp h).1, hchain⟩

theorem pySortedByKey_chain (l : List (List Char × QVal)) :
    List.Chain' (fun x y => strLtB y.1 x.1 = false) (pySortedByKey l) := by
  induction l with
  | nil => exact List.chain'_nil
  | cons p ps ih => exact insertKey_chain p _ ih

/-- With pairwise-distinct keys, the sorted chain is strict. -/
theorem chain_strict_of_nodup (l : List (List Char × QVal))
    (hs : List.Chain' (fun x y => strLtB y.1 x.1 = false) l)
    (hn : (l.map (·.1)).Nodup) :
    List.Chain' (fun x y => strLtB x.1 y.1 = true) l := by
  induction l with
  | nil => exact List.chain'_nil
  | cons p ps ih =>
      cases ps with
      | nil => exact List.chain'_singleton p
      | cons q qs =>
          simp only [List.map_cons, List.nodup_cons, List.mem_cons] at hn
          refine List.chain'_cons.mpr ⟨?_, ih (List.chain'_cons.mp hs).2 ?_⟩
          · have hle := (List.chain'_cons.mp hs).1
            have hne : p.1 ≠ q.1 := fun he => hn.1 (Or.inl he)
            rcases strLtB_trichot p.1 q.1 with h | h | h
            · exact absurd h hne
            · exact h
            · rw [h] at hle; exact absurd hle (by simp)
          · simp only [List.map_cons, List.nodup_cons]
            exact hn.2

/-- A list whose keys strictly increase is untouched by the sort. -/
theorem pySortedByKey_id (l : List (List Char × QVal))
    (h : List.Chain' (fun x y => strLtB x.1 y.1 = true) l) :
    pySortedByKey l = l := by
  induction l with
  | nil => rfl
  | cons p ps ih =>
      rw [pySortedByKey, ih (List.chain'_cons'.mp h).2]
      cases ps with
      | nil => rfl
      | cons q qs =>
          exact insertKey_cons_of_lt p q qs
            ((List.chain'_cons.mp h).1)

/-! ### Split/join and character-set lemmas -/

theorem splitOnChar_ne_nil (sep : Char) (l : List Char) :
    splitOnChar sep l ≠ [] := by
  induction l with
  | nil => simp [splitOnChar]
  | cons c rest ih =>
      rw [splitOnChar]
      cases hsp : splitOnChar sep rest with
      | nil => exact absurd hsp ih
      | cons a t =>
          dsimp only
          split <;> simp

theorem splitOnChar_no_sep (sep : Char) (l : List Char) (h : sep ∉ l) :
    splitOnChar sep l = [l] := by
  induction l with
  | nil => rfl
  | cons c rest ih =>
      rw [splitOnChar, ih (fun hm => h (by simp [hm]))]
      dsimp only
      rw [if_neg (by rintro rfl; exact h (by simp))]

theorem splitOnChar_append (sep : Char) (l₁ l₂ : List Char)
    (h : sep ∉ l₁) :
    splitOnChar sep (l₁ ++ sep :: l₂) = l₁ :: splitOnChar sep l₂ := by
  induction l₁ with
  | nil =>
      rw [List.nil_append, splitOnChar]
      cases hsp : splitOnChar sep l₂ with
      | nil => exact absurd hsp (splitOnChar_ne_nil sep l₂)
      | cons a t =>
          dsimp only
          rw [if_pos rfl]
  | cons c rest ih =>
      rw [List.cons_append, splitOnChar,
        ih (fun hm => h (by simp [hm]))]
      dsimp only
      rw [if_neg (by rintro rfl; exact h (by simp))]

theorem splitFirst_append (sep : Char) (l₁ l₂ : List Char) (h : sep ∉ l₁) :
    splitFirst sep (l₁ ++ sep :: l₂) = some (l₁, l₂) := by
  induction l₁ with
  | nil => simp [splitFirst]
  | cons c rest ih =>
      rw [List.cons_append, splitFirst,
        if_neg (by rintro rfl; exact h (by simp)),
        ih (fun hm => h (by simp [hm]))]

theorem mem_replaceChar (a b c : Char) (s : List Char)
    (h : c ∈ replaceChar a b s) : c = b ∨ c ∈ s := by
  unfold replaceChar at h
  rcases List.mem_map.mp h with ⟨d, hd, hdc⟩
  by_cases hda : d = a
  · rw [if_pos hda] at hdc; exact Or.inl hdc.symm
  · rw [if_neg hda] at hdc; exact Or.inr (hdc ▸ hd)

theorem not_mem_replaceChar_self (a b : Char) (s : List Char)
    (hab : a ≠ b) : a ∉ replaceChar a b s := by
  intro h
  unfold replaceChar at h
  rcases List.mem_map.mp h with ⟨d, _, hdc⟩
  by_cases hda : d = a
  · rw [if_pos hda] at hdc; exact hab hdc.symm
  · rw [if_neg hda] at hdc; exact hda hdc

/-- Every character of a `quote_plus` result is `+`, `%`, or an
always-safe byte. -/
theorem quotePlus_chars (x : List Char) :
    ∀ c ∈ pyQuotePlus x, c.toNat = 43 ∨ c.toNat = 37 ∨
      alwaysSafeByte c.toNat := by
  intro c hc
  have hq : ∀ (safe : List Nat),
      ∀ d ∈ pyQuote x safe, (d.toNat ∈ safe ∧ d.toNat < 128) ∨
        d.toNat = 37 ∨ alwaysSafeByte d.toNat := by
    intro safe d hd
    unfold pyQuote quoteFromBytes at hd
    rcases List.mem_flatMap.mp hd with ⟨b, _, hbd⟩
    unfold quoteByte at hbd
    split at hbd
    · next hs =>
        have hb : b < 128 := by
          rcases hs with hs | ⟨_, hs⟩
          · unfold alwaysSafeByte at hs; omega
          · exact hs
        simp only [List.mem_singleton] at hbd
        subst hbd
        rw [toNat_ofNat_valid _ (by omega)]
        rcases hs with hs | ⟨hmem, _⟩
        · exact Or.inr (Or.inr hs)
        · exact Or.inl ⟨hmem, hb⟩
    · simp only [List.mem_cons, List.not_mem_nil, or_false] at hbd
      rcases hbd with rfl | rfl | rfl
      · exact Or.inr (Or.inl rfl)
      · rw [hexUpperDigit_toNat _ (by omega)]
        refine Or.inr (Or.inr ?_)
        unfold alwaysSafeByte
        split <;> omega
      · rw [hexUpperDigit_toNat _ (by omega)]
        refine Or.inr (Or.inr ?_)
        unfold alwaysSafeByte
        split <;> omega
  unfold pyQuotePlus at hc
  split at hc
  · rcases mem_replaceChar ' ' '+' c _ hc with rfl | hc'
    · exact Or.inl rfl
    · rcases hq [32] c hc' with ⟨h32, _⟩ | h
      · have hcsp : c = ' ' := by
          have h32' : c.toNat = 32 := by simpa using h32
          exact Char.ext (UInt32.ext h32')
        subst hcsp
        exact absurd hc (not_mem_replaceChar_self ' ' '+' _ (by decide))
      · exact Or.inr h
  · rcases hq [] c hc with ⟨h, _⟩ | h
    · simp at h
    · exact Or.inr h

theorem amp_not_mem_quotePlus (x : List Char) : '&' ∉ pyQuotePlus x := by
  intro hmem
  rcases quotePlus_chars x '&' hmem with h | h | h
  · exact absurd h (by decide)
  · exact absurd h (by decide)
  · exact absurd h (by decide)

theorem eq_not_mem_quotePlus (x : List Char) : '=' ∉ pyQuotePlus x := by
  intro hmem
  rcases quotePlus_chars x '=' hmem with h | h | h
  · exact absurd h (by decide)
  · exact absurd h (by decide)
  · exact absurd h (by decide)

theorem amp_not_mem_encodeSegment (p : List Char × List Char) :
    '&' ∉ encodeSegment p := by
  intro hmem
  unfold encodeSegment at hmem
  rcases List.mem_append.mp hmem with h | h
  · exact amp_not_mem_quotePlus p.1 h
  · rcases List.mem_cons.mp h with h | h
    · exact absurd h (by decide)
    · exact amp_not_mem_quotePlus p.2 h

theorem encodeSegment_ne_nil (p : List Char × List Char) :
    encodeSegment p ≠ [] := by
  unfold encodeSegment
  intro h
  exact absurd (List.append_eq_nil.mp h).2 (by simp)

/-! ### `parse_qsl` recovers the pairs of a canonically encoded query -/

theorem splitOnChar_joinChar (pairs : List (List Char × List Char))
    (hne : pairs ≠ []) :
    splitOnChar '&' (joinChar '&' (pairs.map encodeSegment))
      = pairs.map encodeSegment := by
  induction pairs with
  | nil => exact absurd rfl hne
  | cons p rest ih =>
      cases rest with
      | nil =>
          rw [List.map_cons, List.map_nil]
          rw [show joinChar '&' [encodeSegment p] = encodeSegment p from rfl]
          exact splitOnChar_no_sep '&' _ (amp_not_mem_encodeSegment p)
      | cons q rest' =>
          rw [List.map_cons]
          rw [show joinChar '&' (encodeSegment p
              :: (q :: rest').map encodeSegment)
            = encodeSegment p ++ '&'
              :: joinChar '&' ((q :: rest').map encodeSegment) from rfl]
          rw [splitOnChar_append '&' _ _ (amp_not_mem_encodeSegment p)]
          rw [ih (by simp)]

theorem parseQsl_segment (p : List Char × List Char) :
    (if encodeSegment p = [] then ([] : List (List Char × List Char))
      else
        match splitFirst '=' (encodeSegment p) with
        | some (name, value) =>
            [(pyUnquote (replaceChar '+' ' ' name),
              pyUnquote (replaceChar '+' ' ' value))]
        | none => [(pyUnquote (replaceChar '+' ' ' (encodeSegment p)), [])])
      = [p] := by
  rw [if_neg (encodeSegment_ne_nil p)]
  rw [show encodeSegment p = pyQuotePlus p.1 ++ '=' :: pyQuotePlus p.2
    from rfl]
  rw [splitFirst_append '=' _ _ (eq_not_mem_quotePlus p.1)]
  dsimp only
  rw [unquotePlus_quotePlus, unquotePlus_quotePlus]

theorem parseQsl_join (pairs : List (List Char × List Char))
    (hne : pairs ≠ []) :
    parseQsl (joinChar '&' (pairs.map encodeSegment)) = pairs := by
  have hqs : joinChar '&' (pairs.map encodeSegment) ≠ [] := by
    cases pairs with
    | nil => exact absurd rfl hne
    | cons p rest =>
        cases rest with
        | nil => exact encodeSegment_ne_nil p
        | cons q rest' =>
            rw [List.map_cons,
              show joinChar '&' (encodeSegment p
                  :: (q :: rest').map encodeSegment)
                = encodeSegment p ++ '&'
                  :: joinChar '&' ((q :: rest').map encodeSegment) from rfl]
            simp
  rw [parseQsl, if_neg hqs, splitOnChar_joinChar pairs hne]
  clear hqs hne
  induction pairs with
  | nil => rfl
  | cons p rest ih =>
      rw [List.map_cons, List.flatMap_cons]
      show (if encodeSegment p = [] then _ else _) ++ _ = _
      rw [parseQsl_segment p, ih]
      rfl

/-! ### `parse_qs` grouping of the canonical pair list -/

theorem insertPair_not_mem (acc : List (List Char × List (List Char)))
    (k : List Char) (v : List Char) (h : k ∉ acc.map (·.1)) :
    insertPair acc k v = acc ++ [(k, [v])] := by
  induction acc with
  | nil => rfl
  | cons q rest ih =>
      obtain ⟨k', vs⟩ := q
      rw [insertPair]
      simp only [List.map_cons, List.mem_cons] at h
      rw [if_neg (fun he => h (Or.inl he.symm))]
      rw [ih (fun hm => h (Or.inr hm))]
      rfl

theorem insertPair_found (acc rest : List (List Char × List (List Char)))
    (k : List Char) (vs : List (List Char)) (v : List Char)
    (h : k ∉ acc.map (·.1)) :
    insertPair (acc ++ (k, vs) :: rest) k v
      = acc ++ (k, vs ++ [v]) :: rest := by
  induction acc with
  | nil => simp [insertPair]
  | cons q acc' ih =>
      obtain ⟨k', vs'⟩ := q
      simp only [List.map_cons, List.mem_cons] at h
      rw [List.cons_append, insertPair,
        if_neg (fun he => h (Or.inl he.symm)),
        ih (fun hm => h (Or.inr hm))]
      rfl

theorem foldl_insertPair_run (k : List Char) (vs : List (List Char)) :
    ∀ (acc : List (List Char × List (List Char)))
      (vs0 : List (List Char)), k ∉ acc.map (·.1) →
      List.foldl (fun a p => insertPair a p.1 p.2) (acc ++ [(k, vs0)])
          (vs.map fun v => (k, v))
        = acc ++ [(k, vs0 ++ vs)] := by
  induction vs with
  | nil => intro acc vs0 _; simp
  | cons v vs' ih =>
      intro acc vs0 hk
      rw [List.map_cons, List.foldl_cons]
      have : insertPair (acc ++ [(k, vs0)]) k v = acc ++ [(k, vs0 ++ [v])] :=
        insertPair_found acc [] k vs0 v hk
      rw [this, ih acc (vs0 ++ [v]) hk, List.append_assoc]
      rfl

/-- Folding the flat pairs of a key-distinct item list through
`insertPair` rebuilds exactly one group per item, in order. -/
theorem foldl_insertPair_flat (L : List (List Char × QVal)) :
    ∀ (acc : List (List Char × List (List Char))),
      (∀ p ∈ L, p.1 ∉ acc.map (·.1)) → (L.map (·.1)).Nodup →
      (∀ p ∈ L, p.2.wf) →
      List.foldl (fun a p => insertPair a p.1 p.2) acc
          (L.flatMap expandItem)
        = acc ++ L.map (fun p => (p.1, p.2.toValues)) := by
  induction L with
  | nil => intro acc _ _ _; simp
  | cons p L' ih =>
      intro acc hdisj hnodup hwf
      rw [List.flatMap_cons, List.foldl_append]
      have hpacc : p.1 ∉ acc.map (·.1) := hdisj p (by simp)
      have hstep : List.foldl (fun a q => insertPair a q.1 q.2) acc
          (expandItem p) = acc ++ [(p.1, p.2.toValues)] := by
        cases hv : p.2 with
        | str s =>
            rw [expandItem, hv]
            dsimp only [List.foldl_cons, List.foldl_nil]
            rw [insertPair_not_mem acc p.1 s hpacc]
            rfl
        | list vs =>
            cases vs with
            | nil =>
                exact absurd rfl (by
                  have := hwf p (by simp)
                  rw [hv] at this
                  exact this.1)
            | cons v vs' =>
                rw [expandItem, hv]
                dsimp only [List.map_cons, List.foldl_cons]
                rw [insertPair_not_mem acc p.1 v hpacc,
                  foldl_insertPair_run p.1 vs' acc [v] hpacc]
                rfl
      rw [hstep]
      rw [ih (acc ++ [(p.1, p.2.toValues)]) ?_ ?_
        (fun q hq => hwf q (by simp [hq]))]
      · rw [List.map_cons, List.append_assoc]
        rfl
      · intro q hq
        simp only [List.map_append, List.map_cons, List.map_nil]
        rw [List.mem_append]
        rintro (hm | hm)
        · exact hdisj q (by simp [hq]) hm
        · simp only [List.mem_singleton] at hm
          simp only [List.map_cons, List.nodup_cons] at hnodup
          exact hnodup.1 (hm ▸ List.mem_map_of_mem (·.1) hq)
      · simp only [List.map_cons, List.nodup_cons] at hnodup
        exact hnodup.2

/-- Flattening the rebuilt groups of a well-formed item list gives the
items back. -/
theorem flattenParams_toValues (L : List (List Char × QVal))
    (hwf : ∀ p ∈ L, p.2.wf) :
    flattenParams (L.map fun p => (p.1, p.2.toValues)) = L := by
  induction L with
  | nil => rfl
  | cons p L' ih =>
      obtain ⟨k, val⟩ := p
      rw [List.map_cons, flattenParams, List.map_cons]
      rw [show List.map (fun p =>
          (p.1, match p.2 with
            | [v] => QVal.str v
            | vs => QVal.list vs))
          (L'.map fun p => (p.1, p.2.toValues))
        = flattenParams (L'.map fun p => (p.1, p.2.toValues)) from rfl]
      rw [ih (fun q hq => hwf q (by simp [hq]))]
      congr 1
      cases val with
      | str s => rfl
      | list vs =>
          have hw := hwf (k, QVal.list vs) (by simp)
          cases vs with
          | nil => exact absurd rfl hw.1
          | cons v vs' =>
              cases vs' with
              | nil => exact absurd rfl hw.2
              | cons w vs'' => rfl

/-! ### Invariants of `parse_qs` and assembly of the fixpoint -/

theorem insertPair_keys (acc : List (List Char × List (List Char)))
    (k : List Char) (v : List Char) :
    (insertPair acc k v).map (·.1)
      = if k ∈ acc.map (·.1) then acc.map (·.1)
        else acc.map (·.1) ++ [k] := by
  induction acc with
  | nil => simp [insertPair]
  | cons q rest ih =>
      obtain ⟨k', vs⟩ := q
      rw [insertPair]
      by_cases hk : k' = k
      · subst hk
        rw [if_pos rfl]
        simp
      · rw [if_neg hk, List.map_cons, List.map_cons, ih]
        simp only [List.map_cons, List.mem_cons]
        by_cases hm : k ∈ rest.map (·.1)
        · rw [if_pos hm, if_pos (Or.inr hm)]
        · rw [if_neg hm, if_neg ?_]
          · rfl
          · rintro (he | hm')
            · exact hk he.symm
            · exact hm hm'

theorem foldl_insertPair_keys_nodup
    (ps : List (List Char × List Char)) :
    ∀ acc : List (List Char × List (List Char)),
      (acc.map (·.1)).Nodup →
      (((ps.foldl (fun a p => insertPair a p.1 p.2) acc)).map (·.1)).Nodup := by
  induction ps with
  | nil => intro acc h; exact h
  | cons p ps' ih =>
      intro acc h
      rw [List.foldl_cons]
      refine ih _ ?_
      rw [insertPair_keys]
      split
      · exact h
      · next hnm =>
          rw [List.nodup_append]
          refine ⟨h, List.nodup_singleton _, ?_⟩
          intro x hx hxk
          simp only [List.mem_singleton] at hxk
          subst hxk
          exact hnm hx

theorem parseQs_keys_nodup (q : List Char) :
    ((parseQs q).map (·.1)).Nodup := by
  unfold parseQs
  exact foldl_insertPair_keys_nodup (parseQsl q) [] (by simp)

theorem insertPair_values_ne (acc : List (List Char × List (List Char)))
    (k : List Char) (v : List Char) (h : ∀ p ∈ acc, p.2 ≠ []) :
    ∀ p ∈ insertPair acc k v, p.2 ≠ [] := by
  induction acc with
  | nil =>
      intro p hp
      simp only [insertPair, List.mem_singleton] at hp
      subst hp
      simp
  | cons q rest ih =>
      obtain ⟨k', vs⟩ := q
      intro p hp
      rw [insertPair] at hp
      split at hp
      · rcases List.mem_cons.mp hp with rfl | hp'
        · simp
        · exact h p (by simp [hp'])
      · rcases List.mem_cons.mp hp with rfl | hp'
        · exact h _ (by simp)
        · exact ih (fun r hr => h r (by simp [hr])) p hp'

theorem parseQs_values_ne (q : List Char) :
    ∀ p ∈ parseQs q, p.2 ≠ [] := by
  unfold parseQs
  suffices h : ∀ (ps : List (List Char × List Char))
      (acc : List (List Char × List (List Char))),
      (∀ p ∈ acc, p.2 ≠ []) →
      ∀ p ∈ ps.foldl (fun a r => insertPair a r.1 r.2) acc, p.2 ≠ [] from
    h (parseQsl q) [] (by simp)
  intro ps
  induction ps with
  | nil => intro acc h p hp; exact h p hp
  | cons r ps' ih =>
      intro acc h p hp
      rw [List.foldl_cons] at hp
      exact ih _ (insertPair_values_ne acc r.1 r.2 h) p hp

theorem flattenParams_keys (G : List (List Char × List (List Char))) :
    (flattenParams G).map (·.1) = G.map (·.1) := by
  unfold flattenParams
  rw [List.map_map]
  rfl

theorem flattenParams_wf (G : List (List Char × List (List Char)))
    (h : ∀ p ∈ G, p.2 ≠ []) : ∀ p ∈ flattenParams G, p.2.wf := by
  intro p hp
  unfold flattenParams at hp
  rcases List.mem_map.mp hp with ⟨q, hq, hqp⟩
  obtain ⟨k, vs⟩ := q
  cases vs with
  | nil => exact absurd rfl (h _ hq)
  | cons v vs' =>
      cases vs' with
      | nil =>
          subst hqp
          trivial
      | cons w vs'' =>
          subst hqp
          exact ⟨by simp, by simp⟩

theorem urlencodeItem_eq (p : List Char × QVal) :
    urlencodeItem p = (expandItem p).map encodeSegment := by
  obtain ⟨k, val⟩ := p
  cases val with
  | str s => rfl
  | list vs =>
      unfold urlencodeItem expandItem
      rw [List.map_map]
      rfl

theorem urlencodeDoseq_eq (L : List (List Char × QVal)) :
    urlencodeDoseq L
      = joinChar '&' ((L.flatMap expandItem).map encodeSegment) := by
  unfold urlencodeDoseq
  rw [List.map_flatMap]
  rw [show urlencodeItem = (fun p => (expandItem p).map encodeSegment)
    from funext urlencodeItem_eq]

theorem expandItem_ne_nil (p : List Char × QVal) (hw : p.2.wf) :
    expandItem p ≠ [] := by
  obtain ⟨k, val⟩ := p
  cases val with
  | str s => simp [expandItem]
  | list vs =>
      simp only [expandItem, ne_eq, List.map_eq_nil_iff]
      exact hw.1

/-- Re-canonicalizing the encoding of a key-sorted, key-distinct,
well-formed item list reproduces it. -/
theorem canonicalizeQuery_of_canonical (L : List (List Char × QVal))
    (hLkeys : (L.map (·.1)).Nodup) (hLwf : ∀ p ∈ L, p.2.wf)
    (hchain : List.Chain' (fun x y => strLtB x.1 y.1 = true) L) :
    canonicalizeQuery (urlencodeDoseq L) = urlencodeDoseq L := by
  cases hLni : L with
  | nil => rfl
  | cons p L' =>
      rw [← hLni]
      have hflatne : L.flatMap expandItem ≠ [] := by
        rw [hLni, List.flatMap_cons]
        intro hnil
        rcases List.append_eq_nil.mp hnil with ⟨h1, _⟩
        exact expandItem_ne_nil p (hLwf p (by rw [hLni]; simp)) h1
      have hparse : parseQsl (urlencodeDoseq L) = L.flatMap expandItem := by
        rw [urlencodeDoseq_eq]
        exact parseQsl_join _ hflatne
      show urlencodeDoseq (pySortedByKey (flattenParams
        (parseQs (urlencodeDoseq L)))) = urlencodeDoseq L
      rw [show parseQs (urlencodeDoseq L)
        = (parseQsl (urlencodeDoseq L)).foldl
            (fun acc p => insertPair acc p.1 p.2) [] from rfl]
      rw [hparse, foldl_insertPair_flat L [] (by simp) hLkeys hLwf,
        List.nil_append, flattenParams_toValues L hLwf,
        pySortedByKey_id L hchain]

/-- The query canonicalization of `normalize_url` is idempotent. -/
theorem canonicalizeQuery_fixpoint (q : List Char) :
    canonicalizeQuery (canonicalizeQuery q) = canonicalizeQuery q := by
  have hGkeys := parseQs_keys_nodup q
  have hGvals := parseQs_values_ne q
  have hMwf : ∀ p ∈ flattenParams (parseQs q), p.2.wf :=
    flattenParams_wf _ hGvals
  have hMkeys : ((flattenParams (parseQs q)).map (·.1)).Nodup := by
    rw [flattenParams_keys]; exact hGkeys
  have hperm := pySortedByKey_perm (flattenParams (parseQs q))
  have hLkeys : ((pySortedByKey (flattenParams (parseQs q))).map
      (·.1)).Nodup := ((hperm.map (·.1)).nodup_iff).mpr hMkeys
  have hLwf : ∀ p ∈ pySortedByKey (flattenParams (parseQs q)), p.2.wf :=
    fun p hp => hMwf p (hperm.mem_iff.mp hp)
  have hchain := chain_strict_of_nodup _
    (pySortedByKey_chain (flattenParams (parseQs q))) hLkeys
  exact canonicalizeQuery_of_canonical _ hLkeys hLwf hchain

/-! ### ASCII lowercasing: characterization and invariance -/

theorem asciiLowerChar_toNat (c : Char) :
    (asciiLowerChar c).toNat
      = if 65 ≤ c.toNat ∧ c.toNat ≤ 90 then c.toNat + 32 else c.toNat := by
  unfold asciiLowerChar
  by_cases h : 65 ≤ c.toNat ∧ c.toNat ≤ 90
  · rw [if_pos h, if_pos h, toNat_ofNat_valid _ (by omega)]
  · rw [if_neg h, if_neg h]

theorem asciiLowerChar_of_not_upper (c : Char)
    (h : ¬(65 ≤ c.toNat ∧ c.toNat ≤ 90)) : asciiLowerChar c = c := by
  unfold asciiLowerChar
  rw [if_neg h]

theorem asciiLowerChar_eq_iff (c d : Char)
    (h1 : ¬(65 ≤ d.toNat ∧ d.toNat ≤ 90))
    (h2 : ¬(97 ≤ d.toNat ∧ d.toNat ≤ 122)) :
    asciiLowerChar c = d ↔ c = d := by
  constructor
  · intro h
    by_cases hu : 65 ≤ c.toNat ∧ c.toNat ≤ 90
    · exfalso
      have := asciiLowerChar_toNat c
      rw [if_pos hu, h] at this
      exact h2 (by omega)
    · rwa [asciiLowerChar_of_not_upper c hu] at h
  · rintro rfl
    exact asciiLowerChar_of_not_upper c h1

theorem beq_asciiLowerChar (c d : Char)
    (h1 : ¬(65 ≤ d.toNat ∧ d.toNat ≤ 90))
    (h2 : ¬(97 ≤ d.toNat ∧ d.toNat ≤ 122)) :
    (asciiLowerChar c == d) = (c == d) := by
  by_cases h : c = d
  · subst h
    rw [asciiLowerChar_of_not_upper c h1]
  · rw [beq_eq_false_iff_ne.mpr h,
      beq_eq_false_iff_ne.mpr
        (fun he => h ((asciiLowerChar_eq_iff c d h1 h2).mp he))]

theorem asciiLowerChar_idem (c : Char) :
    asciiLowerChar (asciiLowerChar c) = asciiLowerChar c := by
  apply asciiLowerChar_of_not_upper
  rw [asciiLowerChar_toNat]
  by_cases h : 65 ≤ c.toNat ∧ c.toNat ≤ 90
  · rw [if_pos h]; omega
  · rw [if_neg h]; exact h

theorem asciiLower_idem (s : List Char) :
    asciiLower (asciiLower s) = asciiLower s := by
  unfold asciiLower
  rw [List.map_map]
  exact List.map_congr_left (fun c _ => asciiLowerChar_idem c)

theorem asciiLower_eq_nil (s : List Char) :
    asciiLower s = [] ↔ s = [] := by
  unfold asciiLower
  exact List.map_eq_nil_iff

theorem asciiLower_of_no_upper (s : List Char)
    (h : ∀ c ∈ s, ¬(65 ≤ c.toNat ∧ c.toNat ≤ 90)) : asciiLower s = s := by
  unfold asciiLower
  have := List.map_congr_left (l := s) (f := asciiLowerChar) (g := id)
    (fun c hc => asciiLowerChar_of_not_upper c (h c hc))
  rwa [List.map_id] at this

theorem mem_asciiLower (c : Char) (s : List Char)
    (h1 : ¬(65 ≤ c.toNat ∧ c.toNat ≤ 90))
    (h2 : ¬(97 ≤ c.toNat ∧ c.toNat ≤ 122)) :
    c ∈ asciiLower s ↔ c ∈ s := by
  unfold asciiLower
  rw [List.mem_map]
  constructor
  · rintro ⟨d, hd, hdc⟩
    rwa [(asciiLowerChar_eq_iff d c h1 h2).mp hdc] at hd
  · intro hc
    exact ⟨c, hc, asciiLowerChar_of_not_upper c h1⟩

theorem isHexDigitB_lower (c : Char) :
    isHexDigitB (asciiLowerChar c) = isHexDigitB c := by
  simp only [isHexDigitB, asciiLowerChar_toNat]
  by_cases h : 65 ≤ c.toNat ∧ c.toNat ≤ 90
  · rw [if_pos h]
    simp only [decide_eq_decide]
    omega
  · rw [if_neg h]

theorem isDecDigitB_lower (c : Char) :
    isDecDigitB (asciiLowerChar c) = isDecDigitB c := by
  simp only [isDecDigitB, asciiLowerChar_toNat]
  by_cases h : 65 ≤ c.toNat ∧ c.toNat ≤ 90
  · rw [if_pos h]
    simp only [decide_eq_decide]
    omega
  · rw [if_neg h]

theorem isAsciiAlphaB_lower (c : Char) :
    isAsciiAlphaB (asciiLowerChar c) = isAsciiAlphaB c := by
  simp only [isAsciiAlphaB, asciiLowerChar_toNat]
  by_cases h : 65 ≤ c.toNat ∧ c.toNat ≤ 90
  · rw [if_pos h]
    simp only [decide_eq_decide]
    omega
  · rw [if_neg h]

theorem schemeCharB_lower (c : Char) :
    schemeCharB (asciiLowerChar c) = schemeCharB c := by
  simp only [schemeCharB, isAsciiAlphaB_lower,
    beq_asciiLowerChar c '+' (by decide) (by decide),
    beq_asciiLowerChar c '-' (by decide) (by decide),
    beq_asciiLowerChar c '.' (by decide) (by decide),
    asciiLowerChar_toNat]
  by_cases h : 65 ≤ c.toNat ∧ c.toNat ≤ 90
  · rw [if_pos h,
      show decide (48 ≤ c.toNat + 32 ∧ c.toNat + 32 ≤ 57)
          = decide (48 ≤ c.toNat ∧ c.toNat ≤ 57) by
        simp only [decide_eq_decide]; omega]
  · rw [if_neg h]

theorem notDelimB_lower (c : Char) :
    notDelimB (asciiLowerChar c) = notDelimB c := by
  simp only [notDelimB,
    beq_asciiLowerChar c '/' (by decide) (by decide),
    beq_asciiLowerChar c '?' (by decide) (by decide),
    beq_asciiLowerChar c '#' (by decide) (by decide)]

/-! ### Splitting commutes with lowercasing (for non-letter separators) -/

theorem splitOnChar_lower (sep : Char)
    (h1 : ¬(65 ≤ sep.toNat ∧ sep.toNat ≤ 90))
    (h2 : ¬(97 ≤ sep.toNat ∧ sep.toNat ≤ 122)) (s : List Char) :
    splitOnChar sep (asciiLower s) = (splitOnChar sep s).map asciiLower := by
  induction s with
  | nil => rfl
  | cons c rest ih =>
      show splitOnChar sep (asciiLowerChar c :: asciiLower rest) = _
      rw [splitOnChar, ih]
      cases hsp : splitOnChar sep rest with
      | nil => exact absurd hsp (splitOnChar_ne_nil sep rest)
      | cons a t =>
          rw [splitOnChar, hsp]
          dsimp only [List.map_cons]
          by_cases hc : c = sep
          · rw [if_pos ((asciiLowerChar_eq_iff c sep h1 h2).mpr hc),
              if_pos hc]
            rfl
          · rw [if_neg (fun he =>
                hc ((asciiLowerChar_eq_iff c sep h1 h2).mp he)),
              if_neg hc]
            rfl

theorem splitFirst_lower (sep : Char)
    (h1 : ¬(65 ≤ sep.toNat ∧ sep.toNat ≤ 90))
    (h2 : ¬(97 ≤ sep.toNat ∧ sep.toNat ≤ 122)) (s : List Char) :
    splitFirst sep (asciiLower s)
      = (splitFirst sep s).map (fun p => (asciiLower p.1, asciiLower p.2)) := by
  induction s with
  | nil => rfl
  | cons c rest ih =>
      show splitFirst sep (asciiLowerChar c :: asciiLower rest) = _
      rw [splitFirst, splitFirst, ih]
      by_cases hc : c = sep
      · rw [if_pos ((asciiLowerChar_eq_iff c sep h1 h2).mpr hc), if_pos hc]
        rfl
      · rw [if_neg (fun he => hc ((asciiLowerChar_eq_iff c sep h1 h2).mp he)),
          if_neg hc]
        cases hsp : splitFirst sep rest with
        | none => rfl
        | some p =>
            obtain ⟨l, r⟩ := p
            rfl

/-! ### Characterizations of `splitFirst` -/

theorem splitFirst_eq_none (sep : Char) (l : List Char) :
    splitFirst sep l = none ↔ sep ∉ l := by
  induction l with
  | nil => simp [splitFirst]
  | cons c rest ih =>
      rw [splitFirst]
      by_cases hc : c = sep
      · subst hc
        rw [if_pos rfl]
        simp
      · rw [if_neg hc]
        cases hsp : splitFirst sep rest with
        | none =>
            simp only [List.mem_cons, not_or]
            constructor
            · intro _
              exact ⟨fun he => hc he.symm, ih.mp hsp⟩
            · intro _
              trivial
        | some p =>
            obtain ⟨a, b⟩ := p
            simp only [List.mem_cons, not_or]
            constructor
            · intro h
              exact absurd h (by simp)
            · rintro ⟨_, hmem⟩
              exact absurd hsp (by rw [ih.mpr hmem]; simp)


theorem splitFirst_eq_some (sep : Char) (l : List Char)
    (a b : List Char) (h : splitFirst sep l = some (a, b)) :
    l = a ++ sep :: b ∧ sep ∉ a := by
  induction l generalizing a with
  | nil => exact absurd h (by simp [splitFirst])
  | cons c rest ih =>
      rw [splitFirst] at h
      by_cases hc : c = sep
      · subst hc
        rw [if_pos rfl] at h
        simp only [Option.some.injEq, Prod.mk.injEq] at h
        obtain ⟨rfl, rfl⟩ := h
        exact ⟨rfl, by simp⟩
      · rw [if_neg hc] at h
        cases hsp : splitFirst sep rest with
        | none => rw [hsp] at h; exact absurd h (by simp)
        | some p =>
            obtain ⟨a', b'⟩ := p
            rw [hsp] at h
            simp only [Option.some.injEq, Prod.mk.injEq] at h
            obtain ⟨ha, hb⟩ := h
            subst hb
            obtain ⟨hrest, hna⟩ := ih a' hsp
            subst ha
            refine ⟨by rw [List.cons_append, hrest], ?_⟩
            simp only [List.mem_cons, not_or]
            exact ⟨fun he => hc he.symm, hna⟩

/-! ### `takeWhile`/`dropWhile` over a clean prefix -/

theorem takeWhile_append_all (p : Char → Bool) (l t : List Char)
    (hl : ∀ x ∈ l, p x = true)
    (ht : ∀ c, t.head? = some c → p c = false) :
    (l ++ t).takeWhile p = l ∧ (l ++ t).dropWhile p = t := by
  induction l with
  | nil =>
      simp only [List.nil_append]
      cases t with
      | nil => exact ⟨rfl, rfl⟩
      | cons c t' =>
          rw [List.takeWhile_cons, List.dropWhile_cons, ht c rfl]
          exact ⟨rfl, rfl⟩
  | cons x l' ih =>
      obtain ⟨ih1, ih2⟩ := ih (fun y hy => hl y (by simp [hy]))
      rw [List.cons_append, List.takeWhile_cons, List.dropWhile_cons,
        hl x (by simp)]
      exact ⟨by simp [ih1], by simp [ih2]⟩

/-! ### The bracketed-host validator is invariant under lowercasing -/

theorem contains_lower (s : List Char) (c : Char)
    (h1 : ¬(65 ≤ c.toNat ∧ c.toNat ≤ 90))
    (h2 : ¬(97 ≤ c.toNat ∧ c.toNat ≤ 122)) :
    (asciiLower s).contains c = s.contains c := by
  rw [Bool.eq_iff_iff, List.elem_iff, List.elem_iff]
  exact mem_asciiLower c s h1 h2

theorem parseHextetOk_lower (s : List Char) :
    parseHextetOk (asciiLower s) = parseHextetOk s := by
  unfold parseHextetOk
  rw [show asciiLower s = s.map asciiLowerChar from rfl, List.length_map,
    List.all_map,
    show isHexDigitB ∘ asciiLowerChar = isHexDigitB from
      funext isHexDigitB_lower,
    decide_eq_decide.mpr (not_congr List.map_eq_nil_iff)]

theorem validOctetB_lower (s : List Char) :
    validOctetB (asciiLower s) = validOctetB s := by
  by_cases hd : s.all isDecDigitB = true
  · rw [asciiLower_of_no_upper s (fun c hc => by
      have h := List.all_eq_true.mp hd c hc
      unfold isDecDigitB at h
      have := of_decide_eq_true h
      omega)]
  · rw [Bool.not_eq_true] at hd
    have hd' : (asciiLower s).all isDecDigitB = false := by
      rw [show asciiLower s = s.map asciiLowerChar from rfl, List.all_map,
        show isDecDigitB ∘ asciiLowerChar = isDecDigitB from
          funext isDecDigitB_lower]
      exact hd
    simp only [validOctetB, hd, hd', Bool.and_false, Bool.false_and]

theorem validIPv4B_lower (s : List Char) :
    validIPv4B (asciiLower s) = validIPv4B s := by
  unfold validIPv4B
  rw [splitOnChar_lower '.' (by decide) (by decide)]
  rcases splitOnChar '.' s with _ | ⟨a, _ | ⟨b, _ | ⟨c, _ | ⟨d, _ | ⟨e, t⟩⟩⟩⟩⟩ <;>
    simp only [List.map_nil, List.map_cons] <;>
    first
      | rfl
      | rw [validOctetB_lower, validOctetB_lower, validOctetB_lower,
          validOctetB_lower]

theorem v6HasV4_lower (parts0 : List (List Char)) :
    v6HasV4 (parts0.map asciiLower) = v6HasV4 parts0 := by
  unfold v6HasV4
  rw [List.getLast?_map]
  cases parts0.getLast? with
  | none => rfl
  | some last =>
      show (asciiLower last).contains '.' = last.contains '.'
      exact contains_lower last '.' (by decide) (by decide)

theorem v6V4Ok_lower (parts0 : List (List Char)) :
    v6V4Ok (parts0.map asciiLower) = v6V4Ok parts0 := by
  unfold v6V4Ok
  rw [v6HasV4_lower, List.getLast?_map]
  cases parts0.getLast? with
  | none => rfl
  | some last =>
      show (if v6HasV4 parts0 = true then validIPv4B (asciiLower last)
        else true) = _
      rw [validIPv4B_lower]

theorem v6Parts_lower (parts0 : List (List Char)) :
    v6Parts (parts0.map asciiLower) = (v6Parts parts0).map asciiLower := by
  unfold v6Parts
  rw [v6HasV4_lower]
  by_cases hv : v6HasV4 parts0 = true
  · rw [if_pos hv, if_pos hv, List.map_append, ← List.map_dropLast]
    rfl
  · rw [if_neg hv, if_neg hv]

theorem v6Mids_lower (parts : List (List Char)) :
    v6Mids (parts.map asciiLower) = (v6Mids parts).map asciiLower := by
  unfold v6Mids
  rw [List.length_map, ← List.map_drop, ← List.map_take]

theorem countP_empty_lower (l : List (List Char)) :
    (l.map asciiLower).countP (fun p => decide (p = []))
      = l.countP (fun p => decide (p = [])) := by
  rw [List.countP_map]
  congr 1
  funext p
  show decide (asciiLower p = []) = decide (p = [])
  exact decide_eq_decide.mpr (asciiLower_eq_nil p)

theorem findIdx_empty_lower (l : List (List Char)) :
    (l.map asciiLower).findIdx (fun p => decide (p = []))
      = l.findIdx (fun p => decide (p = [])) := by
  induction l with
  | nil => rfl
  | cons a t ih =>
      rw [List.map_cons, List.findIdx_cons, List.findIdx_cons, ih,
        show (decide (asciiLower a = []) : Bool) = decide (a = []) from
          decide_eq_decide.mpr (asciiLower_eq_nil a)]

theorem eqEmpty_lower (x : Option (List Char)) :
    decide (Option.map asciiLower x = some ([] : List Char))
      = decide (x = some ([] : List Char)) := by
  rw [decide_eq_decide]
  cases x with
  | none => simp
  | some a => simp [asciiLower_eq_nil]

theorem neEmpty_lower (x : Option (List Char)) :
    decide (Option.map asciiLower x ≠ some ([] : List Char))
      = decide (x ≠ some ([] : List Char)) := by
  rw [decide_eq_decide]
  cases x with
  | none => simp
  | some a => simp [asciiLower_eq_nil]

theorem all_parseHextetOk_lower (l : List (List Char)) :
    (l.map asciiLower).all parseHextetOk = l.all parseHextetOk := by
  rw [List.all_map,
    show parseHextetOk ∘ asciiLower = parseHextetOk from
      funext parseHextetOk_lower]

theorem v6CheckSkip_lower (parts : List (List Char)) :
    v6CheckSkip (parts.map asciiLower) = v6CheckSkip parts := by
  simp only [v6CheckSkip, List.length_map, v6Mids_lower,
    findIdx_empty_lower, List.head?_map, List.getLast?_map, eqEmpty_lower,
    ← List.map_take, ← List.map_drop, all_parseHextetOk_lower]

theorem v6CheckFull_lower (parts : List (List Char)) :
    v6CheckFull (parts.map asciiLower) = v6CheckFull parts := by
  simp only [v6CheckFull, List.length_map, List.head?_map,
    List.getLast?_map, neEmpty_lower, all_parseHextetOk_lower]

theorem v6Check_lower (parts : List (List Char)) :
    v6Check (parts.map asciiLower) = v6Check parts := by
  simp only [v6Check, v6Mids_lower, countP_empty_lower, v6CheckSkip_lower,
    v6CheckFull_lower]

theorem validIPv6Core_lower (addr : List Char) :
    validIPv6Core (asciiLower addr) = validIPv6Core addr := by
  simp only [validIPv6Core, splitOnChar_lower ':' (by decide) (by decide),
    decide_eq_decide.mpr (not_congr (asciiLower_eq_nil addr)),
    List.length_map, v6V4Ok_lower, v6Parts_lower, v6Check_lower]

theorem allNotPercent_lower (z : List Char) :
    (asciiLower z).all (fun c => !(c == '%'))
      = z.all (fun c => !(c == '%')) := by
  rw [show asciiLower z = z.map asciiLowerChar from rfl, List.all_map]
  congr 1
  funext c
  show (!(asciiLowerChar c == '%')) = (!(c == '%'))
  rw [beq_asciiLowerChar c '%' (by decide) (by decide)]

theorem validIPv6B_lower (s : List Char) :
    validIPv6B (asciiLower s) = validIPv6B s := by
  unfold validIPv6B
  rw [splitFirst_lower '%' (by decide) (by decide)]
  cases hsp : splitFirst '%' s with
  | none =>
      show validIPv6Core (asciiLower s) = validIPv6Core s
      exact validIPv6Core_lower s
  | some p =>
      obtain ⟨a, z⟩ := p
      show (decide (asciiLower z ≠ []) && _ && _) = _
      rw [decide_eq_decide.mpr (not_congr (asciiLower_eq_nil z)),
        allNotPercent_lower, validIPv6Core_lower]

theorem v6Check_head_hex (p0 : List Char) (rest : List (List Char))
    (hne : p0 ≠ []) (hch : v6Check (p0 :: rest) = true) :
    p0.all isHexDigitB = true := by
  have hhead : (decide ((p0 :: rest).head? = some ([] : List Char)) : Bool)
      = false := by simp [hne]
  simp only [v6Check] at hch
  split at hch
  · exact absurd hch (by simp)
  · split at hch
    · simp only [v6CheckSkip, hhead, Bool.false_eq_true, if_false,
        Bool.true_and, Bool.and_eq_true] at hch
      obtain ⟨-, ⟨-, htake⟩, -⟩ := hch
      rw [Nat.add_comm 1 _, List.take_succ_cons, List.all_cons,
        Bool.and_eq_true] at htake
      have hp := htake.1
      simp only [parseHextetOk, Bool.and_eq_true] at hp
      exact hp.2
    · simp only [v6CheckFull, Bool.and_eq_true, List.all_cons] at hch
      obtain ⟨-, hp, -⟩ := hch
      simp only [parseHextetOk, Bool.and_eq_true] at hp
      exact hp.2

theorem validIPv6Core_cons_not (c : Char) (t : List Char)
    (hcc : c ≠ ':') (hhex : isHexDigitB c = false) :
    validIPv6Core (c :: t) = false := by
  rw [Bool.eq_false_iff]
  intro htrue
  obtain ⟨h0, t0, hsp⟩ : ∃ h0 t0, splitOnChar ':' t = h0 :: t0 := by
    cases hs : splitOnChar ':' t with
    | nil => exact absurd hs (splitOnChar_ne_nil ':' t)
    | cons a b => exact ⟨a, b, rfl⟩
  have hsp2 : splitOnChar ':' (c :: t) = (c :: h0) :: t0 := by
    rw [splitOnChar, hsp]
    dsimp only
    rw [if_neg hcc]
  simp only [validIPv6Core, hsp2, Bool.and_eq_true] at htrue
  obtain ⟨-, ⟨⟨hlen, -⟩, -⟩, hcheck⟩ := htrue
  have hlen' : 3 ≤ ((c :: h0) :: t0).length := of_decide_eq_true hlen
  have ht0 : t0 ≠ [] := by
    intro h
    rw [h] at hlen'
    simp at hlen'
  obtain ⟨r, hparts⟩ :
      ∃ r, v6Parts ((c :: h0) :: t0) = (c :: h0) :: r := by
    unfold v6Parts
    by_cases hv : v6HasV4 ((c :: h0) :: t0) = true
    · rw [if_pos hv, List.dropLast_cons_of_ne_nil ht0, List.cons_append]
      exact ⟨t0.dropLast ++ [['0'], ['0']], rfl⟩
    · rw [if_neg hv]
      exact ⟨t0, rfl⟩
  rw [hparts] at hcheck
  have hall := v6Check_head_hex _ _ (by simp) hcheck
  rw [List.all_cons, Bool.and_eq_true] at hall
  have h1 := hall.1
  rw [hhex] at h1
  exact absurd h1 (by simp)

theorem validIPv6B_cons_not (c : Char) (t : List Char)
    (hcc : c ≠ ':') (hcp : c ≠ '%') (hhex : isHexDigitB c = false) :
    validIPv6B (c :: t) = false := by
  unfold validIPv6B
  rw [splitFirst, if_neg hcp]
  cases hsp : splitFirst '%' t with
  | none => exact validIPv6Core_cons_not c t hcc hhex
  | some p =>
      obtain ⟨a, z⟩ := p
      dsimp only
      rw [validIPv6Core_cons_not c a hcc hhex]
      simp

theorem validIPvFutureB_v_lower (t : List Char)
    (h : validIPvFutureB ('v' :: t) = true) :
    validIPvFutureB ('v' :: asciiLower t) = true := by
  rw [validIPvFutureB] at h ⊢
  rw [show asciiLower t = t.map asciiLowerChar from rfl, List.takeWhile_map,
    List.dropWhile_map,
    show isHexDigitB ∘ asciiLowerChar = isHexDigitB from
      funext isHexDigitB_lower,
    decide_eq_decide.mpr (not_congr List.map_eq_nil_iff)]
  cases hd : t.dropWhile isHexDigitB with
  | nil =>
      rw [hd] at h
      simp at h
  | cons d t' =>
      rw [hd] at h
      rw [List.map_cons]
      simp only [Bool.and_eq_true] at h ⊢
      obtain ⟨⟨-, hB⟩, ⟨hdot, hne⟩, hall⟩ := h
      have hd' : d = '.' := eq_of_beq hdot
      subst hd'
      refine ⟨⟨by decide, hB⟩, ⟨by decide, ?_⟩, ?_⟩
      · exact decide_eq_true (fun hmap =>
          (of_decide_eq_true hne) (List.map_eq_nil_iff.mp hmap))
      · rw [List.all_map,
          show (fun x => !(x == '\n')) ∘ asciiLowerChar
              = (fun x => !(x == '\n')) from funext (fun x => by
            show (!(asciiLowerChar x == '\n')) = (!(x == '\n'))
            rw [beq_asciiLowerChar x '\n' (by decide) (by decide)])]
        exact hall

theorem asciiLowerChar_eq_v (c : Char) (h : asciiLowerChar c = 'v') :
    c = 'v' ∨ c = 'V' := by
  by_cases hu : 65 ≤ c.toNat ∧ c.toNat ≤ 90
  · right
    have ht := asciiLowerChar_toNat c
    rw [if_pos hu, h] at ht
    have h118 : ('v').toNat = 118 := by decide
    have hV : ('V').toNat = 86 := by decide
    refine Char.ext (UInt32.ext ?_)
    show c.toNat = ('V').toNat
    omega
  · left
    rwa [asciiLowerChar_of_not_upper c hu] at h

theorem checkBracketedHost_lower (h : List Char)
    (hok : checkBracketedHost h = true) :
    checkBracketedHost (asciiLower h) = true := by
  cases h with
  | nil => exact hok
  | cons c t =>
      show checkBracketedHost (asciiLowerChar c :: asciiLower t) = true
      rw [checkBracketedHost] at hok ⊢
      by_cases hc : c = 'v'
      · subst hc
        rw [if_pos (by decide)] at hok
        rw [show asciiLowerChar 'v' = 'v' from by decide, if_pos (by decide)]
        exact validIPvFutureB_v_lower t hok
      · by_cases hcV : c = 'V'
        · subst hcV
          rw [if_neg (by decide)] at hok
          exact absurd hok (by
            rw [validIPv6B_cons_not 'V' t (by decide) (by decide) (by decide)]
            simp)
        · have hflc : ¬(asciiLowerChar c == 'v') = true := by
            intro hb
            rcases asciiLowerChar_eq_v c (eq_of_beq hb) with h1 | h1
            · exact hc h1
            · exact hcV h1
          have hfc : ¬(c == 'v') = true := fun hb => hc (eq_of_beq hb)
          rw [if_neg hfc] at hok
          rw [if_neg hflc]
          show validIPv6B (asciiLower (c :: t)) = true
          rw [validIPv6B_lower]
          exact hok

/-! ### `urlsplit`: structure of a successful parse -/

theorem removeUnsafe_all (s : List Char) :
    ∀ c ∈ removeUnsafe s, (c == '\t' || c == '\r' || c == '\n') = false := by
  intro c hc
  unfold removeUnsafe at hc
  have := List.of_mem_filter hc
  simpa using this

theorem removeUnsafe_eq_self (s : List Char)
    (h : ∀ c ∈ s, (c == '\t' || c == '\r' || c == '\n') = false) :
    removeUnsafe s = s := by
  unfold removeUnsafe
  rw [List.filter_eq_self]
  intro a ha
  rw [Bool.not_eq_true']
  exact h a ha

theorem lstripC0_cons (c : Char) (s : List Char) (h : ¬(c.toNat ≤ 32)) :
    lstripC0 (c :: s) = c :: s := by
  unfold lstripC0
  rw [List.dropWhile_cons, if_neg (by simpa using h)]

theorem splitScheme_spec (url : List Char) :
    splitScheme url = ([], url) ∨
      ∃ b0 bs after, url = (b0 :: bs) ++ ':' :: after ∧
        isAsciiAlphaB b0 = true ∧ (b0 :: bs).all schemeCharB = true ∧
        splitScheme url = (asciiLower (b0 :: bs), after) := by
  unfold splitScheme
  cases hsf : splitFirst ':' url with
  | none => exact Or.inl rfl
  | some p =>
      obtain ⟨before, after⟩ := p
      obtain ⟨hurl, -⟩ := splitFirst_eq_some ':' url before after hsf
      cases before with
      | nil => exact Or.inl rfl
      | cons b0 bs =>
          dsimp only
          by_cases hcond : (isAsciiAlphaB b0 && (b0 :: bs).all schemeCharB)
              = true
          · rw [if_pos hcond]
            rw [Bool.and_eq_true] at hcond
            exact Or.inr ⟨b0, bs, after, hurl, hcond.1, hcond.2, rfl⟩
          · rw [if_neg hcond]
            exact Or.inl rfl

theorem schemeChar_not_colon (s : List Char)
    (h : s.all schemeCharB = true) : ':' ∉ s := by
  intro hmem
  have := List.all_eq_true.mp h ':' hmem
  exact absurd this (by decide)

theorem splitScheme_of_valid (c : Char) (cs rest : List Char)
    (h1 : isAsciiAlphaB c = true) (h2 : (c :: cs).all schemeCharB = true) :
    splitScheme ((c :: cs) ++ ':' :: rest) = (asciiLower (c :: cs), rest) := by
  unfold splitScheme
  rw [splitFirst_append ':' _ _ (schemeChar_not_colon _ h2)]
  dsimp only
  rw [if_pos (by rw [h1, h2]; rfl)]

theorem dropWhile_head_false (p : Char → Bool) (l : List Char) (c : Char)
    (t : List Char) (h : l.dropWhile p = c :: t) : p c = false := by
  induction l with
  | nil => simp at h
  | cons a l' ih =>
      rw [List.dropWhile_cons] at h
      split at h
      · exact ih h
      · next hp =>
          obtain ⟨rfl, -⟩ := List.cons.injEq a l' c t ▸ h
          exact Bool.not_eq_true _ ▸ hp

theorem splitNetloc_netloc_all (rest : List Char) :
    (splitNetloc rest).1.all notDelimB = true := by
  unfold splitNetloc
  split
  · rw [List.all_eq_true]
    intro x hx
    exact List.mem_takeWhile_imp hx
  · rfl

theorem splitNetloc_rest2_head (rest : List Char) (c : Char)
    (hne : (splitNetloc rest).1 ≠ [])
    (h : (splitNetloc rest).2.head? = some c) : notDelimB c = false := by
  unfold splitNetloc at hne h
  split at h
  · dsimp only at h
    cases hd : (rest.drop 2).dropWhile notDelimB with
    | nil => rw [hd] at h; simp at h
    | cons d t =>
        rw [hd] at h
        simp only [List.head?_cons, Option.some.injEq] at h
        subst h
        exact dropWhile_head_false notDelimB _ _ _ hd
  · next hcond =>
      rw [if_neg hcond] at hne
      exact absurd rfl hne

theorem splitFragment_spec (s : List Char) :
    '#' ∉ (splitFragment s).1 ∧
      (s = (splitFragment s).1 ++ '#' :: (splitFragment s).2 ∨
        ((splitFragment s).1 = s ∧ (splitFragment s).2 = [])) := by
  unfold splitFragment
  cases hsf : splitFirst '#' s with
  | none => exact ⟨(splitFirst_eq_none '#' s).mp hsf, Or.inr ⟨rfl, rfl⟩⟩
  | some p =>
      obtain ⟨a, f⟩ := p
      obtain ⟨hs, hna⟩ := splitFirst_eq_some '#' s a f hsf
      exact ⟨hna, Or.inl hs⟩

theorem splitQuery_spec (s : List Char) :
    '?' ∉ (splitQuery s).1 ∧
      (s = (splitQuery s).1 ++ '?' :: (splitQuery s).2 ∨
        ((splitQuery s).1 = s ∧ (splitQuery s).2 = [])) := by
  unfold splitQuery
  cases hsf : splitFirst '?' s with
  | none => exact ⟨(splitFirst_eq_none '?' s).mp hsf, Or.inr ⟨rfl, rfl⟩⟩
  | some p =>
      obtain ⟨a, q⟩ := p
      obtain ⟨hs, hna⟩ := splitFirst_eq_some '?' s a q hsf
      exact ⟨hna, Or.inl hs⟩

theorem splitFragment_fst_mem (s : List Char) (c : Char)
    (h : c ∈ (splitFragment s).1) : c ∈ s := by
  rcases (splitFragment_spec s).2 with hs | ⟨hs, -⟩
  · rw [hs]; exact List.mem_append_left _ h
  · rwa [hs] at h

theorem splitFragment_snd_mem (s : List Char) (c : Char)
    (h : c ∈ (splitFragment s).2) : c ∈ s := by
  rcases (splitFragment_spec s).2 with hs | ⟨-, hs⟩
  · rw [hs]
    exact List.mem_append_right _ (List.mem_cons_of_mem _ h)
  · rw [hs] at h
    exact absurd h (List.not_mem_nil c)

theorem splitQuery_fst_mem (s : List Char) (c : Char)
    (h : c ∈ (splitQuery s).1) : c ∈ s := by
  rcases (splitQuery_spec s).2 with hs | ⟨hs, -⟩
  · rw [hs]; exact List.mem_append_left _ h
  · rwa [hs] at h

theorem splitQuery_snd_mem (s : List Char) (c : Char)
    (h : c ∈ (splitQuery s).2) : c ∈ s := by
  rcases (splitQuery_spec s).2 with hs | ⟨-, hs⟩
  · rw [hs]
    exact List.mem_append_right _ (List.mem_cons_of_mem _ h)
  · rw [hs] at h
    exact absurd h (List.not_mem_nil c)

theorem splitNetloc_fst_mem (rest : List Char) (c : Char)
    (h : c ∈ (splitNetloc rest).1) : c ∈ rest := by
  unfold splitNetloc at h
  split at h
  · have h2 : c ∈ rest.drop 2 := by
      rw [← List.takeWhile_append_dropWhile notDelimB (rest.drop 2)]
      exact List.mem_append_left _ h
    rw [← List.take_append_drop 2 rest]
    exact List.mem_append_right _ h2
  · exact absurd h (List.not_mem_nil c)

theorem splitNetloc_snd_mem (rest : List Char) (c : Char)
    (h : c ∈ (splitNetloc rest).2) : c ∈ rest := by
  unfold splitNetloc at h
  split at h
  · have h2 : c ∈ rest.drop 2 := by
      rw [← List.takeWhile_append_dropWhile notDelimB (rest.drop 2)]
      exact List.mem_append_right _ h
    rw [← List.take_append_drop 2 rest]
    exact List.mem_append_right _ h2
  · exact h

theorem splitScheme_snd_mem (url : List Char) (c : Char)
    (h : c ∈ (splitScheme url).2) : c ∈ url := by
  rcases splitScheme_spec url with hs | ⟨b0, bs, after, hurl, -, -, hs⟩
  · rwa [hs] at h
  · rw [hs] at h
    rw [hurl]
    exact List.mem_append_right _ (List.mem_cons_of_mem _ h)

theorem clean_lower (c : Char) :
    (asciiLowerChar c == '\t' || asciiLowerChar c == '\r' ||
        asciiLowerChar c == '\n')
      = (c == '\t' || c == '\r' || c == '\n') := by
  rw [beq_asciiLowerChar c '\t' (by decide) (by decide),
    beq_asciiLowerChar c '\r' (by decide) (by decide),
    beq_asciiLowerChar c '\n' (by decide) (by decide)]

theorem splitScheme_fst_clean (url : List Char)
    (hcl : ∀ c ∈ url, (c == '\t' || c == '\r' || c == '\n') = false)
    (c : Char) (h : c ∈ (splitScheme url).1) :
    (c == '\t' || c == '\r' || c == '\n') = false := by
  rcases splitScheme_spec url with hs | ⟨b0, bs, after, hurl, -, -, hs⟩
  · rw [hs] at h
    exact absurd h (List.not_mem_nil c)
  · rw [hs] at h
    rcases List.mem_map.mp h with ⟨d, hd, hdc⟩
    subst hdc
    rw [clean_lower]
    exact hcl d (by rw [hurl]; exact List.mem_append_left _ hd)

theorem head?_append_ne (a b : List Char) (ha : a ≠ []) :
    (a ++ b).head? = a.head? := by
  cases a with
  | nil => exact absurd rfl ha
  | cons x t => rfl

theorem urlsplit_ok_spec (u : List Char) (r : SplitResult)
    (h : urlsplit u = Except.ok r) :
    r.netloc.all notDelimB = true ∧
    ('[' ∈ r.netloc ↔ ']' ∈ r.netloc) ∧
    ('[' ∈ r.netloc →
      checkBracketedHost (extractBracketed r.netloc) = true) ∧
    '#' ∉ r.path ∧ '?' ∉ r.path ∧ '#' ∉ r.query ∧
    (r.netloc ≠ [] → (r.path = [] ∨ r.path.take 1 = ['/'])) ∧
    (r.scheme = [] ∨ ∃ c cs, r.scheme = asciiLower (c :: cs) ∧
      isAsciiAlphaB c = true ∧ (c :: cs).all schemeCharB = true) ∧
    (∀ c, (c ∈ r.scheme ∨ c ∈ r.netloc ∨ c ∈ r.path ∨ c ∈ r.query ∨
      c ∈ r.fragment) → (c == '\t' || c == '\r' || c == '\n') = false) := by
  have hcl : ∀ c ∈ removeUnsafe (lstripC0 u),
      (c == '\t' || c == '\r' || c == '\n') = false :=
    removeUnsafe_all (lstripC0 u)
  simp only [urlsplit] at h
  split_ifs at h with h1 h2 <;> try exact Except.noConfusion h
  rw [Except.ok.injEq] at h
  subst h
  dsimp only
  generalize hU : removeUnsafe (lstripC0 u) = U at hcl h1 h2 ⊢
  push_neg at h1
  refine ⟨splitNetloc_netloc_all _, ⟨h1.1, h1.2⟩, ?_, ?_, ?_, ?_, ?_, ?_, ?_⟩
  · intro ha
    by_cases hc : checkBracketedHost (extractBracketed
        (splitNetloc (splitScheme (U)).2).1) = true
    · exact hc
    · exact absurd ⟨ha, h1.1 ha, Bool.eq_false_iff.mpr hc⟩ h2
  · intro hm
    exact (splitFragment_spec _).1 (splitQuery_fst_mem _ '#' hm)
  · exact (splitQuery_spec _).1
  · intro hm
    exact (splitFragment_spec _).1 (splitQuery_snd_mem _ '#' hm)
  · intro hnl
    cases hp : (splitQuery (splitFragment
        (splitNetloc (splitScheme (U)).2).2).1).1 with
    | nil => exact Or.inl rfl
    | cons c0 t =>
        right
        have hfp1 : (splitFragment (splitNetloc
            (splitScheme (U)).2).2).1.head?
              = some c0 := by
          rcases (splitQuery_spec (splitFragment (splitNetloc
              (splitScheme (U)).2).2).1).2 with
            hs | ⟨hs, -⟩
          · rw [hs, hp, head?_append_ne _ _ (by simp)]
            rfl
          · rw [← hs, hp]
            rfl
        have hnp2 : (splitNetloc
            (splitScheme (U)).2).2.head?
              = some c0 := by
          rcases (splitFragment_spec (splitNetloc
              (splitScheme (U)).2).2).2 with
            hs | ⟨hs, -⟩
          · rw [hs, head?_append_ne _ _ ?_, hfp1]
            intro hnil
            rw [hnil] at hfp1
            exact absurd hfp1 (by simp)
          · rw [← hs, hfp1]
        have hnd := splitNetloc_rest2_head _ c0 hnl hnp2
        have hc0path : c0 ∈ (splitQuery (splitFragment (splitNetloc
            (splitScheme (U)).2).2).1).1 := by
          rw [hp]
          exact List.mem_cons_self c0 t
        have hnq : ¬(c0 = '#') := fun he => (splitFragment_spec _).1
          (splitQuery_fst_mem _ _ (he ▸ hc0path))
        have hnq2 : ¬(c0 = '?') := fun he => (splitQuery_spec _).1
          (he ▸ hc0path)
        have hslash : c0 = '/' := by
          unfold notDelimB at hnd
          simp only [Bool.not_eq_false', Bool.or_eq_true, beq_iff_eq] at hnd
          rcases hnd with (h | h) | h
          · exact h
          · exact absurd h hnq2
          · exact absurd h hnq
        rw [hslash]
        rfl
  · rcases splitScheme_spec (U) with hs |
      ⟨b0, bs, after, -, hb1, hb2, hs⟩
    · left
      rw [hs]
    · right
      exact ⟨b0, bs, by rw [hs], hb1, hb2⟩
  · intro c hm
    rcases hm with hm | hm | hm | hm | hm
    · exact splitScheme_fst_clean _ hcl c hm
    · exact hcl c (splitScheme_snd_mem _ c (splitNetloc_fst_mem _ c hm))
    · exact hcl c (splitScheme_snd_mem _ c (splitNetloc_snd_mem _ c
        (splitFragment_fst_mem _ c (splitQuery_fst_mem _ c hm))))
    · exact hcl c (splitScheme_snd_mem _ c (splitNetloc_snd_mem _ c
        (splitFragment_fst_mem _ c (splitQuery_snd_mem _ c hm))))
    · exact hcl c (splitScheme_snd_mem _ c (splitNetloc_snd_mem _ c
        (splitFragment_snd_mem _ c hm)))

theorem schemeCharB_clean (x : Char) (h : schemeCharB x = true) :
    (x == '\t' || x == '\r' || x == '\n') = false := by
  have hx : 43 ≤ x.toNat := by
    unfold schemeCharB isAsciiAlphaB at h
    simp only [Bool.or_eq_true, decide_eq_true_eq, beq_iff_eq] at h
    rcases h with ((((h | h) | h) | h) | h) | h
    · omega
    · omega
    · omega
    · subst h; decide
    · subst h; decide
    · subst h; decide
  rw [beq_eq_false_iff_ne.mpr (fun he => by
        rw [he] at hx; exact absurd hx (by decide)),
    beq_eq_false_iff_ne.mpr (fun he => by
        rw [he] at hx; exact absurd hx (by decide)),
    beq_eq_false_iff_ne.mpr (fun he => by
        rw [he] at hx; exact absurd hx (by decide))]
  rfl

/-- Re-parsing the reassembled URL of a well-formed `SplitResult` with a
non-empty netloc recovers the record exactly. -/
theorem urlsplit_unsplit (r : SplitResult) (c : Char) (cs : List Char)
    (hsch : r.scheme = c :: cs)
    (h1 : isAsciiAlphaB c = true)
    (h2 : (c :: cs).all schemeCharB = true)
    (hlow : asciiLower (c :: cs) = c :: cs)
    (hnl : r.netloc ≠ [])
    (hnd : r.netloc.all notDelimB = true)
    (hbr : '[' ∈ r.netloc ↔ ']' ∈ r.netloc)
    (hbc : '[' ∈ r.netloc →
      checkBracketedHost (extractBracketed r.netloc) = true)
    (hpath : r.path = [] ∨ r.path.take 1 = ['/'])
    (hp1 : '#' ∉ r.path) (hp2 : '?' ∉ r.path) (hq : '#' ∉ r.query)
    (hclean : ∀ x, (x ∈ r.netloc ∨ x ∈ r.path ∨ x ∈ r.query ∨
      x ∈ r.fragment) → (x == '\t' || x == '\r' || x == '\n') = false) :
    urlsplit (urlunsplit r) = Except.ok r := by
  obtain ⟨QP, hQPmem, hQPapp⟩ : ∃ QP : List Char,
      (∀ x ∈ QP, x = '?' ∨ x ∈ r.query) ∧
      ((r.query = [] ∧ QP = []) ∨ (r.query ≠ [] ∧ QP = '?' :: r.query)) := by
    by_cases hqe : r.query = []
    · exact ⟨[], fun x hx => absurd hx (List.not_mem_nil x),
        Or.inl ⟨hqe, rfl⟩⟩
    · refine ⟨'?' :: r.query, fun x hx => ?_, Or.inr ⟨hqe, rfl⟩⟩
      rcases List.mem_cons.mp hx with rfl | hx
      · exact Or.inl rfl
      · exact Or.inr hx
  obtain ⟨FP, hFPmem, hFPapp⟩ : ∃ FP : List Char,
      (∀ x ∈ FP, x = '#' ∨ x ∈ r.fragment) ∧
      ((r.fragment = [] ∧ FP = []) ∨
        (r.fragment ≠ [] ∧ FP = '#' :: r.fragment)) := by
    by_cases hfe : r.fragment = []
    · exact ⟨[], fun x hx => absurd hx (List.not_mem_nil x),
        Or.inl ⟨hfe, rfl⟩⟩
    · refine ⟨'#' :: r.fragment, fun x hx => ?_, Or.inr ⟨hfe, rfl⟩⟩
      rcases List.mem_cons.mp hx with rfl | hx
      · exact Or.inl rfl
      · exact Or.inr hx
  have hinner : (if r.path ≠ [] ∧ r.path.take 1 ≠ ['/'] then '/' :: r.path
      else r.path) = r.path := by
    rcases hpath with hp | hp
    · rw [if_neg (fun hcon => hcon.1 hp)]
    · rw [if_neg (fun hcon => hcon.2 hp)]
  have hv : urlunsplit r = (c :: cs) ++ ':' :: '/' :: '/' ::
      (r.netloc ++ (r.path ++ (QP ++ FP))) := by
    simp only [urlunsplit]
    rw [hinner, if_pos (Or.inl hnl), hsch,
      if_pos (List.cons_ne_nil c cs)]
    rcases hQPapp with ⟨hqe, hQPe⟩ | ⟨hqe, hQPe⟩ <;>
      rcases hFPapp with ⟨hfe, hFPe⟩ | ⟨hfe, hFPe⟩ <;>
      rw [hQPe, hFPe] <;>
      simp [hqe, hfe, List.append_assoc]
  have h1' := h1
  unfold isAsciiAlphaB at h1'
  have hcnat : ¬(c.toNat ≤ 32) := by
    have := of_decide_eq_true h1'
    omega
  have hv' : urlunsplit r = c :: (cs ++ ':' :: '/' :: '/' ::
      (r.netloc ++ (r.path ++ (QP ++ FP)))) := by
    rw [hv, List.cons_append]
  have hrm : removeUnsafe (c :: (cs ++ ':' :: '/' :: '/' ::
      (r.netloc ++ (r.path ++ (QP ++ FP)))))
      = c :: (cs ++ ':' :: '/' :: '/' ::
        (r.netloc ++ (r.path ++ (QP ++ FP)))) := by
    apply removeUnsafe_eq_self
    intro x hx
    rcases List.mem_cons.mp hx with rfl | hx
    · exact schemeCharB_clean x (List.all_eq_true.mp h2 x (by simp))
    rcases List.mem_append.mp hx with hx | hx
    · exact schemeCharB_clean x (List.all_eq_true.mp h2 x (by simp [hx]))
    rcases List.mem_cons.mp hx with rfl | hx
    · decide
    rcases List.mem_cons.mp hx with rfl | hx
    · decide
    rcases List.mem_cons.mp hx with rfl | hx
    · decide
    rcases List.mem_append.mp hx with hx | hx
    · exact hclean x (Or.inl hx)
    rcases List.mem_append.mp hx with hx | hx
    · exact hclean x (Or.inr (Or.inl hx))
    rcases List.mem_append.mp hx with hx | hx
    · rcases hQPmem x hx with rfl | hx2
      · decide
      · exact hclean x (Or.inr (Or.inr (Or.inl hx2)))
    · rcases hFPmem x hx with rfl | hx2
      · decide
      · exact hclean x (Or.inr (Or.inr (Or.inr hx2)))
  have htail : ∀ x, (r.path ++ (QP ++ FP)).head? = some x →
      notDelimB x = false := by
    intro x hx
    cases hpth : r.path with
    | cons p0 pt =>
        rw [hpth, List.cons_append, List.head?_cons,
          Option.some.injEq] at hx
        subst hx
        have hp0 : p0 = '/' := by
          rcases hpath with hp | hp
          · rw [hpth] at hp
            exact absurd hp (by simp)
          · rw [hpth] at hp
            simpa using hp
        rw [hp0]
        decide
    | nil =>
        rw [hpth, List.nil_append] at hx
        rcases hQPapp with ⟨hqe, hQPe⟩ | ⟨hqe, hQPe⟩
        · rw [hQPe, List.nil_append] at hx
          rcases hFPapp with ⟨hfe, hFPe⟩ | ⟨hfe, hFPe⟩
          · rw [hFPe] at hx
            simp at hx
          · rw [hFPe, List.head?_cons, Option.some.injEq] at hx
            subst hx
            decide
        · rw [hQPe, List.cons_append, List.head?_cons,
            Option.some.injEq] at hx
          subst hx
          decide
  have hsn : splitNetloc ('/' :: '/' ::
      (r.netloc ++ (r.path ++ (QP ++ FP))))
      = (r.netloc, r.path ++ (QP ++ FP)) := by
    unfold splitNetloc
    rw [if_pos (show List.take 2 ('/' :: '/' ::
      (r.netloc ++ (r.path ++ (QP ++ FP)))) = ['/', '/'] from rfl)]
    show ((r.netloc ++ (r.path ++ (QP ++ FP))).takeWhile notDelimB,
      (r.netloc ++ (r.path ++ (QP ++ FP))).dropWhile notDelimB) = _
    obtain ⟨ht1, ht2⟩ := takeWhile_append_all notDelimB r.netloc
      (r.path ++ (QP ++ FP)) (List.all_eq_true.mp hnd) htail
    rw [ht1, ht2]
  have hnomem : '#' ∉ r.path ++ QP := by
    intro hm
    rcases List.mem_append.mp hm with hm | hm
    · exact hp1 hm
    · rcases hQPmem '#' hm with he | hm2
      · exact absurd he (by decide)
      · exact hq hm2
  have hsf : splitFragment (r.path ++ (QP ++ FP))
      = (r.path ++ QP, r.fragment) := by
    rcases hFPapp with ⟨hfe, hFPe⟩ | ⟨hfe, hFPe⟩
    · rw [hFPe, List.append_nil, hfe]
      unfold splitFragment
      rw [(splitFirst_eq_none '#' _).mpr hnomem]
    · rw [hFPe, show r.path ++ (QP ++ '#' :: r.fragment)
          = (r.path ++ QP) ++ '#' :: r.fragment from by
        simp [List.append_assoc]]
      unfold splitFragment
      rw [splitFirst_append '#' _ _ hnomem]
  have hsq : splitQuery (r.path ++ QP) = (r.path, r.query) := by
    rcases hQPapp with ⟨hqe, hQPe⟩ | ⟨hqe, hQPe⟩
    · rw [hQPe, List.append_nil, hqe]
      unfold splitQuery
      rw [(splitFirst_eq_none '?' _).mpr hp2]
    · rw [hQPe]
      unfold splitQuery
      rw [splitFirst_append '?' _ _ hp2]
  have hss : splitScheme (c :: (cs ++ ':' :: '/' :: '/' ::
      (r.netloc ++ (r.path ++ (QP ++ FP)))))
      = (asciiLower (c :: cs), '/' :: '/' ::
        (r.netloc ++ (r.path ++ (QP ++ FP)))) :=
    splitScheme_of_valid c cs _ h1 h2
  have hg1 : ¬(('[' ∈ r.netloc ∧ ']' ∉ r.netloc) ∨
      (']' ∈ r.netloc ∧ '[' ∉ r.netloc)) := by
    rintro (⟨hin, hnot⟩ | ⟨hin, hnot⟩)
    · exact hnot (hbr.mp hin)
    · exact hnot (hbr.mpr hin)
  have hg2 : ¬('[' ∈ r.netloc ∧ ']' ∈ r.netloc ∧
      checkBracketedHost (extractBracketed r.netloc) = false) := by
    rintro ⟨ha, -, hc⟩
    have htr := hbc ha
    rw [hc] at htr
    exact absurd htr (by simp)
  simp only [urlsplit]
  rw [hv', lstripC0_cons _ _ hcnat, hrm, hss, hlow]
  dsimp only
  rw [hsn]
  dsimp only
  rw [if_neg hg1, if_neg hg2, hsf]
  dsimp only
  rw [hsq]
  dsimp only
  rw [← hsch]

/-! ### Character classes of a canonicalized query -/

theorem mem_joinChar (sep : Char) (l : List (List Char)) (c : Char)
    (h : c ∈ joinChar sep l) : c = sep ∨ ∃ s ∈ l, c ∈ s := by
  induction l with
  | nil => exact absurd h (List.not_mem_nil c)
  | cons s rest ih =>
      cases rest with
      | nil =>
          right
          exact ⟨s, by simp, h⟩
      | cons s2 rest2 =>
          have hj : joinChar sep (s :: s2 :: rest2)
              = s ++ sep :: joinChar sep (s2 :: rest2) := rfl
          rw [hj] at h
          rcases List.mem_append.mp h with hm | hm
          · exact Or.inr ⟨s, by simp, hm⟩
          · rcases List.mem_cons.mp hm with rfl | hm
            · exact Or.inl rfl
            · rcases ih hm with h1 | ⟨s', hs', hc'⟩
              · exact Or.inl h1
              · exact Or.inr ⟨s', by simp [hs'], hc'⟩

theorem mem_encodeSegment (p : List Char × List Char) (c : Char)
    (h : c ∈ encodeSegment p) :
    c.toNat = 61 ∨ c.toNat = 43 ∨ c.toNat = 37 ∨
      alwaysSafeByte c.toNat := by
  unfold encodeSegment at h
  rcases List.mem_append.mp h with hm | hm
  · rcases quotePlus_chars p.1 c hm with h' | h' | h'
    · exact Or.inr (Or.inl h')
    · exact Or.inr (Or.inr (Or.inl h'))
    · exact Or.inr (Or.inr (Or.inr h'))
  · rcases List.mem_cons.mp hm with rfl | hm
    · exact Or.inl (by decide)
    · rcases quotePlus_chars p.2 c hm with h' | h' | h'
      · exact Or.inr (Or.inl h')
      · exact Or.inr (Or.inr (Or.inl h'))
      · exact Or.inr (Or.inr (Or.inr h'))

theorem canonicalizeQuery_chars (q : List Char) (c : Char)
    (h : c ∈ canonicalizeQuery q) :
    c.toNat = 38 ∨ c.toNat = 61 ∨ c.toNat = 43 ∨ c.toNat = 37 ∨
      alwaysSafeByte c.toNat := by
  unfold canonicalizeQuery at h
  rw [urlencodeDoseq_eq] at h
  rcases mem_joinChar '&' _ c h with rfl | ⟨s, hs, hc⟩
  · exact Or.inl (by decide)
  · rcases List.mem_map.mp hs with ⟨p, -, hp⟩
    subst hp
    rcases mem_encodeSegment p c hc with h' | h' | h'
    · exact Or.inr (Or.inl h')
    · exact Or.inr (Or.inr (Or.inl h'))
    · exact Or.inr (Or.inr (Or.inr h'))

theorem hash_not_mem_canonicalizeQuery (q : List Char) :
    '#' ∉ canonicalizeQuery q := by
  intro hm
  rcases canonicalizeQuery_chars q '#' hm with h | h | h | h | h
  · exact absurd h (by decide)
  · exact absurd h (by decide)
  · exact absurd h (by decide)
  · exact absurd h (by decide)
  · unfold alwaysSafeByte at h
    have h35 : ('#').toNat = 35 := by decide
    rw [h35] at h
    rcases h with h | h | h | h <;> omega

theorem canonicalizeQuery_clean (q : List Char) (c : Char)
    (h : c ∈ canonicalizeQuery q) :
    (c == '\t' || c == '\r' || c == '\n') = false := by
  have hge : 36 ≤ c.toNat := by
    rcases canonicalizeQuery_chars q c h with h' | h' | h' | h' | h'
    · omega
    · omega
    · omega
    · omega
    · unfold alwaysSafeByte at h'
      rcases h' with h' | h' | h' | h' <;> omega
  rw [beq_eq_false_iff_ne.mpr (fun he => by
        rw [he] at hge; exact absurd hge (by decide)),
    beq_eq_false_iff_ne.mpr (fun he => by
        rw [he] at hge; exact absurd hge (by decide)),
    beq_eq_false_iff_ne.mpr (fun he => by
        rw [he] at hge; exact absurd hge (by decide))]
  rfl

/-! ### `normalizeSplit`: both parse paths yield a valid lowered scheme -/

theorem extractBracketed_lower (n : List Char) :
    extractBracketed (asciiLower n) = asciiLower (extractBracketed n) := by
  unfold extractBracketed
  rw [splitFirst_lower '[' (by decide) (by decide)]
  cases h1 : splitFirst '[' n with
  | none => rfl
  | some p =>
      obtain ⟨a, b⟩ := p
      dsimp only [Option.map_some']
      rw [splitFirst_lower ']' (by decide) (by decide)]
      cases h2 : splitFirst ']' b with
      | none => rfl
      | some q =>
          obtain ⟨x, y⟩ := q
          rfl

theorem urlunsplit_ne_nil (r : SplitResult) (hs : r.scheme ≠ []) :
    urlunsplit r ≠ [] := by
  obtain ⟨c, cs, hcs⟩ : ∃ c cs, r.scheme = c :: cs := by
    cases hsc : r.scheme with
    | nil => exact absurd hsc hs
    | cons a b => exact ⟨a, b, rfl⟩
  simp only [urlunsplit, hcs]
  rw [if_pos (List.cons_ne_nil c cs)]
  split <;> split <;> simp

theorem urlsplit_prepend_https (u : List Char) (r : SplitResult)
    (h : urlsplit ("https://".data ++ u) = Except.ok r) :
    r.scheme = "https".data := by
  have hlit : "https://".data
      = ['h', 't', 't', 'p', 's', ':', '/', '/'] := by decide
  rw [hlit] at h
  simp only [urlsplit] at h
  rw [show (['h', 't', 't', 'p', 's', ':', '/', '/'] : List Char) ++ u
      = 'h' :: 't' :: 't' :: 'p' :: 's' :: ':' :: '/' :: '/' :: u
      from rfl, lstripC0_cons _ _ (by decide)] at h
  rw [show removeUnsafe ('h' :: 't' :: 't' :: 'p' :: 's' :: ':' :: '/' ::
      '/' :: u) = 'h' :: 't' :: 't' :: 'p' :: 's' :: ':' :: '/' :: '/' ::
      removeUnsafe u from by
    unfold removeUnsafe
    rw [show ('h' :: 't' :: 't' :: 'p' :: 's' :: ':' :: '/' :: '/' :: u)
        = ['h', 't', 't', 'p', 's', ':', '/', '/'] ++ u from rfl,
      List.filter_append]
    rfl] at h
  rw [show ('h' :: 't' :: 't' :: 'p' :: 's' :: ':' :: '/' :: '/' ::
      removeUnsafe u)
      = ('h' :: ['t', 't', 'p', 's']) ++ ':' :: '/' :: '/' ::
        removeUnsafe u from rfl,
    splitScheme_of_valid 'h' ['t', 't', 'p', 's'] _ (by decide)
      (by decide)] at h
  split_ifs at h <;> try exact Except.noConfusion h
  rw [Except.ok.injEq] at h
  subst h
  dsimp only
  decide

theorem normalizeSplit_spec (u : List Char) (r : SplitResult)
    (h : normalizeSplit u = Except.ok r) :
    (∃ c cs, r.scheme = c :: cs ∧ isAsciiAlphaB c = true ∧
      (c :: cs).all schemeCharB = true ∧ asciiLower r.scheme = r.scheme) ∧
    (urlsplit u = Except.ok r ∨
      urlsplit ("https://".data ++ u) = Except.ok r) := by
  unfold normalizeSplit at h
  cases hsp : urlsplit u with
  | error e =>
      rw [hsp] at h
      exact absurd h (by simp)
  | ok parsed =>
      rw [hsp] at h
      dsimp only at h
      by_cases hsc : parsed.scheme = []
      · rw [if_pos hsc] at h
        refine ⟨?_, Or.inr h⟩
        have hs := urlsplit_prepend_https u r h
        refine ⟨'h', ['t', 't', 'p', 's'], ?_, by decide, by decide, ?_⟩
        · rw [hs]
        · rw [hs]; decide
      · rw [if_neg hsc, Except.ok.injEq] at h
        subst h
        refine ⟨?_, Or.inl rfl⟩
        obtain ⟨-, -, -, -, -, -, -, hsch, -⟩ := urlsplit_ok_spec u parsed hsp
        rcases hsch with he | ⟨c, cs, hsc2, hal, hall⟩
        · exact absurd he hsc
        · refine ⟨asciiLowerChar c, asciiLower cs, ?_, ?_, ?_, ?_⟩
          · rw [hsc2]; rfl
          · rw [isAsciiAlphaB_lower]; exact hal
          · show (asciiLower (c :: cs)).all schemeCharB = true
            rw [show asciiLower (c :: cs) = (c :: cs).map asciiLowerChar
                from rfl, List.all_map,
              show schemeCharB ∘ asciiLowerChar = schemeCharB from
                funext schemeCharB_lower]
            exact hall
          · rw [hsc2, asciiLower_idem]

/-- Unfolding of `normalize_url` on a non-empty input whose parse
succeeds: the reassembled record has lowered scheme and netloc, the
original path, the canonicalized query (when non-empty), and the
fragment only under `preserveFragment`. -/
theorem normalize_url_eq (pf : Bool) (u : List Char) (r : SplitResult)
    (hu : u ≠ []) (hr : normalizeSplit u = Except.ok r) :
    normalize_url pf u = Except.ok (urlunsplit
      ⟨asciiLower r.scheme, asciiLower r.netloc, r.path,
       if r.query ≠ [] then canonicalizeQuery r.query else r.query,
       if pf then r.fragment else []⟩) := by
  unfold normalize_url
  rw [if_neg hu, hr]
  dsimp only
  by_cases hqe : r.query ≠ []
  · rw [if_pos hqe, if_pos hqe]
  · rw [if_neg hqe, if_neg hqe]

theorem canonicalizeQuery_guard_fix (q : List Char) :
    (if (if q ≠ [] then canonicalizeQuery q else q) ≠ []
      then canonicalizeQuery (if q ≠ [] then canonicalizeQuery q else q)
      else (if q ≠ [] then canonicalizeQuery q else q))
    = (if q ≠ [] then canonicalizeQuery q else q) := by
  by_cases hqe : q ≠ []
  · rw [if_pos hqe]
    by_cases hc : canonicalizeQuery q ≠ []
    · rw [if_pos hc, canonicalizeQuery_fixpoint]
    · rw [if_neg hc]
  · rw [if_neg hqe, if_neg hqe]

theorem fragment_guard_fix (pf : Bool) (f : List Char) :
    (if pf then (if pf then f else []) else ([] : List Char))
      = (if pf then f else []) := by
  cases pf <;> simp

/-- C4 (amended): URL normalization is idempotent on every input whose
scheme-ensured parse has a non-empty network location: if
`normalize_url` (with either fragment setting) maps `u` to `v` and the
parse `normalizeSplit u` underlying that run produced a non-empty
netloc, then `normalize_url` maps `v` to `v`.  The restriction is
necessary: without it idempotence fails (`C4_counterexample`). -/
theorem C4_normalize_idempotent (pf : Bool) (u v : List Char)
    (r : SplitResult) (hr : normalizeSplit u = Except.ok r)
    (hn : r.netloc ≠ []) (h : normalize_url pf u = Except.ok v) :
    normalize_url pf v = Except.ok v := by
  by_cases hu : u = []
  · subst hu
    unfold normalize_url at h
    rw [if_pos rfl, Except.ok.injEq] at h
    subst h
    rfl
  · obtain ⟨⟨c, cs, hsch, hal, hall, hlowsch⟩, hparse⟩ :=
      normalizeSplit_spec u r hr
    obtain ⟨hnd, hbr, hbc, hp1, hp2, hq3, hpathc, -, hclean⟩ :
        r.netloc.all notDelimB = true ∧
        ('[' ∈ r.netloc ↔ ']' ∈ r.netloc) ∧
        ('[' ∈ r.netloc →
          checkBracketedHost (extractBracketed r.netloc) = true) ∧
        '#' ∉ r.path ∧ '?' ∉ r.path ∧ '#' ∉ r.query ∧
        (r.netloc ≠ [] → (r.path = [] ∨ r.path.take 1 = ['/'])) ∧
        (r.scheme = [] ∨ ∃ c cs, r.scheme = asciiLower (c :: cs) ∧
          isAsciiAlphaB c = true ∧ (c :: cs).all schemeCharB = true) ∧
        (∀ x, (x ∈ r.scheme ∨ x ∈ r.netloc ∨ x ∈ r.path ∨ x ∈ r.query ∨
          x ∈ r.fragment) →
            (x == '\t' || x == '\r' || x == '\n') = false) := by
      rcases hparse with hp | hp
      · exact urlsplit_ok_spec u r hp
      · exact urlsplit_ok_spec _ r hp
    have hlowcc : asciiLower (c :: cs) = c :: cs := by
      rw [← hsch]
      exact hlowsch
    have hv : v = urlunsplit ⟨r.scheme, asciiLower r.netloc, r.path,
        if r.query ≠ [] then canonicalizeQuery r.query else r.query,
        if pf then r.fragment else []⟩ := by
      have hv0 := h.symm.trans (normalize_url_eq pf u r hu hr)
      rw [Except.ok.injEq, hlowsch] at hv0
      exact hv0
    have hndR : (asciiLower r.netloc).all notDelimB = true := by
      rw [show asciiLower r.netloc = r.netloc.map asciiLowerChar from rfl,
        List.all_map,
        show notDelimB ∘ asciiLowerChar = notDelimB from
          funext notDelimB_lower]
      exact hnd
    have hbrR : '[' ∈ asciiLower r.netloc ↔ ']' ∈ asciiLower r.netloc :=
      (mem_asciiLower '[' _ (by decide) (by decide)).trans
        (hbr.trans (mem_asciiLower ']' _ (by decide) (by decide)).symm)
    have hbcR : '[' ∈ asciiLower r.netloc →
        checkBracketedHost (extractBracketed (asciiLower r.netloc))
          = true := by
      intro hm
      rw [extractBracketed_lower]
      exact checkBracketedHost_lower _
        (hbc ((mem_asciiLower '[' _ (by decide) (by decide)).mp hm))
    have hQhash : '#' ∉ (if r.query ≠ [] then canonicalizeQuery r.query
        else r.query) := by
      by_cases hqe : r.query ≠ []
      · rw [if_pos hqe]
        exact hash_not_mem_canonicalizeQuery r.query
      · rw [if_neg hqe]
        exact hq3
    have hcleanR : ∀ x, (x ∈ asciiLower r.netloc ∨ x ∈ r.path ∨
        x ∈ (if r.query ≠ [] then canonicalizeQuery r.query
          else r.query) ∨
        x ∈ (if pf then r.fragment else [])) →
        (x == '\t' || x == '\r' || x == '\n') = false := by
      intro x hx
      rcases hx with hx | hx | hx | hx
      · rcases List.mem_map.mp hx with ⟨d, hd, rfl⟩
        rw [clean_lower]
        exact hclean d (Or.inr (Or.inl hd))
      · exact hclean x (Or.inr (Or.inr (Or.inl hx)))
      · by_cases hqe : r.query ≠ []
        · rw [if_pos hqe] at hx
          exact canonicalizeQuery_clean r.query x hx
        · rw [if_neg hqe] at hx
          exact hclean x (Or.inr (Or.inr (Or.inr (Or.inl hx))))
      · cases pf with
        | true =>
            rw [if_pos rfl] at hx
            exact hclean x (Or.inr (Or.inr (Or.inr (Or.inr hx))))
        | false =>
            rw [if_neg (by simp)] at hx
            exact absurd hx (List.not_mem_nil x)
    have hrec := urlsplit_unsplit
      ⟨r.scheme, asciiLower r.netloc, r.path,
       if r.query ≠ [] then canonicalizeQuery r.query else r.query,
       if pf then r.fragment else []⟩ c cs
      hsch hal hall hlowcc
      (fun he => hn ((asciiLower_eq_nil _).mp he))
      hndR hbrR hbcR (hpathc hn) hp1 hp2 hQhash hcleanR
    have hvne : v ≠ [] := by
      rw [hv]
      exact urlunsplit_ne_nil _ (by
        show r.scheme ≠ []
        rw [hsch]
        simp)
    have hnsv : normalizeSplit v = Except.ok
        ⟨r.scheme, asciiLower r.netloc, r.path,
         if r.query ≠ [] then canonicalizeQuery r.query else r.query,
         if pf then r.fragment else []⟩ := by
      unfold normalizeSplit
      rw [hv, hrec]
      dsimp only
      rw [if_neg (by rw [hsch]; simp)]
    have hfin := normalize_url_eq pf v _ hvne hnsv
    rw [hfin, hv]
    dsimp only
    rw [hlowsch, asciiLower_idem, canonicalizeQuery_guard_fix,
      fragment_guard_fix]

/-- C4 counterexample: on `"////x"` normalization is not idempotent.
The first parse sees an empty netloc with path `//x`, so the `https://`
prefix is glued onto the original string and `urlunparse` keeps all
four slashes (`netloc = ""` and `url[:2] == '//'` defeat the `//`
insertion guard); re-normalizing `https:////x` then reads `x` as the
netloc and yields `https://x`. -/
theorem C4_counterexample :
    normalize_url false "////x".data = Except.ok "https:////x".data ∧
    normalize_url false "https:////x".data
        = Except.ok "https://x".data ∧
    "https:////x".data ≠ "https://x".data := ⟨rfl, rfl, by decide⟩

/-- Witness for C4: a concrete canonical-host URL on which the amended
idempotence theorem applies. -/
theorem C4_normalize_idempotent_witness :
    normalize_url false "https://Ex.com/Path#frag".data
        = Except.ok "https://ex.com/Path".data ∧
    normalize_url false "https://ex.com/Path".data
        = Except.ok "https://ex.com/Path".data :=
  ⟨rfl, C4_normalize_idempotent false "https://Ex.com/Path#frag".data
    "https://ex.com/Path".data
    ⟨"https".data, "Ex.com".data, "/Path".data, [], "frag".data⟩
    rfl (by decide) rfl⟩

/-- C3: in the spec-modelled normalizer the `preserve_fragment` flag
controls exactly the fragment slot — with the flag the parsed fragment
is reassembled verbatim, without it the fragment is empty — while
scheme/netloc lowercasing, path, and query canonicalization are
identical in both runs.  (The copy of `utils/url.py` under `src/` lacks
the parameter its callers pass; see the results entry.) -/
theorem C3_preserve_fragment (u : List Char) (r : SplitResult)
    (hu : u ≠ []) (hr : normalizeSplit u = Except.ok r) :
    normalize_url true u = Except.ok (urlunsplit
      ⟨asciiLower r.scheme, asciiLower r.netloc, r.path,
       if r.query ≠ [] then canonicalizeQuery r.query else r.query,
       r.fragment⟩) ∧
    normalize_url false u = Except.ok (urlunsplit
      ⟨asciiLower r.scheme, asciiLower r.netloc, r.path,
       if r.query ≠ [] then canonicalizeQuery r.query else r.query,
       []⟩) :=
  ⟨by rw [normalize_url_eq true u r hu hr]; rfl,
   by rw [normalize_url_eq false u r hu hr]; rfl⟩

/-- Witness for C3 at a concrete URL carrying a fragment. -/
theorem C3_preserve_fragment_witness :
    normalize_url true "https://Ex.com/Path#frag".data
        = Except.ok "https://ex.com/Path#frag".data ∧
    normalize_url false "https://Ex.com/Path#frag".data
        = Except.ok "https://ex.com/Path".data := by
  obtain ⟨h1, h2⟩ := C3_preserve_fragment "https://Ex.com/Path#frag".data
    ⟨"https".data, "Ex.com".data, "/Path".data, [], "frag".data⟩
    (by decide) rfl
  exact ⟨by rw [h1]; rfl, by rw [h2]; rfl⟩

/-! ### Cache: round-trip and expiry (C5), cache-hit fetch (C2) -/

theorem clookup_cupsert_self {α : Type} (l : List (List Char × α))
    (k : List Char) (v : α) : clookup (cupsert l k v) k = some v := by
  induction l with
  | nil => simp [cupsert, clookup]
  | cons p rest ih =>
      obtain ⟨k', v'⟩ := p
      rw [cupsert]
      by_cases hk : (k' == k) = true
      · rw [if_pos hk]
        unfold clookup
        rw [List.find?_cons_of_pos _ (by simpa using hk)]
        rfl
      · rw [if_neg hk]
        unfold clookup at ih ⊢
        rw [List.find?_cons_of_neg _ (by simpa using hk)]
        exact ih

theorem clookup_cremove_self {α : Type} (l : List (List Char × α))
    (k : List Char) : clookup (cremove l k) k = none := by
  induction l with
  | nil => rfl
  | cons p rest ih =>
      obtain ⟨k', v'⟩ := p
      unfold cremove at ih ⊢
      rw [List.filter_cons]
      by_cases hk : (k' == k) = true
      · rw [if_neg (by simp [hk])]
        exact ih
      · rw [if_pos (by simp [Bool.not_eq_true] at hk ⊢; exact hk)]
        unfold clookup at ih ⊢
        rw [List.find?_cons_of_neg _ (by simpa using hk)]
        exact ih

/-- C5: cache round-trip and expiry.  After `set(u, c, m, ttl)` at time
`t0` with `ttl > 0`, a `get(u)` at a time within `ttl` hours returns
exactly the stored content, metadata, and creation time, while a
`get(u)` more than `ttl` hours later returns `None` and removes the
record from the store. -/
theorem C5_cache_roundtrip_expiry (db : CacheDB) (u c : List Char)
    (m : List (List Char × JsonVal)) (ttl : Int) (t0 t1 t2 : ℚ)
    (httl : 0 < ttl) (hwithin : t1 - t0 ≤ (ttl : ℚ))
    (hafter : (ttl : ℚ) < t2 - t0) :
    (cacheGet (cacheSet db t0 u c m ttl) t1 u).1 = some ⟨c, m, t0⟩ ∧
    (cacheGet (cacheSet db t0 u c m ttl) t2 u).1 = none ∧
    clookup (cacheGet (cacheSet db t0 u c m ttl) t2 u).2 u = none := by
  have hlk : clookup (cacheSet db t0 u c m ttl) u
      = some ⟨c, if m.isEmpty then none else some m, t0, t0, ttl⟩ :=
    clookup_cupsert_self db u _
  refine ⟨?_, ?_, ?_⟩
  · unfold cacheGet
    rw [hlk]
    dsimp only
    rw [if_neg (not_lt.mpr hwithin)]
    cases m with
    | nil => rfl
    | cons q qs => rfl
  · unfold cacheGet
    rw [hlk]
    dsimp only
    rw [if_pos hafter]
  · unfold cacheGet
    rw [hlk]
    dsimp only
    rw [if_pos hafter]
    exact clookup_cremove_self _ u

/-- Witness for C5 at a concrete store, URL, content, metadata and
times inside and outside the TTL. -/
theorem C5_cache_roundtrip_expiry_witness :
    (cacheGet (cacheSet [] 0 "https://ex.com/".data "Hello".data
        [("title".data, JsonVal.str "T".data)] 24) 24
        "https://ex.com/".data).1
      = some ⟨"Hello".data, [("title".data, JsonVal.str "T".data)], 0⟩ ∧
    (cacheGet (cacheSet [] 0 "https://ex.com/".data "Hello".data
        [("title".data, JsonVal.str "T".data)] 24) 25
        "https://ex.com/".data).1 = none ∧
    clookup (cacheGet (cacheSet [] 0 "https://ex.com/".data "Hello".data
        [("title".data, JsonVal.str "T".data)] 24) 25
        "https://ex.com/".data).2 "https://ex.com/".data = none :=
  C5_cache_roundtrip_expiry [] "https://ex.com/".data "Hello".data
    [("title".data, JsonVal.str "T".data)] 24 0 24 25 (by norm_num)
    (by norm_num) (by norm_num)

/-- C2: on a live cache record under a read-permitting mode, `arun`
returns the assembled cached result — `cached = true`, status 200,
markdown equal to the stored content, success — and the result is
independent of the network oracle (no fetch can influence it). -/
theorem C2_cache_hit_fetch (db : CacheDB) (mode : CacheMode) (now : ℚ)
    (net net' : List Char → CrawlResult) (url : List Char)
    (hit : CacheHit) (hval : validate_url url = true)
    (hmode : mode = CacheMode.cached ∨ mode = CacheMode.readOnly)
    (hhit : (cacheGet db now url).1 = some hit) :
    arun (some db) mode now net url = arun (some db) mode now net' url ∧
    (arun (some db) mode now net url).cached = true ∧
    (arun (some db) mode now net url).statusCode = some 200 ∧
    (arun (some db) mode now net url).markdown = some hit.content ∧
    (arun (some db) mode now net url).success = true := by
  have key : ∀ netw : List Char → CrawlResult,
      arun (some db) mode now netw url
        = { url := url, success := true, statusCode := some 200,
            html := [], markdown := some hit.content,
            title := jlookup hit.metadata "title".data,
            description := jlookup hit.metadata "description".data,
            links := (match jlookup hit.metadata "links".data with
              | some v => v
              | none => defaultLinks),
            crawledAt := hit.createdAt, cached := true,
            error := none, errorType := none } := by
    intro netw
    unfold arun
    rw [if_neg (by rw [hval]; simp)]
    dsimp only
    rw [if_pos hmode, hhit]
  rw [key net, key net']
  exact ⟨rfl, rfl, rfl, rfl, rfl⟩

/-- Witness for C2: a store holding one freshly `set` record, `CACHED`
mode, and two distinct network oracles. -/
theorem C2_cache_hit_fetch_witness :
    (arun (some (cacheSet [] 0 "https://ex.com/".data "Hello".data
        [("title".data, JsonVal.str "T".data)] 24)) CacheMode.cached 1
      (fun u => ⟨u, false, none, [], none, none, none, defaultLinks, 1,
        false, some "net1".data, none⟩)
      "https://ex.com/".data)
    = (arun (some (cacheSet [] 0 "https://ex.com/".data "Hello".data
        [("title".data, JsonVal.str "T".data)] 24)) CacheMode.cached 1
      (fun u => ⟨u, false, none, [], none, none, none, defaultLinks, 1,
        false, some "net2".data, none⟩)
      "https://ex.com/".data) ∧
    (arun (some (cacheSet [] 0 "https://ex.com/".data "Hello".data
        [("title".data, JsonVal.str "T".data)] 24)) CacheMode.cached 1
      (fun u => ⟨u, false, none, [], none, none, none, defaultLinks, 1,
        false, some "net1".data, none⟩)
      "https://ex.com/".data).markdown = some "Hello".data := by
  have hhit : (cacheGet (cacheSet [] 0 "https://ex.com/".data
      "Hello".data [("title".data, JsonVal.str "T".data)] 24) 1
      "https://ex.com/".data).1
      = some ⟨"Hello".data, [("title".data, JsonVal.str "T".data)], 0⟩ := by
    unfold cacheGet cacheSet
    rw [clookup_cupsert_self]
    dsimp only
    rw [if_neg (by norm_num)]
    rfl
  have h := C2_cache_hit_fetch
    (cacheSet [] 0 "https://ex.com/".data "Hello".data
      [("title".data, JsonVal.str "T".data)] 24) CacheMode.cached 1
    (fun u => ⟨u, false, none, [], none, none, none, defaultLinks, 1,
      false, some "net1".data, none⟩)
    (fun u => ⟨u, false, none, [], none, none, none, defaultLinks, 1,
      false, some "net2".data, none⟩)
    "https://ex.com/".data
    ⟨"Hello".data, [("title".data, JsonVal.str "T".data)], 0⟩
    (by decide) (Or.inl rfl) hhit
  exact ⟨h.1, h.2.2.2.1⟩

section MapperLemmas

/-- The link loop of `_discover_child_links` appends exactly the created
children to `visited`, each fresh with respect to the incoming list; it
preserves freedom from duplicates and never grows `visited` past
`max_pages` (or its starting length, if already larger). -/
theorem discoverLoop_spec (cfg : MapperCfg) (fh : List Char → List Char)
    (sh : List Char) : ∀ (links visited : List (List Char)),
    (discoverLoop cfg fh sh links visited).2
      = visited ++ (discoverLoop cfg fh sh links visited).1 ∧
    (∀ c ∈ (discoverLoop cfg fh sh links visited).1, c ∉ visited) ∧
    (visited.Nodup → ((discoverLoop cfg fh sh links visited).2).Nodup) ∧
    ((discoverLoop cfg fh sh links visited).2).length
      ≤ max visited.length cfg.maxPages := by
  intro links
  induction links with
  | nil =>
      intro visited
      refine ⟨by simp [discoverLoop], by simp [discoverLoop],
        fun h => by simpa [discoverLoop] using h, ?_⟩
      simp only [discoverLoop]
      omega
  | cons href rest ih =>
      intro visited
      by_cases h0 : href = []
      · simpa [discoverLoop, h0] using ih visited
      · cases hnu : normalize_url cfg.pf href with
        | error e =>
            refine ⟨by simp [discoverLoop, h0, hnu],
              by simp [discoverLoop, h0, hnu],
              fun h => by simpa [discoverLoop, h0, hnu] using h, ?_⟩
            simp [discoverLoop, h0, hnu]
        | ok nu =>
            by_cases hv : nu ∈ visited
            · simpa [discoverLoop, h0, hnu, hv] using ih visited
            · by_cases hcap : cfg.maxPages ≤ visited.length
              · refine ⟨by simp [discoverLoop, h0, hnu, hv, hcap],
                  by simp [discoverLoop, h0, hnu, hv, hcap],
                  fun h => by
                    simpa [discoverLoop, h0, hnu, hv, hcap] using h, ?_⟩
                simp only [discoverLoop, if_neg h0, hnu, if_neg hv,
                  if_pos hcap]
                omega
              · by_cases hsame : cfg.sameHostOnly = true ∧ fh nu ≠ sh
                · simpa [discoverLoop, h0, hnu, hv, hcap, hsame]
                    using ih visited
                · obtain ⟨ih1, ih2, ih3, ih4⟩ := ih (visited ++ [nu])
                  have hres : discoverLoop cfg fh sh (href :: rest) visited
                      = (nu :: (discoverLoop cfg fh sh rest
                          (visited ++ [nu])).1,
                        (discoverLoop cfg fh sh rest
                          (visited ++ [nu])).2) := by
                    simp [discoverLoop, h0, hnu, hv, hcap, hsame]
                  rw [hres]
                  dsimp only
                  refine ⟨?_, ?_, ?_, ?_⟩
                  · rw [ih1]
                    simp
                  · intro c hc
                    rcases List.mem_cons.mp hc with hc | hc
                    · subst hc; exact hv
                    · intro hmem
                      exact ih2 c hc (List.mem_append_left [nu] hmem)
                  · intro hnd
                    refine ih3 (List.nodup_append.mpr
                      ⟨hnd, List.nodup_singleton nu, ?_⟩)
                    intro a ha hb
                    rw [List.mem_singleton] at hb
                    subst hb
                    exact hv ha
                  · simp only [List.length_append, List.length_singleton]
                      at ih4
                    omega

/-- The post-fetch section of `crawl_with_sem` counts exactly one
attempt, appends the fresh children it creates to `visited` while
keeping it duplicate-free and within the page cap, and creates children
only strictly below `max_depth`. -/
theorem finishTask_spec (cfg : MapperCfg) (fh : List Char → List Char)
    (sh : List Char) (fetch : List Char → FetchOutcome) (depth : Nat)
    (u : List Char) (visited : List (List Char)) (pages : Nat) :
    (finishTask cfg fh sh fetch depth u visited pages).2.2 = pages + 1 ∧
    (finishTask cfg fh sh fetch depth u visited pages).2.1
      = visited ++ (finishTask cfg fh sh fetch depth u visited pages).1 ∧
    (∀ c ∈ (finishTask cfg fh sh fetch depth u visited pages).1,
      c ∉ visited) ∧
    (visited.Nodup →
      ((finishTask cfg fh sh fetch depth u visited pages).2.1).Nodup) ∧
    ((finishTask cfg fh sh fetch depth u visited pages).2.1).length
      ≤ max visited.length cfg.maxPages ∧
    ((finishTask cfg fh sh fetch depth u visited pages).1 ≠ [] →
      depth < cfg.maxDepth) := by
  by_cases hg : (fetch u).success = true ∧ depth < cfg.maxDepth ∧
      pages + 1 < cfg.maxPages
  · have hres : finishTask cfg fh sh fetch depth u visited pages
        = ((discoverLoop cfg fh sh
            ((fetch u).internalLinks ++
              (if cfg.includeExternal then (fetch u).externalLinks
               else [])) visited).1,
          (discoverLoop cfg fh sh
            ((fetch u).internalLinks ++
              (if cfg.includeExternal then (fetch u).externalLinks
               else [])) visited).2, pages + 1) := by
      simp [finishTask, hg]
    obtain ⟨d1, d2, d3, d4⟩ := discoverLoop_spec cfg fh sh
      ((fetch u).internalLinks ++
        (if cfg.includeExternal then (fetch u).externalLinks else []))
      visited
    rw [hres]
    dsimp only
    exact ⟨rfl, d1, d2, d3, d4, fun _ => hg.2.1⟩
  · have hres : finishTask cfg fh sh fetch depth u visited pages
        = ([], visited, pages + 1) := by
      simp only [finishTask]
      rw [if_neg hg]
    rw [hres]
    refine ⟨rfl, by simp, by simp, fun h => h, ?_, by simp⟩
    simp only
    omega

theorem flatten_map_nil {α β : Type} (l : List α) :
    (l.map (fun _ => ([] : List β))).flatten = [] := by
  induction l with
  | nil => rfl
  | cons a t ih => simpa using ih

/-- Replacing an empty slot of a list of lists by `cus` appends `cus` to
the concatenation, up to permutation. -/
theorem flatten_set_nil {α : Type} (cus : List α) :
    ∀ (l : List (List α)) (i : Nat), l[i]? = some [] →
    ((l.set i cus).flatten).Perm (l.flatten ++ cus) := by
  intro l
  induction l with
  | nil => intro i h; simp at h
  | cons hd tl ih =>
      intro i h
      cases i with
      | zero =>
          have h0 : hd = [] := by simpa using h
          subst h0
          simp only [List.set, List.flatten_cons, List.nil_append]
          exact List.perm_append_comm
      | succ j =>
          have h' : tl[j]? = some [] := by simpa using h
          have hperm := ih j h'
          simp only [List.set, List.flatten_cons]
          rw [show (hd ++ tl.flatten) ++ cus = hd ++ (tl.flatten ++ cus)
            from List.append_assoc hd _ _]
          exact List.Perm.append_left hd hperm

/-- One wave event preserves the wave invariant. -/
theorem waveStep_inv (cfg : MapperCfg) (fh : List Char → List Char)
    (sh : List Char) (fetch : List Char → FetchOutcome) (depth : Nat)
    (urls : List (List Char)) (v0 : List (List Char)) (p0 : Nat)
    (st : WaveSt) (e : WEv)
    (h : WaveInv cfg depth urls v0 p0 st) :
    WaveInv cfg depth urls v0 p0
      (waveStep cfg fh sh fetch depth urls st e) := by
  obtain ⟨h1, h2, h3, h4, h5, h6, h7, h8, h9, h10, h11⟩ := h
  cases e with
  | acquire =>
      simp only [waveStep]
      by_cases hc : st.nextTask < urls.length ∧
          st.inflight.length < cfg.maxConcurrent
      · rw [if_pos hc]
        by_cases hcap : cfg.maxPages ≤ st.pages
        · rw [if_pos hcap]
          refine ⟨?_, ?_, ?_, ?_, ?_, ?_, ?_, ?_, ?_, ?_, ?_⟩
            <;> dsimp only
          · omega
          · omega
          · exact h3
          · exact fun j hj hj2 => h4 j (by omega) hj2
          · exact fun i hi => Nat.lt_succ_of_lt (h5 i hi)
          · exact h6
          · exact h7
          · exact h8
          · exact h9
          · exact h10
          · exact h11
        · rw [if_neg hcap]
          refine ⟨?_, ?_, ?_, ?_, ?_, ?_, ?_, ?_, ?_, ?_, ?_⟩
            <;> dsimp only
          · simp only [List.length_append, List.length_singleton]
            omega
          · omega
          · exact h3
          · exact fun j hj hj2 => h4 j (by omega) hj2
          · intro i hi
            rcases List.mem_append.mp hi with hi | hi
            · exact Nat.lt_succ_of_lt (h5 i hi)
            · rw [List.mem_singleton] at hi
              omega
          · intro i hi
            rcases List.mem_append.mp hi with hi | hi
            · exact h6 i hi
            · rw [List.mem_singleton] at hi
              subst hi
              exact h4 st.nextTask (Nat.le_refl _) hc.1
          · refine List.nodup_append.mpr ⟨h7, List.nodup_singleton _, ?_⟩
            intro a ha hb
            rw [List.mem_singleton] at hb
            subst hb
            exact absurd (h5 _ ha) (Nat.lt_irrefl _)
          · exact h8
          · exact h9
          · exact h10
          · exact h11
      · rw [if_neg hc]
        exact ⟨h1, h2, h3, h4, h5, h6, h7, h8, h9, h10, h11⟩
  | finish i =>
      simp only [waveStep]
      by_cases hin : i ∈ st.inflight
      · rw [if_pos hin]
        cases hu : urls[i]? with
        | none =>
            simp only
            exact ⟨h1, h2, h3, h4, h5, h6, h7, h8, h9, h10, h11⟩
        | some u =>
            simp only
            obtain ⟨f1, f2, f3, f4, f5, f6⟩ :=
              finishTask_spec cfg fh sh fetch depth u st.visited st.pages
            refine ⟨?_, ?_, ?_, ?_, ?_, ?_, ?_, ?_, ?_, ?_, ?_⟩
              <;> dsimp only
            · rw [f1, List.length_erase_of_mem hin]
              have := List.length_pos_of_mem hin
              omega
            · exact h2
            · rw [List.length_set]
              exact h3
            · intro j hj hj2
              rw [List.getElem?_set_ne (by have := h5 i hin; omega)]
              exact h4 j hj hj2
            · exact fun i' hi' => h5 i' (List.mem_of_mem_erase hi')
            · intro i' hi'
              obtain ⟨hne, hmem⟩ := (h7.mem_erase_iff).mp hi'
              rw [List.getElem?_set_ne (Ne.symm hne)]
              exact h6 i' hmem
            · exact h7.erase i
            · exact f4 h8
            · have hset := flatten_set_nil
                (finishTask cfg fh sh fetch depth u st.visited st.pages).1
                st.childUrls i (h6 i hin)
              refine (List.Perm.append_left v0 hset).trans ?_
              rw [show v0 ++ (st.childUrls.flatten ++
                    (finishTask cfg fh sh fetch depth u st.visited
                      st.pages).1)
                  = (v0 ++ st.childUrls.flatten) ++
                    (finishTask cfg fh sh fetch depth u st.visited
                      st.pages).1
                from (List.append_assoc v0 _ _).symm]
              refine (h9.append_right _).trans ?_
              rw [← f2]
            · omega
            · intro cus hcus hne
              rcases List.mem_or_eq_of_mem_set hcus with hcus | hcus
              · exact h11 cus hcus hne
              · subst hcus
                exact f6 hne
      · rw [if_neg hin]
        exact ⟨h1, h2, h3, h4, h5, h6, h7, h8, h9, h10, h11⟩

/-- A whole wave schedule preserves the wave invariant. -/
theorem runWave_inv (cfg : MapperCfg) (fh : List Char → List Char)
    (sh : List Char) (fetch : List Char → FetchOutcome) (depth : Nat)
    (urls : List (List Char)) (v0 : List (List Char)) (p0 : Nat) :
    ∀ (sched : List WEv) (st : WaveSt),
    WaveInv cfg depth urls v0 p0 st →
    WaveInv cfg depth urls v0 p0
      (runWave cfg fh sh fetch depth urls sched st) := by
  intro sched
  induction sched with
  | nil => intro st h; exact h
  | cons e rest ih =>
      intro st h
      exact ih (waveStep cfg fh sh fetch depth urls st e)
        (waveStep_inv cfg fh sh fetch depth urls v0 p0 st e h)

/-- The state a wave starts from satisfies the wave invariant. -/
theorem waveInv_init {α : Type} (cfg : MapperCfg) (depth : Nat)
    (urls v0 : List (List Char)) (p0 : Nat) (ws : List α)
    (hlen : ws.length = urls.length) (hnd : v0.Nodup) :
    WaveInv cfg depth urls v0 p0
      ⟨v0, p0, 0, [], ws.map (fun _ => [])⟩ := by
  refine ⟨?_, ?_, ?_, ?_, ?_, ?_, ?_, ?_, ?_, ?_, ?_⟩ <;> dsimp only
  · simp
  · omega
  · simpa using hlen
  · intro j hj hj2
    have hlt : j < (ws.map
        (fun _ => ([] : List (List Char)))).length := by
      simp only [List.length_map]
      omega
    rw [List.getElem?_eq_getElem hlt]
    simp
  · intro i hi
    simp at hi
  · intro i hi
    simp at hi
  · exact List.nodup_nil
  · exact hnd
  · rw [flatten_map_nil, List.append_nil]
  · omega
  · intro cus hcus hne
    rw [List.mem_map] at hcus
    obtain ⟨_, _, hc⟩ := hcus
    exact absurd hc.symm hne

theorem attach_flatMap {α β : Type} (l : List α) (f : α → List β) :
    l.attach.flatMap (fun c => f c.1) = l.flatMap f := by
  rw [List.flatMap_def, List.flatMap_def, List.attach_map_val]

theorem nodeTriples_mk (u : List Char) (d : Nat)
    (p : Option (List Char)) (cs : List LinkNode) :
    nodeTriples (LinkNode.mk u d p cs)
      = (u, d, p) :: cs.flatMap nodeTriples := by
  simp only [nodeTriples]
  rw [attach_flatMap]

theorem wfB_mk_iff (u : List Char) (d : Nat) (p : Option (List Char))
    (cs : List LinkNode) :
    (LinkNode.mk u d p cs).wfB = true ↔
      ∀ c ∈ cs, c.depth = d + 1 ∧ c.parentUrl = some u ∧
        c.wfB = true := by
  simp only [LinkNode.wfB]
  rw [List.all_eq_true]
  constructor
  · intro h c hc
    have hx := h ⟨c, hc⟩ (List.mem_attach _ _)
    simp only [Bool.and_eq_true, decide_eq_true_eq] at hx
    exact ⟨hx.1.1, hx.1.2, hx.2⟩
  · intro h x hx
    obtain ⟨hd, hp, hw⟩ := h x.1 x.2
    simp only [Bool.and_eq_true, decide_eq_true_eq]
    exact ⟨⟨hd, hp⟩, hw⟩

/-- The first components of the next wave are exactly the concatenation
of the recorded child lists. -/
theorem zip_flatMap_map_fst :
    ∀ (wave : List (List Char × Option (List Char)))
      (cus : List (List (List Char))),
    wave.length = cus.length →
    ((wave.zip cus).flatMap
        (fun p => p.2.map (fun cu => (cu, some p.1.1)))).map
      (fun q => q.1) = cus.flatten := by
  intro wave
  induction wave with
  | nil =>
      intro cus h
      cases cus with
      | nil => rfl
      | cons c crest => simp at h
  | cons e wrest ih =>
      intro cus h
      cases cus with
      | nil => simp at h
      | cons c crest =>
          simp only [List.zip_cons_cons, List.flatMap_cons,
            List.map_append, List.map_map, List.flatten_cons]
          rw [ih crest (by simpa using h)]
          rw [show ((fun q : List Char × Option (List Char) => q.1) ∘
              fun cu : List Char => (cu, some e.1)) = id from rfl,
            List.map_id]

theorem mem_splitByLengths {x : LinkNode} :
    ∀ (ns : List Nat) (built : List LinkNode) (chunk : List LinkNode),
    chunk ∈ splitByLengths ns built → x ∈ chunk → x ∈ built := by
  intro ns
  induction ns with
  | nil =>
      intro built chunk hchunk hx
      simp [splitByLengths] at hchunk
  | cons n nrest ih =>
      intro built chunk hchunk hx
      simp only [splitByLengths] at hchunk
      rcases List.mem_cons.mp hchunk with h | h
      · subst h
        exact List.mem_of_mem_take hx
      · exact List.mem_of_mem_drop (ih _ _ h hx)

/-- `pages_crawled` never exceeds `max_pages`, provided the nodes of the
current wave are already accounted for inside `visited` and `visited`
is within the cap (both hold at the top-level call). -/
theorem mapLevels_pages (cfg : MapperCfg) (fh : List Char → List Char)
    (sh : List Char) (fetch : List Char → FetchOutcome) :
    ∀ (l depth : Nat) (wave : List (List Char × Option (List Char)))
      (visited : List (List Char)) (pages : Nat)
      (scheds : List (List WEv)),
    visited.Nodup →
    pages + wave.length ≤ visited.length →
    visited.length ≤ cfg.maxPages →
    (mapLevels cfg fh sh fetch l depth wave visited pages scheds).2.2
      ≤ cfg.maxPages := by
  intro l
  induction l with
  | zero =>
      intro depth wave visited pages scheds _ hlen hcap
      simp only [mapLevels]
      omega
  | succ l ih =>
      intro depth wave visited pages scheds hnd hlen hcap
      by_cases hguard : wave = [] ∨ cfg.maxPages ≤ pages
      · simp only [mapLevels, if_pos hguard]
        omega
      · simp only [mapLevels, if_neg hguard]
        have hinv := runWave_inv cfg fh sh fetch depth
          (wave.map (fun e => e.1)) visited pages (scheds.headD [])
          ⟨visited, pages, 0, [], wave.map (fun _ => [])⟩
          (waveInv_init cfg depth (wave.map (fun e => e.1)) visited
            pages wave (List.length_map wave _).symm hnd)
        refine ih (depth + 1) _ _ _ scheds.tail hinv.visNodup ?_ ?_
        · have hp := hinv.pagesLe
          have hn := hinv.nextLe
          rw [List.length_map] at hn
          have hperm := hinv.visPerm.length_eq
          rw [List.length_append] at hperm
          have hcu := hinv.culen
          rw [List.length_map] at hcu
          have hnw := zip_flatMap_map_fst wave _ hcu.symm
          have hnwlen : ((wave.zip
              (runWave cfg fh sh fetch depth (wave.map (fun e => e.1))
                (scheds.headD [])
                ⟨visited, pages, 0, [], wave.map (fun _ => [])⟩
                ).childUrls).flatMap
              (fun p => p.2.map (fun cu => (cu, some p.1.1)))).length
              = ((runWave cfg fh sh fetch depth
                  (wave.map (fun e => e.1)) (scheds.headD [])
                  ⟨visited, pages, 0, [], wave.map (fun _ => [])⟩
                  ).childUrls).flatten.length := by
            rw [← hnw, List.length_map]
          rw [hnwlen]
          omega
        · have hv := hinv.visLen
          omega

/-- No node of the returned forest sits deeper than `max_depth`,
provided the wave's own depth is within the bound (or the wave is
empty). -/
theorem mapLevels_depth (cfg : MapperCfg) (fh : List Char → List Char)
    (sh : List Char) (fetch : List Char → FetchOutcome) :
    ∀ (l depth : Nat) (wave : List (List Char × Option (List Char)))
      (visited : List (List Char)) (pages : Nat)
      (scheds : List (List WEv)),
    visited.Nodup →
    (depth ≤ cfg.maxDepth ∨ wave = []) →
    ∀ nd ∈ (mapLevels cfg fh sh fetch l depth wave visited pages
      scheds).1,
    ∀ t ∈ nodeTriples nd, t.2.1 ≤ cfg.maxDepth := by
  intro l
  induction l with
  | zero =>
      intro depth wave visited pages scheds _ hd nd hnd t ht
      simp only [mapLevels] at hnd
      rw [List.mem_map] at hnd
      obtain ⟨e, he, hnd⟩ := hnd
      subst hnd
      rw [nodeTriples_mk] at ht
      simp only [List.flatMap_nil, List.mem_singleton] at ht
      subst ht
      rcases hd with hd | hd
      · exact hd
      · subst hd
        simp at he
  | succ l ih =>
      intro depth wave visited pages scheds hnd0 hd nd hnd t ht
      by_cases hguard : wave = [] ∨ cfg.maxPages ≤ pages
      · simp only [mapLevels, if_pos hguard] at hnd
        rw [List.mem_map] at hnd
        obtain ⟨e, he, hnd⟩ := hnd
        subst hnd
        rw [nodeTriples_mk] at ht
        simp only [List.flatMap_nil, List.mem_singleton] at ht
        subst ht
        rcases hd with hd | hd
        · exact hd
        · subst hd
          simp at he
      · have hwne : ¬ wave = [] := fun hw => hguard (Or.inl hw)
        have hdepth : depth ≤ cfg.maxDepth := hd.resolve_right hwne
        simp only [mapLevels, if_neg hguard] at hnd
        rw [List.mem_map] at hnd
        obtain ⟨pz, hpz, hnd⟩ := hnd
        obtain ⟨pe, chunk⟩ := pz
        subst hnd
        rw [nodeTriples_mk] at ht
        rcases List.mem_cons.mp ht with ht | ht
        · subst ht
          exact hdepth
        · rw [List.mem_flatMap] at ht
          obtain ⟨c, hc, htc⟩ := ht
          have hinv := runWave_inv cfg fh sh fetch depth
            (wave.map (fun e => e.1)) visited pages (scheds.headD [])
            ⟨visited, pages, 0, [], wave.map (fun _ => [])⟩
            (waveInv_init cfg depth (wave.map (fun e => e.1)) visited
              pages wave (List.length_map wave _).symm hnd0)
          have hzc := (List.of_mem_zip hpz).2
          have hcr := mem_splitByLengths _ _ _ hzc hc
          refine ih (depth + 1) _ _ _ scheds.tail hinv.visNodup ?_
            c hcr t htc
          by_cases hlt : depth < cfg.maxDepth
          · exact Or.inl hlt
          · refine Or.inr ?_
            rw [List.flatMap_eq_nil_iff]
            intro p hp
            obtain ⟨p1, p2⟩ := p
            have hp2 := (List.of_mem_zip hp).2
            by_cases hp2nil : p2 = []
            · subst hp2nil
              simp
            · exact absurd (hinv.childDepth p2 hp2 hp2nil) hlt

end MapperLemmas

section MapperShape

theorem forall₂_map_self {α β : Type} {P : β → α → Prop} (f : α → β)
    (h : ∀ e, P (f e) e) : ∀ l : List α, List.Forall₂ P (l.map f) l := by
  intro l
  induction l with
  | nil => exact List.Forall₂.nil
  | cons a t ih => exact List.Forall₂.cons (h a) ih

theorem forall₂_mem_left {α β : Type} {P : α → β → Prop} :
    ∀ {l₁ : List α} {l₂ : List β}, List.Forall₂ P l₁ l₂ →
    ∀ x ∈ l₁, ∃ y ∈ l₂, P x y := by
  intro l₁
  induction l₁ with
  | nil =>
      intro l₂ h x hx
      simp at hx
  | cons a t ih =>
      intro l₂ h x hx
      cases h with
      | cons hab ht =>
          rcases List.mem_cons.mp hx with hx | hx
          · subst hx
            exact ⟨_, List.mem_cons_self _ _, hab⟩
          · obtain ⟨y, hy, hPy⟩ := ih ht x hx
            exact ⟨y, List.mem_cons_of_mem _ hy, hPy⟩

theorem waveStep_childUrls_len (cfg : MapperCfg)
    (fh : List Char → List Char) (sh : List Char)
    (fetch : List Char → FetchOutcome) (depth : Nat)
    (urls : List (List Char)) (st : WaveSt) (e : WEv) :
    (waveStep cfg fh sh fetch depth urls st e).childUrls.length
      = st.childUrls.length := by
  cases e with
  | acquire =>
      simp only [waveStep]
      by_cases hc : st.nextTask < urls.length ∧
          st.inflight.length < cfg.maxConcurrent
      · rw [if_pos hc]
        by_cases hcap : cfg.maxPages ≤ st.pages
        · rw [if_pos hcap]
        · rw [if_neg hcap]
      · rw [if_neg hc]
  | finish i =>
      simp only [waveStep]
      by_cases hin : i ∈ st.inflight
      · rw [if_pos hin]
        cases hu : urls[i]? with
        | none => rfl
        | some u =>
            simp only
            exact List.length_set _ _ _
      · rw [if_neg hin]

theorem runWave_childUrls_len (cfg : MapperCfg)
    (fh : List Char → List Char) (sh : List Char)
    (fetch : List Char → FetchOutcome) (depth : Nat)
    (urls : List (List Char)) :
    ∀ (sched : List WEv) (st : WaveSt),
    (runWave cfg fh sh fetch depth urls sched st).childUrls.length
      = st.childUrls.length := by
  intro sched
  induction sched with
  | nil => intro st; rfl
  | cons e rest ih =>
      intro st
      exact (ih _).trans
        (waveStep_childUrls_len cfg fh sh fetch depth urls st e)

/-- Reattaching the recursively built child subtrees to the current
wave's nodes yields nodes that carry the wave's url/depth/parent data
and are structurally well-formed, given that the built nodes carry the
next wave's data. -/
theorem assembleChunks (depth : Nat) :
    ∀ (wave : List (List Char × Option (List Char)))
      (cus : List (List (List Char))) (built : List LinkNode),
    wave.length = cus.length →
    List.Forall₂
      (fun (nd : LinkNode) (e : List Char × Option (List Char)) =>
        nd.url = e.1 ∧ nd.depth = depth + 1 ∧ nd.parentUrl = e.2 ∧
        nd.wfB = true)
      built ((wave.zip cus).flatMap
        (fun p => p.2.map (fun cu => (cu, some p.1.1)))) →
    List.Forall₂
      (fun (nd : LinkNode) (e : List Char × Option (List Char)) =>
        nd.url = e.1 ∧ nd.depth = depth ∧ nd.parentUrl = e.2 ∧
        nd.wfB = true)
      ((wave.zip (splitByLengths (cus.map List.length) built)).map
        (fun p => LinkNode.mk p.1.1 depth p.1.2 p.2)) wave := by
  intro wave
  induction wave with
  | nil =>
      intro cus built hlen hf
      exact List.Forall₂.nil
  | cons e wrest ih =>
      intro cus built hlen hf
      cases cus with
      | nil => simp at hlen
      | cons c crest =>
          simp only [List.map_cons, splitByLengths, List.zip_cons_cons]
          rw [List.zip_cons_cons, List.flatMap_cons] at hf
          have htake := List.forall₂_take_append built _ _ hf
          have hdrop := List.forall₂_drop_append built _ _ hf
          rw [List.length_map] at htake hdrop
          refine List.Forall₂.cons ?_
            (ih crest (built.drop c.length) (by simpa using hlen) hdrop)
          refine ⟨rfl, rfl, rfl, ?_⟩
          rw [wfB_mk_iff]
          intro ch hch
          obtain ⟨y, hy, hQ⟩ := forall₂_mem_left htake ch hch
          rw [List.mem_map] at hy
          obtain ⟨cu, hcu, hycu⟩ := hy
          subst hycu
          exact ⟨hQ.2.1, hQ.2.2.1, hQ.2.2.2⟩

/-- Every node of the forest returned by the depth loop carries its
wave entry's URL and parent, sits at the wave's depth, and is
structurally well-formed (`wfB`): children one level deeper, pointing
back at their container's URL. -/
theorem mapLevels_forall₂ (cfg : MapperCfg)
    (fh : List Char → List Char) (sh : List Char)
    (fetch : List Char → FetchOutcome) :
    ∀ (l depth : Nat) (wave : List (List Char × Option (List Char)))
      (visited : List (List Char)) (pages : Nat)
      (scheds : List (List WEv)),
    List.Forall₂
      (fun (nd : LinkNode) (e : List Char × Option (List Char)) =>
        nd.url = e.1 ∧ nd.depth = depth ∧ nd.parentUrl = e.2 ∧
        nd.wfB = true)
      (mapLevels cfg fh sh fetch l depth wave visited pages scheds).1
      wave := by
  intro l
  induction l with
  | zero =>
      intro depth wave visited pages scheds
      simp only [mapLevels]
      refine forall₂_map_self _ (fun e => ⟨rfl, rfl, rfl, ?_⟩) wave
      rw [wfB_mk_iff]
      intro c hc
      simp at hc
  | succ l ih =>
      intro depth wave visited pages scheds
      by_cases hguard : wave = [] ∨ cfg.maxPages ≤ pages
      · simp only [mapLevels, if_pos hguard]
        refine forall₂_map_self _ (fun e => ⟨rfl, rfl, rfl, ?_⟩) wave
        rw [wfB_mk_iff]
        intro c hc
        simp at hc
      · simp only [mapLevels, if_neg hguard]
        refine assembleChunks depth wave _ _ ?_
          (ih (depth + 1) _ _ _ scheds.tail)
        rw [runWave_childUrls_len]
        dsimp only
        rw [List.length_map]

theorem splitByLengths_length :
    ∀ (ns : List Nat) (l : List LinkNode),
    (splitByLengths ns l).length = ns.length := by
  intro ns
  induction ns with
  | nil => intro l; rfl
  | cons n nrest ih =>
      intro l
      simp only [splitByLengths, List.length_cons, ih]

theorem splitByLengths_flatten :
    ∀ (ns : List Nat) (l : List LinkNode), l.length = ns.sum →
    (splitByLengths ns l).flatten = l := by
  intro ns
  induction ns with
  | nil =>
      intro l h
      simp only [List.sum_nil] at h
      rw [List.eq_nil_of_length_eq_zero h]
      rfl
  | cons n nrest ih =>
      intro l h
      simp only [List.sum_cons] at h
      simp only [splitByLengths, List.flatten_cons]
      rw [ih (l.drop n) (by rw [List.length_drop]; omega)]
      exact List.take_append_drop n l

theorem zip_flatMap_snd {α β : Type} :
    ∀ (l₁ : List α) (l₂ : List (List β)), l₁.length = l₂.length →
    (l₁.zip l₂).flatMap (fun p => p.2) = l₂.flatten := by
  intro l₁
  induction l₁ with
  | nil =>
      intro l₂ h
      cases l₂ with
      | nil => rfl
      | cons c crest => simp at h
  | cons a arest ih =>
      intro l₂ h
      cases l₂ with
      | nil => simp at h
      | cons c crest =>
          simp only [List.zip_cons_cons, List.flatMap_cons,
            List.flatten_cons]
          rw [ih crest (by simpa using h)]

theorem treeUrls_cons (nd : LinkNode) (rest : List LinkNode) :
    treeUrls (nd :: rest)
      = (nodeTriples nd).map (fun t => t.1) ++ treeUrls rest := by
  simp [treeUrls]

theorem treeUrls_append (a b : List LinkNode) :
    treeUrls (a ++ b) = treeUrls a ++ treeUrls b := by
  simp only [treeUrls, List.flatMap_append]

theorem treeUrls_map_nil (depth : Nat)
    (wave : List (List Char × Option (List Char))) :
    treeUrls (wave.map (fun e => LinkNode.mk e.1 depth e.2 []))
      = wave.map (fun e => e.1) := by
  induction wave with
  | nil => rfl
  | cons e rest ih =>
      simp only [List.map_cons]
      rw [treeUrls_cons, nodeTriples_mk, ih]
      simp

/-- The URLs of a reattached level are, up to permutation, the wave's
URLs followed by the URLs below the collected child subtrees. -/
theorem treeUrls_assemble (depth : Nat) :
    ∀ (zl : List ((List Char × Option (List Char)) × List LinkNode)),
    (treeUrls (zl.map
        (fun p => LinkNode.mk p.1.1 depth p.1.2 p.2))).Perm
      (zl.map (fun p => p.1.1)
        ++ treeUrls (zl.flatMap (fun p => p.2))) := by
  intro zl
  induction zl with
  | nil => exact List.Perm.refl _
  | cons p rest ih =>
      simp only [List.map_cons, List.flatMap_cons]
      rw [treeUrls_cons, nodeTriples_mk, treeUrls_append]
      simp only [List.map_cons, List.cons_append]
      have hM : (p.2.flatMap nodeTriples).map
          (fun t : List Char × Nat × Option (List Char) => t.1)
          = treeUrls p.2 := by
        rw [treeUrls, List.map_flatMap]
      rw [hM]
      refine List.Perm.cons p.1.1 ?_
      refine (List.Perm.append_left (treeUrls p.2) ih).trans ?_
      exact List.perm_append_comm_assoc _ _ _

/-- BFS uniqueness at the level of the depth loop: if `visited` is,
as a multiset, the current wave's URLs plus an untouched remainder
`other`, it stays duplicate-free and ends up being exactly the URLs
of the returned forest plus `other`. -/
theorem mapLevels_unique (cfg : MapperCfg)
    (fh : List Char → List Char) (sh : List Char)
    (fetch : List Char → FetchOutcome) :
    ∀ (l depth : Nat) (wave : List (List Char × Option (List Char)))
      (visited : List (List Char)) (pages : Nat)
      (scheds : List (List WEv)) (other : List (List Char)),
    visited.Nodup →
    visited.Perm (wave.map (fun e => e.1) ++ other) →
    (mapLevels cfg fh sh fetch l depth wave visited pages
      scheds).2.1.Nodup ∧
    (mapLevels cfg fh sh fetch l depth wave visited pages
        scheds).2.1.Perm
      (treeUrls (mapLevels cfg fh sh fetch l depth wave visited pages
        scheds).1 ++ other) := by
  intro l
  induction l with
  | zero =>
      intro depth wave visited pages scheds other hnd hperm
      simp only [mapLevels]
      exact ⟨hnd, by rw [treeUrls_map_nil]; exact hperm⟩
  | succ l ih =>
      intro depth wave visited pages scheds other hnd hperm
      by_cases hguard : wave = [] ∨ cfg.maxPages ≤ pages
      · simp only [mapLevels, if_pos hguard]
        exact ⟨hnd, by rw [treeUrls_map_nil]; exact hperm⟩
      · simp only [mapLevels, if_neg hguard]
        set st := runWave cfg fh sh fetch depth
          (wave.map (fun e => e.1)) (scheds.headD [])
          ⟨visited, pages, 0, [], wave.map (fun _ => [])⟩ with hst
        set nw := (wave.zip st.childUrls).flatMap
          (fun p => p.2.map (fun cu => (cu, some p.1.1))) with hnw
        set r := mapLevels cfg fh sh fetch l (depth + 1) nw st.visited
          st.pages scheds.tail with hrr
        have hinv := runWave_inv cfg fh sh fetch depth
          (wave.map (fun e => e.1)) visited pages (scheds.headD [])
          ⟨visited, pages, 0, [], wave.map (fun _ => [])⟩
          (waveInv_init cfg depth (wave.map (fun e => e.1)) visited
            pages wave (List.length_map wave _).symm hnd)
        rw [← hst] at hinv
        have hculen : st.childUrls.length = wave.length := by
          have hcu := hinv.culen
          rwa [List.length_map] at hcu
        have hfl : nw.map (fun q => q.1) = st.childUrls.flatten := by
          rw [hnw]
          exact zip_flatMap_map_fst wave _ hculen.symm
        have hstperm : st.visited.Perm
            (nw.map (fun q => q.1)
              ++ (wave.map (fun e => e.1) ++ other)) := by
          rw [hfl]
          have h1 : st.visited.Perm (visited ++ st.childUrls.flatten) :=
            hinv.visPerm.symm
          have h2 := hperm.append_right st.childUrls.flatten
          exact h1.trans (h2.trans List.perm_append_comm)
        have hIH := ih (depth + 1) nw st.visited st.pages scheds.tail
          (wave.map (fun e => e.1) ++ other) hinv.visNodup hstperm
        rw [← hrr] at hIH
        refine ⟨hIH.1, ?_⟩
        have hchlen : (splitByLengths (st.childUrls.map List.length)
            r.1).length = wave.length := by
          rw [splitByLengths_length, List.length_map, hculen]
        have hr1len : r.1.length
            = (st.childUrls.map List.length).sum := by
          have hf2 := (mapLevels_forall₂ cfg fh sh fetch l (depth + 1)
            nw st.visited st.pages scheds.tail).length_eq
          rw [← hrr] at hf2
          have h3 : nw.length = st.childUrls.flatten.length := by
            rw [← hfl, List.length_map]
          rw [hf2, h3, List.length_flatten]
        have hflat : (splitByLengths (st.childUrls.map List.length)
            r.1).flatten = r.1 :=
          splitByLengths_flatten _ _ hr1len
        have hzfst : ((wave.zip (splitByLengths
              (st.childUrls.map List.length) r.1)).map
            (fun p => p.1.1)) = wave.map (fun e => e.1) := by
          have h4 : ∀ (zl : List ((List Char × Option (List Char))
              × List LinkNode)), zl.map (fun p => p.1.1)
              = (zl.map Prod.fst).map (fun e => e.1) := by
            intro zl
            rw [List.map_map]
            rfl
          rw [h4, List.map_fst_zip _ _ (by rw [hchlen])]
        have hzsnd : (wave.zip (splitByLengths
              (st.childUrls.map List.length) r.1)).flatMap
            (fun p => p.2) = r.1 := by
          rw [zip_flatMap_snd _ _ hchlen.symm, hflat]
        have hassem := treeUrls_assemble depth
          (wave.zip (splitByLengths (st.childUrls.map List.length) r.1))
        rw [hzfst, hzsnd] at hassem
        refine hIH.2.trans ?_
        refine List.Perm.trans ?_ (hassem.symm.append_right other)
        rw [show treeUrls r.1 ++ (wave.map (fun e => e.1) ++ other)
            = (treeUrls r.1 ++ wave.map (fun e => e.1)) ++ other
          from (List.append_assoc _ _ _).symm]
        exact List.perm_append_comm.append_right other

end MapperShape

/-- C6: BFS bounds.  For every seed URL, every configuration with
`max_pages >= 1`, every fetch outcome and every interleaving of the
per-wave tasks, `map_links` counts at most `max_pages` crawl attempts
(`pages_crawled`, counting failures) and the returned tree contains no
node whose depth exceeds `max_depth`.  The capacity check racing across
the `await` is harmless: every attempted node was first admitted into
`visited`, whose capacity guard runs atomically. -/
theorem C6_bfs_bounds (cfg : MapperCfg)
    (fullHost : List Char → List Char)
    (fetch : List Char → FetchOutcome) (startUrl : List Char)
    (scheds : List (List WEv)) (root : LinkNode) (pages : Nat)
    (hmp : 1 ≤ cfg.maxPages)
    (h : map_links cfg fullHost fetch startUrl scheds
      = Except.ok (root, pages)) :
    pages ≤ cfg.maxPages ∧
    ∀ t ∈ nodeTriples root, t.2.1 ≤ cfg.maxDepth := by
  cases hn : normalize_url cfg.pf startUrl with
  | error e =>
      simp only [map_links, hn] at h
      exact Except.noConfusion h
  | ok nseed =>
      simp only [map_links, hn] at h
      rcases hres : (mapLevels cfg fullHost (fullHost startUrl) fetch
          (cfg.maxDepth + 1) 0 [(startUrl, none)] [nseed] 0 scheds).1
        with _ | ⟨n, t⟩
      · rw [hres] at h
        exact Except.noConfusion h
      · rw [hres] at h
        simp only [Except.ok.injEq, Prod.mk.injEq] at h
        obtain ⟨hroot, hpages⟩ := h
        subst hroot
        subst hpages
        constructor
        · exact mapLevels_pages cfg fullHost (fullHost startUrl) fetch
            (cfg.maxDepth + 1) 0 [(startUrl, none)] [nseed] 0 scheds
            (List.nodup_singleton _) (by simp) (by simpa using hmp)
        · intro t' ht'
          refine mapLevels_depth cfg fullHost (fullHost startUrl) fetch
            (cfg.maxDepth + 1) 0 [(startUrl, none)] [nseed] 0 scheds
            (List.nodup_singleton _) (Or.inl (Nat.zero_le _)) n
            ?_ t' ht'
          rw [hres]
          exact List.mem_cons_self _ _

theorem C6_bfs_bounds_witness :
    1 ≤ 2 ∧ (1 ≤ 2 ∧
      ∀ t ∈ nodeTriples (LinkNode.mk "https://h/p".data 0 none []),
        t.2.1 ≤ 0) :=
  ⟨by decide,
    C6_bfs_bounds ⟨0, 2, 1, false, false, false⟩ (fun _ => [])
      (fun _ => ⟨true, [], []⟩) "https://h/p".data
      [[WEv.acquire, WEv.finish 0]]
      (LinkNode.mk "https://h/p".data 0 none []) 1 (by decide)
      (by rfl)⟩

/-- C7, counterexample to BFS URL uniqueness as claimed, at a concrete
input.  `visited` is seeded with the *normalized* seed
(`https://h/p`, host lowercased) while the root node keeps the raw
seed string `https://H/p`.  The child link `//H/p` normalizes to
`https://H/p` — after the `https://`-prepend the slashes land in the
path, which is not lowercased — and that string is absent from
`visited`, so a child node is created whose `url` equals the root's:
two distinct nodes of the returned tree share one URL. -/
theorem C7_counterexample :
    map_links ⟨1, 3, 1, false, false, false⟩ (fun _ => [])
        (fun _ => ⟨true, ["//H/p".data], []⟩) "https://H/p".data
        [[WEv.acquire, WEv.finish 0], [WEv.acquire, WEv.finish 0]]
      = Except.ok (LinkNode.mk "https://H/p".data 0 none
          [LinkNode.mk "https://H/p".data 1 (some "https://H/p".data)
            []], 2) ∧
    ¬ ((nodeTriples (LinkNode.mk "https://H/p".data 0 none
          [LinkNode.mk "https://H/p".data 1 (some "https://H/p".data)
            []])).map (fun t => t.1)).Nodup := by
  constructor
  · rfl
  · simp [nodeTriples_mk]

/-- C7: LinkNode tree structural invariants, amended.  `visited`
deduplicates URLs in *normalized* form while the root stores the raw
seed, so URL uniqueness additionally needs the seed to be a fixpoint of
normalization (otherwise the root's raw URL can reappear as a child,
see `C7_counterexample`).  Under that hypothesis, for every
configuration, fetch outcome and task interleaving, the returned tree
has root depth 0 with no parent URL, every child sits one level below
its container and carries the container's URL as `parent_url` (`wfB`),
and no URL occurs as the `url` of two nodes of the tree. -/
theorem C7_tree_invariants (cfg : MapperCfg)
    (fullHost : List Char → List Char)
    (fetch : List Char → FetchOutcome) (startUrl : List Char)
    (scheds : List (List WEv)) (root : LinkNode) (pages : Nat)
    (hseed : normalize_url cfg.pf startUrl = Except.ok startUrl)
    (h : map_links cfg fullHost fetch startUrl scheds
      = Except.ok (root, pages)) :
    root.depth = 0 ∧ root.parentUrl = none ∧ root.wfB = true ∧
    ((nodeTriples root).map (fun t => t.1)).Nodup := by
  simp only [map_links, hseed] at h
  rcases hres : (mapLevels cfg fullHost (fullHost startUrl) fetch
      (cfg.maxDepth + 1) 0 [(startUrl, none)] [startUrl] 0 scheds).1
    with _ | ⟨n, t⟩
  · rw [hres] at h
    exact Except.noConfusion h
  · rw [hres] at h
    simp only [Except.ok.injEq, Prod.mk.injEq] at h
    obtain ⟨hroot, hpages⟩ := h
    subst hroot
    have hS := mapLevels_forall₂ cfg fullHost (fullHost startUrl) fetch
      (cfg.maxDepth + 1) 0 [(startUrl, none)] [startUrl] 0 scheds
    rw [hres] at hS
    cases hS with
    | cons hp hrest =>
        obtain ⟨hu, hd, hpu, hwf⟩ := hp
        have hU := mapLevels_unique cfg fullHost (fullHost startUrl)
          fetch (cfg.maxDepth + 1) 0 [(startUrl, none)] [startUrl] 0
          scheds [] (List.nodup_singleton _) (by simp)
        have hnodup : (treeUrls (mapLevels cfg fullHost
            (fullHost startUrl) fetch (cfg.maxDepth + 1) 0
            [(startUrl, none)] [startUrl] 0 scheds).1).Nodup := by
          have hn := (hU.2).nodup hU.1
          rwa [List.append_nil] at hn
        rw [hres, treeUrls_cons] at hnodup
        exact ⟨hd, hpu, hwf, (List.nodup_append.mp hnodup).1⟩

theorem C7_tree_invariants_witness :
    (LinkNode.mk "https://h/p".data 0 none []).depth = 0 ∧
    (LinkNode.mk "https://h/p".data 0 none []).parentUrl = none ∧
    (LinkNode.mk "https://h/p".data 0 none []).wfB = true ∧
    ((nodeTriples (LinkNode.mk "https://h/p".data 0 none [])).map
      (fun t => t.1)).Nodup :=
  C7_tree_invariants ⟨0, 2, 1, false, false, false⟩ (fun _ => [])
    (fun _ => ⟨true, [], []⟩) "https://h/p".data
    [[WEv.acquire, WEv.finish 0]]
    (LinkNode.mk "https://h/p".data 0 none []) 1 (by rfl) (by rfl)

section MarkdownLemmas

theorem pyStrip_mem (c : Char) (s : List Char) (h : c ∈ pyStrip s) :
    c ∈ s := by
  simp only [pyStrip] at h
  rw [List.mem_reverse] at h
  have h2 := List.Sublist.mem h (List.dropWhile_sublist _)
  rw [List.mem_reverse] at h2
  exact List.Sublist.mem h2 (List.dropWhile_sublist _)

theorem splitOnChar_mem (sep c : Char) :
    ∀ (s part : List Char), part ∈ splitOnChar sep s → c ∈ part →
    c ∈ s := by
  intro s
  induction s with
  | nil =>
      intro part hpart hc
      simp only [splitOnChar, List.mem_singleton] at hpart
      subst hpart
      simp at hc
  | cons c0 rest ih =>
      intro part hpart hc
      cases hsp : splitOnChar sep rest with
      | nil =>
          simp only [splitOnChar, hsp, List.mem_singleton] at hpart
          subst hpart
          rw [List.mem_singleton] at hc
          subst hc
          exact List.mem_cons_self _ _
      | cons h t =>
          simp only [splitOnChar, hsp] at hpart
          by_cases hceq : c0 = sep
          · rw [if_pos hceq] at hpart
            rcases List.mem_cons.mp hpart with hp | hp
            · subst hp
              simp at hc
            · refine List.mem_cons_of_mem _ (ih part ?_ hc)
              rw [hsp]
              exact hp
          · rw [if_neg hceq] at hpart
            rcases List.mem_cons.mp hpart with hp | hp
            · subst hp
              rcases List.mem_cons.mp hc with hc | hc
              · subst hc
                exact List.mem_cons_self _ _
              · refine List.mem_cons_of_mem _ (ih h ?_ hc)
                rw [hsp]
                exact List.mem_cons_self _ _
            · refine List.mem_cons_of_mem _ (ih part ?_ hc)
              rw [hsp]
              exact List.mem_cons_of_mem _ hp

theorem joinChar_mem (sep c : Char) :
    ∀ (ls : List (List Char)), c ∈ joinChar sep ls →
    c = sep ∨ ∃ l ∈ ls, c ∈ l := by
  intro ls
  induction ls with
  | nil =>
      intro h
      simp [joinChar] at h
  | cons s rest ih =>
      intro h
      cases rest with
      | nil =>
          refine Or.inr ⟨s, List.mem_cons_self _ _, ?_⟩
          simpa [joinChar] using h
      | cons s2 r2 =>
          have hj : joinChar sep (s :: s2 :: r2)
              = s ++ sep :: joinChar sep (s2 :: r2) := rfl
          rw [hj] at h
          rcases List.mem_append.mp h with h | h
          · exact Or.inr ⟨s, List.mem_cons_self _ _, h⟩
          · rcases List.mem_cons.mp h with h | h
            · exact Or.inl h
            · rcases ih h with h | ⟨l, hl, hcl⟩
              · exact Or.inl h
              · exact Or.inr ⟨l, List.mem_cons_of_mem _ hl, hcl⟩

end MarkdownLemmas

/-- C1, counterexample at the claim's own concrete input.  For a page
whose body is `<h1>Hi</h1>` plus two anchors, the fetch pipeline's
markdown is the plain extracted text `Hi\nA\nO`: the heading text
appears, but with no `# ` prefix — `_html_to_markdown` is text
extraction and never emits heading markers (the `#`-rendering
`MarkdownConverter` is not called by the pipeline). -/
theorem C1_counterexample :
    html_to_markdown pageHi = "Hi\nA\nO".data ∧
    ¬ List.IsInfix "# Hi".data (html_to_markdown pageHi) := by
  constructor
  · rfl
  · decide

/-- C1, amended: the markdown produced by the fetch pipeline is plain
text extraction — every character of `_html_to_markdown`'s output is a
newline or a character of the page's text content after script/style
removal.  In particular no `#` heading marker is ever introduced:
headings are *not* rendered with `#…######` prefixes. -/
theorem C1_markdown_plaintext (dom : Dom) (c : Char)
    (hc : c ∈ html_to_markdown dom) :
    c = '\n' ∨ c ∈ textContent (removeScriptStyle dom) := by
  simp only [html_to_markdown] at hc
  rcases joinChar_mem '\n' c _ hc with h | ⟨l, hl, hcl⟩
  · exact Or.inl h
  · rw [List.mem_filter] at hl
    obtain ⟨hl, _⟩ := hl
    rw [List.mem_map] at hl
    obtain ⟨part, hpart, hlp⟩ := hl
    subst hlp
    exact Or.inr (splitOnChar_mem '\n' c _ part hpart
      (pyStrip_mem c part hcl))

theorem C1_markdown_plaintext_witness :
    'H' ∈ html_to_markdown pageHi ∧
    ('H' = '\n' ∨ 'H' ∈ textContent (removeScriptStyle pageHi)) :=
  ⟨by decide, C1_markdown_plaintext pageHi 'H' (by decide)⟩

end CrawlerWhip
